import Mathlib

/-!
# mmdb2: the tree-indexed key-value store (`treedb.go`)

A shallow embedding of `src/mmdb2/treedb.go`: the key order (`decodeItem`,
`compareItem`), the load flags, the log loader `DB.load`, the indexing path
`DB.indexRecord` and the public `Get`/`Put`/`Delete`/`PutRAW` surface.

Conventions of the embedding.

* A byte slice is a `List Nat`; a `uint32`/`uint64` is a `Nat`.
* A `**Value` is the address of a mutable cell; the cells live in an explicit
  store `Cells` (a list indexed by address, `none` being a cell that holds the
  nil pointer).  A `*Value` is the `Value` it points to: a `Value` is not
  changed once its hash has been set.
* Tree nodes and `Treap` objects are immutable.  A node is a value of the
  inductive type `node`; a `*gtreap.Treap` is the allocation identity of the
  `Treap` object together with its content (`TreapPtr`).
* A run that would dereference a nil pointer, or that runs out of fuel,
  yields `none`.
-/

namespace Mmdb2

/-- A byte slice. -/
abbrev Bytes := List Nat

/-! ## Go standard library: `bytes.Compare` -/

/-- The function `bytes.Compare` of the Go standard library: -1, 0 or +1 as
`a` is lexicographically less than, equal to or greater than `b`. -/
def bytesCompare : Bytes → Bytes → Int
  | [], [] => 0
  | [], _ :: _ => -1
  | _ :: _, [] => 1
  | a :: as, b :: bs =>
    if a < b then -1 else if b < a then 1 else bytesCompare as bs

/-! ## Load flags (`treedb.go` lines 33-46) -/

/-- The type `LoadFlags` (a Go `uint`). -/
abbrev LoadFlags := Nat

/-- The constant `L_NONE LoadFlags = 0`. -/
def L_NONE : LoadFlags := 0

/-- The constant `L_HASHED LoadFlags = 1<<iota`; it is the second constant of
the block, so `iota` is 1. -/
def L_HASHED : LoadFlags := 1 <<< 1

/-- The constant `L_STOP_INVALID` (implicit repetition of `1<<iota`, `iota` = 2). -/
def L_STOP_INVALID : LoadFlags := 1 <<< 2

/-- The constant `L_DISCARD_INVALID_TAIL` (implicit repetition, `iota` = 3). -/
def L_DISCARD_INVALID_TAIL : LoadFlags := 1 <<< 3

/-- The method `func (l LoadFlags) has(f LoadFlags) bool { return (l&f)!=0 }`. -/
def LoadFlags.has (l f : LoadFlags) : Bool := (l &&& f) != 0

/-! ## Records, items and cells -/

/-- Modelled from the spec: the decoded record `Value` of the record codec
(declared elsewhere in package `mmdb2`, not under src/): the byte span of the
record, its key bytes, its value bytes and the settable precomputed hash. -/
structure Value where
  /-- The field `Record`: the bytes of the whole record. -/
  Record : Bytes
  /-- The key bytes. -/
  key : Bytes
  /-- The value bytes; empty for a tombstone. -/
  value : Bytes
  /-- The precomputed hash field. -/
  hash : Nat
  deriving DecidableEq, Repr

/-- Modelled from the spec: the accessor `GKey` for the key bytes. -/
def Value.GKey (v : Value) : Bytes := v.key

/-- Modelled from the spec: the accessor `GValue` for the value bytes. -/
def Value.GValue (v : Value) : Bytes := v.value

/-- Modelled from the spec: the accessor `GHash` for the precomputed hash. -/
def Value.GHash (v : Value) : Nat := v.hash

/-- Modelled from the spec: the setter `sHash` of the precomputed hash. -/
def Value.sHash (v : Value) (h : Nat) : Value := { v with hash := h }

/-- The store of `*Value` cells: the cell at address `a` holds `none` (nil)
or a pointer to a `Value`. -/
abbrev Cells := List (Option Value)

/-- The `interface{}` values handed to `decodeItem`: a `**Value` (the address
of a cell), an `iKey` or a `*iKey` (struct of `hash uint32` and `data []byte`). -/
inductive Item where
  | cell (addr : Nat)
  | iKey (hash : Nat) (data : Bytes)
  | iKeyPtr (hash : Nat) (data : Bytes)
  deriving DecidableEq, Repr

/-- The function `decodeItem` (lines 53-63).  The trailing `panic("...")` is for
dynamic types other than the three of `Item`.  `(*v).GHash()` on a cell that
is nil or not allocated has no result. -/
def decodeItem (cells : Cells) : Item → Option (Nat × Bytes)
  | .cell addr =>
    match cells[addr]? with
    | some (some v) => some (v.GHash, v.GKey)
    | _ => none
  | .iKey hash data => some (hash, data)
  | .iKeyPtr hash data => some (hash, data)

/-- The `switch` of `compareItem` (lines 69-73) on the decoded pairs. -/
def compareKey (A B : Nat × Bytes) : Int :=
  if A.1 > B.1 then 1
  else if A.1 < B.1 then -1
  else bytesCompare A.2 B.2

/-- The function `compareItem` (lines 65-74). -/
def compareItem (cells : Cells) (a b : Item) : Option Int :=
  match decodeItem cells a with
  | none => none
  | some A =>
    match decodeItem cells b with
    | none => none
    | some B => some (compareKey A B)

/-! ## The persistent treap engine -/

/-- Modelled from the spec: a tree node of the persistent treap engine
(package `gtreap`, imported by `treedb.go`, not under src/): an item (which
carries the key), an integer priority and the two child subtrees. -/
inductive node where
  | nil
  | mk (item : Item) (priority : Int) (left right : node)
  deriving DecidableEq, Repr

/-- Modelled from the spec: a `*gtreap.Treap` (a root of the persistent treap
engine): the address of the `Treap` object and, the object being immutable,
its content (the root node).  The compare function of every `Treap` of this
program is `compareItem`. -/
structure TreapPtr where
  /-- The address of the `Treap` object. -/
  addr : Nat
  /-- The root node of the `Treap` object. -/
  root : node
  deriving DecidableEq, Repr

/-- Number of nodes of a tree. -/
def node.size : node → Nat
  | .nil => 0
  | .mk _ _ l r => l.size + r.size + 1

/-- In-order traversal of the items of a tree. -/
def node.items : node → List Item
  | .nil => []
  | .mk item _ l r => l.items ++ item :: r.items

/-- Modelled from the spec: `lookup(root, key)` of the treap engine, "standard
binary search by Key ordering"; `some none` is not-found. -/
def node.Get (cells : Cells) : node → Item → Option (Option Item)
  | .nil, _ => some none
  | .mk item _ left right, target =>
    match compareItem cells target item with
    | none => none
    | some c =>
      if c < 0 then node.Get cells left target
      else if c > 0 then node.Get cells right target
      else some (some item)

/-- Modelled from the spec: one upward rotation step of `upsert` on the left:
the left child is lifted above its parent when its priority exceeds the
parent's. -/
def node.liftLeft (item : Item) (priority : Int) (left right : node) : node :=
  match left with
  | .mk litem lprio ll lr =>
    if lprio > priority then .mk litem lprio ll (.mk item priority lr right)
    else .mk item priority left right
  | .nil => .mk item priority left right

/-- Modelled from the spec: one upward rotation step of `upsert` on the right:
the right child is lifted above its parent when its priority exceeds the
parent's. -/
def node.liftRight (item : Item) (priority : Int) (left right : node) : node :=
  match right with
  | .mk ritem rprio rl rr =>
    if rprio > priority then .mk ritem rprio (.mk item priority left rl) rr
    else .mk item priority left right
  | .nil => .mk item priority left right

/-- Modelled from the spec: `upsert(root, key, payload, priority)` of the treap
engine on nodes.  An existing key keeps its node (shape and priority) and gets
the new payload reference; a new key is inserted as a leaf carrying `priority`
and rotated upward while its priority exceeds its parent's. -/
def node.Upsert (cells : Cells) : node → Item → Int → Option node
  | .nil, item, priority => some (.mk item priority .nil .nil)
  | .mk nitem nprio left right, item, priority =>
    match compareItem cells item nitem with
    | none => none
    | some c =>
      if c < 0 then
        match node.Upsert cells left item priority with
        | none => none
        | some left' => some (node.liftLeft nitem nprio left' right)
      else if c > 0 then
        match node.Upsert cells right item priority with
        | none => none
        | some right' => some (node.liftRight nitem nprio left right')
      else some (.mk item nprio left right)

/-- Modelled from the spec: the removal of a located node, "rotate it downward
(repeatedly rotating with whichever child has higher priority) until it is a
leaf, then remove it".  The arguments are the two subtrees of the node that
sinks; each rotation lifts the root of one of them. -/
def node.sink : node → node → node
  | .nil, right => right
  | left, .nil => left
  | .mk litem lprio ll lr, .mk ritem rprio rl rr =>
    if lprio > rprio then .mk litem lprio ll (node.sink lr (.mk ritem rprio rl rr))
    else .mk ritem rprio (node.sink (.mk litem lprio ll lr) rl) rr
termination_by l r => l.size + r.size
decreasing_by
  all_goals simp_wf
  all_goals simp only [node.size]
  all_goals omega

/-- Modelled from the spec: `delete(root, key)` of the treap engine on nodes:
locate the node, then remove it by `node.sink`; a tree without the key is
rebuilt unchanged. -/
def node.Delete (cells : Cells) : node → Item → Option node
  | .nil, _ => some .nil
  | .mk nitem nprio left right, target =>
    match compareItem cells target nitem with
    | none => none
    | some c =>
      if c < 0 then
        match node.Delete cells left target with
        | none => none
        | some left' => some (.mk nitem nprio left' right)
      else if c > 0 then
        match node.Delete cells right target with
        | none => none
        | some right' => some (.mk nitem nprio left right')
      else some (node.sink left right)

/-- Modelled from the spec: `NewTreap(compareItem)`: a new, empty `Treap` at
the address `next`. -/
def NewTreap (next : Nat) : TreapPtr × Nat := (⟨next, .nil⟩, next + 1)

/-- Modelled from the spec: the method `Get` of a `Treap`. -/
def TreapPtr.Get (cells : Cells) (t : TreapPtr) (target : Item) : Option (Option Item) :=
  node.Get cells t.root target

/-- Modelled from the spec: the method `Upsert` of a `Treap`.  For a key that
is absent the new root is a new `Treap` object at the address `next`; for a
key that is present the spec has the payload reference replaced "in place on
the existing node" and "the same root" returned (`treedb.go` calls `Upsert`
only after `Get` found no such key in the same `Treap`). -/
def TreapPtr.Upsert (cells : Cells) (t : TreapPtr) (item : Item) (priority : Int)
    (next : Nat) : Option (TreapPtr × Nat) :=
  match node.Get cells t.root item with
  | none => none
  | some found =>
    match node.Upsert cells t.root item priority with
    | none => none
    | some root' =>
      match found with
      | none => some (⟨next, root'⟩, next + 1)
      | some _ => some (⟨t.addr, root'⟩, next)

/-- Modelled from the spec: the method `Delete` of a `Treap`: "If key absent,
returns root unchanged" (the same reference, nothing allocated); otherwise the
new root is a new `Treap` object at the address `next`. -/
def TreapPtr.Delete (cells : Cells) (t : TreapPtr) (target : Item)
    (next : Nat) : Option (TreapPtr × Nat) :=
  match node.Get cells t.root target with
  | none => none
  | some none => some (t, next)
  | some (some _) =>
    match node.Delete cells t.root target with
    | none => none
    | some root' => some (⟨next, root'⟩, next + 1)

/-! ## Collaborators of `treedb.go` that are not under src/ -/

/-- Modelled from the spec: the Go `error` values `treedb.go` tells apart: the
two sentinel errors `EShortRecord` and `EInvalidRecord` of the record codec
(declared elsewhere in package `mmdb2`, not under src/), and any other error. -/
inductive Error where
  | EShortRecord
  | EInvalidRecord
  | other (code : Nat)
  deriving DecidableEq, Repr

/-- The functions `treedb.go` calls and that are declared outside it, taken as
parameters: the two `farm` hash functions, the record codec (`Value.Decode`,
`Value.Set`, `recordLength`, `encodeRecordInto`) and the methods of the log
`Chunk` (whose state is the type `Chunk`).  A method with a pointer receiver
returns the new state of the receiver next to its Go results; an `error`
result is `none` for `nil`. -/
structure Env (Chunk : Type) where
  /-- The function `farm.Fingerprint32`. -/
  Fingerprint32 : Bytes → Nat
  /-- The function `farm.Hash64WithSeed`. -/
  Hash64WithSeed : Bytes → Nat → Nat
  /-- The method `v.Decode(mem)` on a new `Value`: the decoded `Value` (its
  `Record` is the span consumed) and the error. -/
  Decode : Bytes → Value × Option Error
  /-- The call `new(Value).Set(record)`. -/
  Set : Bytes → Value
  /-- The function `recordLength(len(key), len(value))`. -/
  recordLength : Nat → Nat → Int × Option Error
  /-- The function `encodeRecordInto(record, key, value)`: the content of the
  slice `record` after the call. -/
  encodeRecordInto : Bytes → Bytes → Bytes → Bytes
  /-- The method `Chunk.GetCommitted`. -/
  GetCommitted : Chunk → Bytes × Int
  /-- The method `Chunk.SetLast`. -/
  SetLast : Chunk → Int → Chunk
  /-- The method `Chunk.Append`. -/
  Append : Chunk → Bytes → (Bytes × Int × Option Error) × Chunk
  /-- The method `Chunk.Skip`. -/
  Skip : Chunk → Int → (Bytes × Int × Option Error) × Chunk
  /-- The method `Chunk.Snapshot`. -/
  Snapshot : Chunk → Chunk

/-! ## The database (`treedb.go` lines 76-260) -/

/-- The struct `DB` (lines 76-81), together with the part of the Go heap its
methods work on: the `*Value` cells and the next free address for a `Treap`
object. -/
structure DB (Chunk : Type) where
  /-- The field `tree unsafe.Pointer // *gtreap.Treap`. -/
  tree : TreapPtr
  /-- The field `Ch *Chunk`. -/
  Ch : Chunk
  /-- The field `seed uint64`. -/
  seed : Nat
  /-- The field `flags LoadFlags`. -/
  flags : LoadFlags
  /-- Heap: the `*Value` cells. -/
  cells : Cells
  /-- Heap: the address the next `Treap` object gets. -/
  nextTreap : Nat

/-- The expression `new(*Value)`: a new cell holding nil; its address. -/
def newCell (cells : Cells) : Nat × Cells := (cells.length, cells ++ [none])

/-- The assignment `*vv = v` to the cell at address `vv`. -/
def storeCell (cells : Cells) (vv : Nat) (v : Value) : Cells := cells.set vv (some v)

/-- The conversion `int(x)` of a `uint64` to the 64-bit signed `int`. -/
def int64 (x : Nat) : Int :=
  if x % 2 ^ 64 < 2 ^ 63 then ((x % 2 ^ 64 : Nat) : Int) else ((x % 2 ^ 64 : Nat) : Int) - 2 ^ 64

/-- The priority of a new node (lines 136-137 and 181-182):
`priority := int(farm.Hash64WithSeed(record, seed)); if priority<0 { priority = ^priority }`. -/
def computePriority {Chunk : Type} (env : Env Chunk) (record : Bytes) (seed : Nat) : Int :=
  let priority := int64 (env.Hash64WithSeed record seed)
  if priority < 0 then ~~~priority else priority

/-- The method `DB.hash` (lines 95-98), on the flags of the `DB`. -/
def hashOf {Chunk : Type} (env : Env Chunk) (flags : LoadFlags) (b : Bytes) : Nat :=
  if !flags.has L_HASHED then 0 else env.Fingerprint32 b % 2 ^ 32

/-- The method `DB.hash` (lines 95-98). -/
def DB.hash {Chunk : Type} (env : Env Chunk) (db : DB Chunk) (b : Bytes) : Nat :=
  hashOf env db.flags b

/-- The value of the integer `x` as an `int64`: the arithmetic of `int64`
wraps around modulo 2^64 into the range from -2^63 to 2^63 - 1. -/
def wrapInt64 (x : Int) : Int := (x + 2 ^ 63) % 2 ^ 64 - 2 ^ 63

/-- The local variables of `DB.load` inside its `for` loop (lines 100-144),
with the part of the heap the loop works on.  The locals `pos` and `usedPos`
are `int64`: every value `DB.loadInit` and `DB.loadLoop` give them is in the
range of `int64`. -/
structure LoadState where
  /-- The local `mem`: the bytes not yet scanned. -/
  mem : Bytes
  /-- The local `pos` (an `int64`): the offset of the first byte of `mem`. -/
  pos : Int
  /-- The local `t`: the tree built so far. -/
  t : TreapPtr
  /-- The local `vv`: the address of the scratch cell. -/
  vv : Nat
  /-- The local `usedPos` (an `int64`): "the end of the last valid record in
  the log". -/
  usedPos : Int
  /-- Heap: the `*Value` cells. -/
  cells : Cells
  /-- Heap: the address the next `Treap` object gets. -/
  nextTreap : Nat

/-- Lines 118-143 of `DB.load`: the loop body for a record `v` that decoded
without error, `st.pos` being the offset after the record.  The cell `vv`
holds the pointer `v`, so the hash set by `sHash` is seen through it. -/
def DB.loadRecord {Chunk : Type} (env : Env Chunk) (flags : LoadFlags) (seed : Nat)
    (st : LoadState) (v : Value) : Option LoadState :=
  let v := v.sHash (hashOf env flags v.GKey)
  let cells := storeCell st.cells st.vv v
  if v.GValue.length = 0 then
    match st.t.Get cells (.cell st.vv) with
    | none => none
    | some none => some { st with cells := cells, usedPos := st.pos }
    | some (some _) =>
      match st.t.Delete cells (.cell st.vv) st.nextTreap with
      | none => none
      | some (t, next) =>
        some { st with cells := cells, t := t, nextTreap := next, usedPos := st.pos }
  else
    match st.t.Get cells (.cell st.vv) with
    | none => none
    | some (some oo) =>
      match oo with
      | .cell a => some { st with cells := storeCell cells a v, usedPos := st.pos }
      | _ => none
    | some none =>
      let priority := computePriority env v.Record seed
      match st.t.Upsert cells (.cell st.vv) priority st.nextTreap with
      | none => none
      | some (t, next) =>
        some { st with cells := (newCell cells).2, t := t, nextTreap := next,
                       vv := (newCell cells).1, usedPos := st.pos }

/-- The `for` loop of `DB.load` (lines 108-144); `fuel` bounds the number of
iterations, and the result is the state at the `break`.  The statement
`pos += int64(len(v.Record))` is an addition of `int64`, which wraps. -/
def DB.loadLoop {Chunk : Type} (env : Env Chunk) (flags : LoadFlags) (seed : Nat) :
    Nat → LoadState → Option LoadState
  | 0, _ => none
  | fuel + 1, st =>
    let v := (env.Decode st.mem).1
    let err := (env.Decode st.mem).2
    if err = some Error.EShortRecord then some st
    else if err = some Error.EInvalidRecord ∧ flags.has L_STOP_INVALID = true then some st
    else
      let st := { st with mem := st.mem.drop v.Record.length,
                          pos := wrapInt64 (st.pos + (v.Record.length : Int)) }
      if err ≠ none then DB.loadLoop env flags seed fuel st
      else
        match DB.loadRecord env flags seed st v with
        | none => none
        | some st => DB.loadLoop env flags seed fuel st

/-- The state of the locals of `DB.load` when its loop is entered (lines
100-107).  The offset that `GetCommitted` returns is an `int64`. -/
def DB.loadInit {Chunk : Type} (env : Env Chunk) (db : DB Chunk) : LoadState :=
  { mem := (env.GetCommitted db.Ch).1
    pos := wrapInt64 (env.GetCommitted db.Ch).2
    t := db.tree
    vv := (newCell db.cells).1
    usedPos := wrapInt64 (env.GetCommitted db.Ch).2
    cells := (newCell db.cells).2
    nextTreap := db.nextTreap }

/-- The method `DB.load` (lines 99-149). -/
def DB.load {Chunk : Type} (env : Env Chunk) (fuel : Nat) (db : DB Chunk) : Option (DB Chunk) :=
  match DB.loadLoop env db.flags db.seed fuel (DB.loadInit env db) with
  | none => none
  | some st =>
    let db := { db with tree := st.t, cells := st.cells, nextTreap := st.nextTreap }
    if db.flags.has L_DISCARD_INVALID_TAIL then
      some { db with Ch := env.SetLast db.Ch st.usedPos }
    else some db

/-- The method `DB.Open` (lines 88-94); `now` is `time.Now().Unix()`. -/
def DB.Open {Chunk : Type} (env : Env Chunk) (fuel : Nat) (db : DB Chunk) (flags : LoadFlags)
    (now : Nat) : Option (DB Chunk) :=
  DB.load env fuel
    { db with seed := now % 2 ^ 64, tree := (NewTreap db.nextTreap).1,
              nextTreap := (NewTreap db.nextTreap).2, flags := flags }

/-- What one pass of `DB.indexRecord` from the label `restart` to a
compare-and-swap (or to the `return`) yields: `done` when the pass ends
without a compare-and-swap, `swap` when it reaches one with the new pointer
`nptr`. -/
inductive Attempt where
  | done (cells : Cells)
  | swap (nptr : TreapPtr) (next : Nat) (priority : Int)

/-- Lines 161-186 of `DB.indexRecord`: one pass on the tree `tree` read from
the root slot, up to the compare-and-swap. -/
def DB.indexAttempt {Chunk : Type} (env : Env Chunk) (seed : Nat) (record : Bytes) (v : Value)
    (vv : Nat) (priority : Int) (tree : TreapPtr) (cells : Cells) (next : Nat) :
    Option Attempt :=
  if v.GValue.length = 0 then
    match tree.Get cells (.cell vv) with
    | none => none
    | some none => some (.done cells)
    | some (some _) =>
      match tree.Delete cells (.cell vv) next with
      | none => none
      | some (tree', next') => some (.swap tree' next' priority)
  else
    match tree.Get cells (.cell vv) with
    | none => none
    | some (some oo) =>
      match oo with
      | .cell a => some (.done (storeCell cells a v))
      | _ => none
    | some none =>
      let priority := if priority < 0 then computePriority env record seed else priority
      match tree.Upsert cells (.cell vv) priority next with
      | none => none
      | some (tree', next') => some (.swap tree' next' priority)

/-- The loop of `DB.indexRecord` formed by the label `restart` and the two
`goto restart` (lines 158-187), run with no other writer; `fuel` bounds the
number of passes. -/
def DB.indexLoop {Chunk : Type} (env : Env Chunk) (record : Bytes) (v : Value) (vv : Nat) :
    Nat → Int → DB Chunk → Option (DB Chunk)
  | 0, _, _ => none
  | fuel + 1, priority, db =>
    let ptr := db.tree
    match DB.indexAttempt env db.seed record v vv priority ptr db.cells db.nextTreap with
    | none => none
    | some (.done cells) => some { db with cells := cells }
    | some (.swap nptr next priority) =>
      let db := { db with nextTreap := next }
      if db.tree.addr = ptr.addr then some { db with tree := nptr }
      else DB.indexLoop env record v vv fuel priority db

/-- The method `DB.indexRecord` (lines 150-190). -/
def DB.indexRecord {Chunk : Type} (env : Env Chunk) (fuel : Nat) (db : DB Chunk)
    (record : Bytes) : Option (DB Chunk × Option Error) :=
  let v := (env.Set record).sHash (db.hash env (env.Set record).GKey)
  let vv := (newCell db.cells).1
  let cells := storeCell (newCell db.cells).2 vv v
  match DB.indexLoop env record v vv fuel (-1) { db with cells := cells } with
  | none => none
  | some db => some (db, none)

/-- The method `DB.PutRAW` (lines 192-197). -/
def DB.PutRAW {Chunk : Type} (env : Env Chunk) (fuel : Nat) (db : DB Chunk) (record : Bytes) :
    Option (DB Chunk × Option Error) :=
  let r := env.Append db.Ch record
  let db := { db with Ch := r.2 }
  if r.1.2.2 ≠ none then some (db, r.1.2.2)
  else DB.indexRecord env fuel db r.1.1

/-- The method `DB.Put` (lines 201-211). -/
def DB.Put {Chunk : Type} (env : Env Chunk) (fuel : Nat) (db : DB Chunk) (key value : Bytes) :
    Option (DB Chunk × Option Error) :=
  let rl := env.recordLength key.length value.length
  if rl.2 ≠ none then some (db, rl.2)
  else
    let r := env.Skip db.Ch rl.1
    let db := { db with Ch := r.2 }
    if r.1.2.2 ≠ none then some (db, r.1.2.2)
    else
      let record := env.encodeRecordInto r.1.1 key value
      DB.indexRecord env fuel db record

/-- The method `DB.Delete` (lines 198-200): `return db.Put(key,nil)`. -/
def DB.Delete {Chunk : Type} (env : Env Chunk) (fuel : Nat) (db : DB Chunk) (key : Bytes) :
    Option (DB Chunk × Option Error) :=
  DB.Put env fuel db key []

/-- The method `DB.GetRecord` (lines 223-237): the results `v` (`none` is the
nil pointer) and `ok`. -/
def DB.GetRecord {Chunk : Type} (env : Env Chunk) (db : DB Chunk) (key : Bytes)
    (synced : Bool) : Option (Option Value × Bool) :=
  let ptr := if synced then db.tree else db.tree
  match ptr.Get db.cells (.iKey (db.hash env key) key) with
  | none => none
  | some (some (.cell vv)) =>
    match db.cells[vv]? with
    | none => none
    | some v => some (v, true)
  | some _ => some (none, false)

/-- The method `DB.Get` (lines 248-256): the results `mkey`, `value` (`[]` is
the nil slice) and `ok`. -/
def DB.Get {Chunk : Type} (env : Env Chunk) (db : DB Chunk) (key : Bytes)
    (synced : Bool) : Option (Bytes × Bytes × Bool) :=
  match DB.GetRecord env db key synced with
  | none => none
  | some (v, ok) =>
    if ok then
      match v with
      | none => none
      | some v => some (v.GKey, v.GValue, true)
    else some ([], [], false)

/-- The method `DB.Commit` (lines 258-260). -/
def DB.Commit {Chunk : Type} (env : Env Chunk) (db : DB Chunk) : DB Chunk :=
  { db with Ch := env.Snapshot db.Ch }

/-! ## Concurrent calls of `DB.Put`

Several goroutines run `DB.Put` on one `DB`.  A goroutine takes one step at a
time; a step is a stretch of `Put` (with `indexRecord` inlined) that holds at
most one access to the memory the goroutines share: the reservation in the
log, the allocation of the cell `vv`, the atomic load of the root slot, the
pass over the tree that was read (whose nodes are immutable), and the
compare-and-swap of the root slot. -/

/-- Where a goroutine that runs `DB.Put(key, value)` stands, with the locals
of `DB.indexRecord` that are live there. -/
inductive Pc where
  /-- Before line 204 of `Put`. -/
  | start
  /-- Before line 151: the record is reserved and encoded. -/
  | index (record : Bytes)
  /-- At the label `restart` (line 158). -/
  | restart (record : Bytes) (v : Value) (vv : Nat) (priority : Int)
  /-- After the atomic load of line 160, which read `ptr`. -/
  | loaded (record : Bytes) (v : Value) (vv : Nat) (priority : Int) (ptr : TreapPtr)
  /-- Before the compare-and-swap of line 168 or 186, from `ptr` to `nptr`. -/
  | cas (record : Bytes) (v : Value) (vv : Nat) (priority : Int) (ptr nptr : TreapPtr)
  /-- After the `return` of `Put`, with its result `err`. -/
  | returned (err : Option Error)
  deriving DecidableEq, Repr

/-- A goroutine that runs `DB.Put(key, value)`. -/
structure Thread where
  /-- The argument `key`. -/
  key : Bytes
  /-- The argument `value`. -/
  value : Bytes
  /-- Where the goroutine stands. -/
  pc : Pc
  deriving DecidableEq, Repr

/-- The goroutine has returned from `Put` with a nil error. -/
def Thread.succeeded (t : Thread) : Bool :=
  match t.pc with
  | .returned none => true
  | _ => false

/-- One step of a goroutine that runs `DB.Put` on the shared `db`: the `DB`
and the goroutine after the step; `none` when the goroutine has returned
already (or when the step dereferences a nil pointer). -/
def DB.stepPut {Chunk : Type} (env : Env Chunk) (db : DB Chunk) (t : Thread) :
    Option (DB Chunk × Thread) :=
  match t.pc with
  | .start =>
    let rl := env.recordLength t.key.length t.value.length
    if rl.2 ≠ none then some (db, { t with pc := .returned rl.2 })
    else
      let r := env.Skip db.Ch rl.1
      let db := { db with Ch := r.2 }
      if r.1.2.2 ≠ none then some (db, { t with pc := .returned r.1.2.2 })
      else some (db, { t with pc := .index (env.encodeRecordInto r.1.1 t.key t.value) })
  | .index record =>
    let v := (env.Set record).sHash (db.hash env (env.Set record).GKey)
    let vv := (newCell db.cells).1
    let cells := storeCell (newCell db.cells).2 vv v
    some ({ db with cells := cells }, { t with pc := .restart record v vv (-1) })
  | .restart record v vv priority =>
    some (db, { t with pc := .loaded record v vv priority db.tree })
  | .loaded record v vv priority ptr =>
    match DB.indexAttempt env db.seed record v vv priority ptr db.cells db.nextTreap with
    | none => none
    | some (.done cells) => some ({ db with cells := cells }, { t with pc := .returned none })
    | some (.swap nptr next priority) =>
      some ({ db with nextTreap := next },
        { t with pc := .cas record v vv priority ptr nptr })
  | .cas record v vv priority ptr nptr =>
    if db.tree.addr = ptr.addr then
      some ({ db with tree := nptr }, { t with pc := .returned none })
    else some (db, { t with pc := .restart record v vv priority })
  | .returned _ => none

/-- The shared `DB` and the goroutines that run `Put` on it. -/
structure Conc (Chunk : Type) where
  /-- The shared `DB`. -/
  db : DB Chunk
  /-- The goroutines. -/
  threads : List Thread

/-- The goroutine number `i` takes one step. -/
def Conc.step {Chunk : Type} (env : Env Chunk) (s : Conc Chunk) (i : Nat) :
    Option (Conc Chunk) :=
  match s.threads[i]? with
  | none => none
  | some t =>
    match DB.stepPut env s.db t with
    | none => none
    | some (db', t') => some { db := db', threads := s.threads.set i t' }

/-- An interleaving: the goroutines take steps in the order of the schedule,
a list of goroutine numbers. -/
def Conc.run {Chunk : Type} (env : Env Chunk) : List Nat → Conc Chunk → Option (Conc Chunk)
  | [], s => some s
  | i :: sched, s =>
    match s.step env i with
    | none => none
    | some s' => Conc.run env sched s'

/-- The state in which the calls `Put(k, v)`, for the pairs `(k, v)` of `kvs`,
have been issued on `db` and none has taken a step. -/
def Conc.issue {Chunk : Type} (db : DB Chunk) (kvs : List (Bytes × Bytes)) : Conc Chunk :=
  { db := db, threads := kvs.map (fun kv => { key := kv.1, value := kv.2, pc := .start }) }

/-- One goroutine runs `Put` with no other goroutine: it takes steps until it
has returned, `fuel` steps at most; the `DB` and the error returned. -/
def DB.runAlone {Chunk : Type} (env : Env Chunk) : Nat → DB Chunk → Thread →
    Option (DB Chunk × Option Error)
  | 0, _, _ => none
  | fuel + 1, db, t =>
    match t.pc with
    | .returned err => some (db, err)
    | _ =>
      match DB.stepPut env db t with
      | none => none
      | some (db', t') => DB.runAlone env fuel db' t'

/-! ## A concrete instance of the collaborators

A small record codec and an in-memory log, on which the definitions above
can be evaluated.  A record is `[tag, len(key), len(value)] ++ key ++ value`;
the tag 1 marks a well-formed record, any other tag a malformed one. -/

/-- The in-memory log of the concrete instance: the committed bytes, the offset
of their first byte, the durable length, the free space, and the arguments of
the calls of `SetLast` made so far. -/
structure DemoChunk where
  mem : Bytes
  base : Int
  last : Int
  free : Nat
  calls : List Int
  deriving DecidableEq, Repr

/-- The record parser of the concrete instance. -/
def demoParse (mem : Bytes) : Value :=
  match mem with
  | _ :: klen :: vlen :: rest =>
    { Record := mem.take (3 + klen + vlen), key := rest.take klen,
      value := (rest.drop klen).take vlen, hash := 0 }
  | _ => { Record := [], key := [], value := [], hash := 0 }

/-- The record decoder of the concrete instance. -/
def demoDecode (mem : Bytes) : Value × Option Error :=
  match mem with
  | tag :: klen :: vlen :: rest =>
    if rest.length < klen + vlen then (demoParse [], some Error.EShortRecord)
    else if tag = 1 then (demoParse mem, none)
    else (demoParse mem, some Error.EInvalidRecord)
  | _ => (demoParse [], some Error.EShortRecord)

/-- The concrete instance of the collaborators. -/
def demoEnv : Env DemoChunk where
  Fingerprint32 := fun b => b.sum
  Hash64WithSeed := fun b seed => b.sum * 31 + seed
  Decode := demoDecode
  Set := demoParse
  recordLength := fun klen vlen =>
    if klen < 16 ∧ vlen < 16 then ((3 + klen + vlen : Nat), none) else (0, some (Error.other 1))
  encodeRecordInto := fun _ key value => 1 :: key.length :: value.length :: (key ++ value)
  GetCommitted := fun c => (c.mem, c.base)
  SetLast := fun c off => { c with last := off, calls := c.calls ++ [off] }
  Append := fun c record =>
    if record.length ≤ c.free then
      ((record, c.last, none), { c with last := c.last + record.length, free := c.free - record.length })
    else (([], 0, some (Error.other 2)), c)
  Skip := fun c n =>
    if n.toNat ≤ c.free then
      ((List.replicate n.toNat 0, c.last, none), { c with last := c.last + n, free := c.free - n.toNat })
    else (([], 0, some (Error.other 2)), c)
  Snapshot := fun c => c

/-- A `DB` on the log `ch`, before `Open`. -/
def demoDB (ch : DemoChunk) (flags : LoadFlags) : DB DemoChunk :=
  { tree := ⟨0, .nil⟩, Ch := ch, seed := 7, flags := flags, cells := [], nextTreap := 1 }

/-! ## Invariants -/

/-- The item `a` sorts strictly before the item `b` in the (hash, raw) key
order, both being decodable in `cells`. -/
def itemLt (cells : Cells) (a b : Item) : Prop :=
  ∃ A B, decodeItem cells a = some A ∧ decodeItem cells b = some B ∧ compareKey A B = -1

/-- A list of items is decodable and strictly increasing in the key order. -/
def SortedItems (cells : Cells) (xs : List Item) : Prop :=
  (∀ x ∈ xs, ∃ A, decodeItem cells x = some A) ∧ xs.Pairwise (itemLt cells)

/-- The search-tree invariant: the in-order traversal of the tree is strictly
increasing in the key order. -/
def node.Ordered (cells : Cells) (t : node) : Prop := SortedItems cells t.items

/-- The invariant of an index (the cells and the root of the tree), for the
hash mode `flags`: the search-tree invariant holds, and every item of the tree
is the address of a cell that holds a record whose precomputed hash is the
hash of its key and whose value is not empty. -/
structure IndexInv {Chunk : Type} (env : Env Chunk) (flags : LoadFlags) (cells : Cells)
    (root : node) : Prop where
  ordered : root.Ordered cells
  stored : ∀ x ∈ root.items, ∃ a v, x = Item.cell a ∧ cells[a]? = some (some v) ∧
    v.hash = hashOf env flags v.key ∧ v.value ≠ []

/-- The tree holds the record `v` for the raw key `k`: some node of the tree
points to a cell that holds `v`, and the key of `v` is `k`. -/
def Holds (cells : Cells) (root : node) (k : Bytes) (v : Value) : Prop :=
  ∃ a, Item.cell a ∈ root.items ∧ cells[a]? = some (some v) ∧ v.key = k

/-- The invariant of a `DB`: that of its index, for its flags. -/
def DB.Inv {Chunk : Type} (env : Env Chunk) (db : DB Chunk) : Prop :=
  IndexInv env db.flags db.cells db.tree.root

/-- The content `after` is the content `before` with the record `v` applied:
the key of `v` now has the record `v`, or no record when the value of `v` is
empty, and every other key has the record it had. -/
def Applied (v : Value) (before after : Bytes → Value → Prop) : Prop :=
  ∀ k w, after k w ↔ (k = v.key ∧ w = v ∧ v.value ≠ []) ∨ (k ≠ v.key ∧ before k w)

/-- The states of a `DB` that `Open` followed by calls of `Put`, `Delete`
(which is `Put` with the nil value), `PutRAW` and `Commit`, one after the
other, can produce. -/
inductive DB.Reachable {Chunk : Type} (env : Env Chunk) : DB Chunk → Prop where
  | opened (fuel : Nat) (db db' : DB Chunk) (flags : LoadFlags) (now : Nat) :
      DB.Open env fuel db flags now = some db' → DB.Reachable env db'
  | put (fuel : Nat) (db db' : DB Chunk) (key value : Bytes) (err : Option Error) :
      DB.Reachable env db → DB.Put env fuel db key value = some (db', err) →
      DB.Reachable env db'
  | putRAW (fuel : Nat) (db db' : DB Chunk) (record : Bytes) (err : Option Error) :
      DB.Reachable env db → DB.PutRAW env fuel db record = some (db', err) →
      DB.Reachable env db'
  | commit (db : DB Chunk) : DB.Reachable env db → DB.Reachable env (DB.Commit env db)

/-! ## The scan of the log, as a sequence of decode outcomes -/

/-- A decode outcome: what `v.Decode(mem)` yields, the `Value` (whose `Record`
is the span consumed) and the error: nil for a valid record, `EInvalidRecord`
for an invalid one, `EShortRecord` for a short one. -/
abbrev Outcome := Value × Option Error

/-- The decode outcomes the scan of `DB.load` consumes before it halts, in log
order: decoding goes on record after record until an outcome is short, or is
invalid while `L_STOP_INVALID` is set. -/
def scanned {Chunk : Type} (env : Env Chunk) (flags : LoadFlags) : Nat → Bytes → List Outcome
  | 0, _ => []
  | fuel + 1, mem =>
    if (env.Decode mem).2 = some Error.EShortRecord then []
    else if (env.Decode mem).2 = some Error.EInvalidRecord ∧ flags.has L_STOP_INVALID = true
    then []
    else env.Decode mem :: scanned env flags fuel (mem.drop (env.Decode mem).1.Record.length)

/-- The valid records among a sequence of decode outcomes, in order. -/
def validRecords : List Outcome → List Value
  | [] => []
  | o :: os => if o.2 = none then o.1 :: validRecords os else validRecords os

/-- The total length of the records of a sequence of outcomes up to and
including the last valid one; 0 when none is valid. -/
def validEnd : List Outcome → Nat
  | [] => 0
  | o :: os =>
    if o.2 = none ∨ validRecords os ≠ [] then o.1.Record.length + validEnd os else 0

/-- The total length of the records of a sequence of decode outcomes. -/
def consumed : List Outcome → Nat
  | [] => 0
  | o :: os => o.1.Record.length + consumed os

/-- The last record for the raw key `k` in a list of records. -/
def lastRecord (k : Bytes) : List Value → Option Value
  | [] => none
  | v :: vs =>
    match lastRecord k vs with
    | some w => some w
    | none => if v.key = k then some v else none

/-- The answer `(mkey, value, ok)` of `Get` for the key `k` that the records
`vs`, written in this order, call for: the value of the last record for `k` if
it is not empty, and absent otherwise. -/
def expectedGet (k : Bytes) (vs : List Value) : Bytes × Bytes × Bool :=
  match lastRecord k vs with
  | some v => if v.value ≠ [] then (k, v.value, true) else ([], [], false)
  | none => ([], [], false)

/-- The record `v` with its hash set as `DB.load` and `DB.indexRecord` set it. -/
def setHash {Chunk : Type} (env : Env Chunk) (flags : LoadFlags) (v : Value) : Value :=
  v.sHash (hashOf env flags v.GKey)

/-- The content `C` with the record `v` applied (see `Applied`). -/
def applyRec (v : Value) (C : Bytes → Value → Prop) : Bytes → Value → Prop :=
  fun k w => (k = v.key ∧ w = v ∧ v.value ≠ []) ∨ (k ≠ v.key ∧ C k w)

/-- The content `C` with the records `vs` applied in order. -/
def applyAll : List Value → (Bytes → Value → Prop) → Bytes → Value → Prop
  | [], C => C
  | v :: vs, C => applyAll vs (applyRec v C)

/-- The invariant of the loop of `DB.load`: the invariant of the index built
so far, and the scratch cell `vv` is allocated and is not a node of the tree. -/
structure LoadInv {Chunk : Type} (env : Env Chunk) (flags : LoadFlags) (st : LoadState) :
    Prop where
  index : IndexInv env flags st.cells st.t.root
  scratch : st.vv < st.cells.length
  fresh : Item.cell st.vv ∉ st.t.root.items

/-- A record of the concrete codec for the key `k` and the value `v`. -/
def demoRecord (k v : Bytes) : Bytes := demoEnv.encodeRecordInto [] k v

/-- The log `[put(a,1), put(b,2), delete(a)]` of the concrete instance, with
`a` the key `[97]` and `b` the key `[98]`. -/
def demoLogABA : DemoChunk :=
  { mem := demoRecord [97] [1] ++ demoRecord [98] [2] ++ demoRecord [97] [],
    base := 0, last := 14, free := 50, calls := [] }

/-- A log of the concrete instance with one valid record (5 bytes, at offset
100) followed by a short record. -/
def demoLogShortTail : DemoChunk :=
  { mem := demoRecord [97] [1] ++ [1, 5, 5, 0],
    base := 100, last := 109, free := 50, calls := [] }

/-- A log of the concrete instance with one valid record of 5 bytes whose
committed bytes start at the offset 2^63 - 3, three bytes below the end of the
range of `int64`. -/
def demoLogHighOffset : DemoChunk :=
  { mem := demoRecord [97] [1],
    base := 9223372036854775805, last := 9223372036854775805, free := 50, calls := [] }

/-- A `DB` of the concrete instance that holds the record of the key `[5]`
with the value `[9]`: the state after `Put([5], [9])` on the empty index. -/
def demoDB1 : DB DemoChunk :=
  { tree := ⟨1, .mk (.cell 0) 534 .nil .nil⟩,
    Ch := { mem := [], base := 0, last := 5, free := 45, calls := [] },
    seed := 7, flags := 0,
    cells := [some { Record := [1, 1, 1, 5, 9], key := [5], value := [9], hash := 0 }],
    nextTreap := 2 }

/-- A log of the concrete instance with an invalid record of 5 bytes (tag 2)
followed by the valid record that puts the value `[2]` for the key `[98]`. -/
def demoLogInvalid : DemoChunk :=
  { mem := [2, 1, 1, 97, 1] ++ demoRecord [98] [2],
    base := 0, last := 10, free := 50, calls := [] }

/-- A log of the concrete instance that starts with a short record (it
announces 10 bytes of key and value, and 6 bytes follow); the bytes from
offset 4 on are the valid record that puts the value `[2]` for the key `[98]`. -/
def demoLogShortHead : DemoChunk :=
  { mem := [1, 5, 5, 0] ++ demoRecord [98] [2],
    base := 0, last := 9, free := 50, calls := [] }

/-! ## Invariant of the concurrent calls of `DB.Put` -/

/-- Some goroutine has returned nil from `Put` for the key `k`. -/
def DoneKey (threads : List Thread) (k : Bytes) : Prop :=
  ∃ t ∈ threads, t.succeeded = true ∧ t.key = k

/-- What holds of a pointer `ptr` a goroutine has read from the root slot: it
is an index that satisfies the invariant, its keys are keys of calls that have
returned, it is not newer than the root, and it is the root if it has the
address of the root. -/
structure SnapInv {Chunk : Type} (env : Env Chunk) (db : DB Chunk) (done : Bytes → Prop)
    (ptr : TreapPtr) : Prop where
  index : IndexInv env db.flags db.cells ptr.root
  sub : ∀ k w, Holds db.cells ptr.root k w → done k
  le : ptr.addr ≤ db.tree.addr
  same : ptr.addr = db.tree.addr → ptr = db.tree

/-- What holds of the locals `v` and `vv` of a goroutine: `v` is the record of
its key and value, with the hash set, and the cell `vv` holds `v`. -/
structure LocalInv {Chunk : Type} (env : Env Chunk) (db : DB Chunk) (t : Thread) (v : Value)
    (vv : Nat) : Prop where
  key : v.key = t.key
  value : v.value = t.value
  hash : v.hash = hashOf env db.flags v.key
  cell : db.cells[vv]? = some (some v)

/-- What holds of a goroutine where it stands. -/
def ThreadInv {Chunk : Type} (env : Env Chunk) (db : DB Chunk) (done : Bytes → Prop)
    (t : Thread) : Prop :=
  match t.pc with
  | .start => True
  | .index record => (env.Set record).key = t.key ∧ (env.Set record).value = t.value
  | .restart _ v vv _ => LocalInv env db t v vv
  | .loaded _ v vv _ ptr => LocalInv env db t v vv ∧ SnapInv env db done ptr
  | .cas _ v vv _ ptr nptr =>
    LocalInv env db t v vv ∧ SnapInv env db done ptr ∧
    IndexInv env db.flags db.cells nptr.root ∧
    Applied v (Holds db.cells ptr.root) (Holds db.cells nptr.root) ∧
    nptr.root.items.length = ptr.root.items.length + 1 ∧
    ptr.addr < nptr.addr ∧ nptr.addr < db.nextTreap
  | .returned _ => True

/-- The invariant of the concurrent calls of `Put` with distinct keys and
non-empty values: the index satisfies its invariant, it holds exactly the
records of the calls that have returned nil, and every goroutine satisfies
`ThreadInv`. -/
structure ConcInv {Chunk : Type} (env : Env Chunk) (s : Conc Chunk) : Prop where
  index : IndexInv env s.db.flags s.db.cells s.db.tree.root
  addr : s.db.tree.addr < s.db.nextTreap
  sound : ∀ k w, Holds s.db.cells s.db.tree.root k w →
    ∃ t ∈ s.threads, t.succeeded = true ∧ t.key = k ∧ t.value = w.value
  complete : ∀ t ∈ s.threads, t.succeeded = true →
    ∃ w, Holds s.db.cells s.db.tree.root t.key w ∧ w.value = t.value
  count : s.db.tree.root.items.length = s.threads.countP Thread.succeeded
  keys : (s.threads.map Thread.key).Nodup
  values : ∀ t ∈ s.threads, t.value ≠ []
  codec : ∀ t ∈ s.threads, ∀ buf,
    (env.Set (env.encodeRecordInto buf t.key t.value)).GKey = t.key ∧
    (env.Set (env.encodeRecordInto buf t.key t.value)).GValue = t.value
  each : ∀ t ∈ s.threads, ThreadInv env s.db (DoneKey s.threads) t

/-- A codec of the concrete instance that never makes progress: every decode
yields an invalid record of length 0. -/
def demoEnvStuck : Env DemoChunk :=
  { demoEnv with Decode := fun _ => (demoParse [], some Error.EInvalidRecord) }

/-! ## Priorities, snapshots and sequences of calls -/

/-- In-order traversal of the nodes of a tree: the item and the priority of
each node. -/
def node.entries : node → List (Item × Int)
  | .nil => []
  | .mk item priority l r => l.entries ++ (item, priority) :: r.entries

/-- The tree holds the record `w` for the raw key `k` in a node of priority
`p`. -/
def HoldsP (cells : Cells) (root : node) (k : Bytes) (w : Value) (p : Int) : Prop :=
  ∃ a, (Item.cell a, p) ∈ root.entries ∧ cells[a]? = some (some w) ∧ w.key = k

/-- The (hash, raw) key order: the hashes compared as numbers first, the raw
bytes compared lexicographically on equal hashes. -/
def keyLess (a b : Nat × Bytes) : Prop :=
  a.1 < b.1 ∨ (a.1 = b.1 ∧ List.Lex (· < ·) a.2 b.2)

/-- The content `after` is the content `before`, with priorities, with the
record `v` applied: the key of `v` has the record `v` (or none when the value
of `v` is empty), in the node it had if it had one and in a new node of
priority `prio` otherwise; every other key has its record and its priority. -/
def AppliedP (v : Value) (prio : Int) (before after : Bytes → Value → Int → Prop) : Prop :=
  ∀ k w p, after k w p ↔
    (k = v.key ∧ w = v ∧ v.value ≠ [] ∧
      ((∃ w0, before k w0 p) ∨ ((∀ w0 p0, ¬ before k w0 p0) ∧ p = prio))) ∨
    (k ≠ v.key ∧ before k w p)

/-- The cells `cells'` are the cells `cells` after allocations and after
writes that keep the key: a cell that held a record still holds it, or, if the
key of the record satisfies `K`, holds a record with the same hash and key,
whose value is not empty if it was not. -/
def Rewritten (K : Bytes → Prop) (cells cells' : Cells) : Prop :=
  ∀ (a : Nat) (w : Value), cells[a]? = some (some w) →
    cells'[a]? = some (some w) ∨
    (K w.key ∧ ∃ w' : Value, cells'[a]? = some (some w') ∧ w'.key = w.key ∧ w'.hash = w.hash ∧
      (w.value ≠ [] → w'.value ≠ []))

/-- The trees built from the empty tree by `DB.load` and by sequential calls
of `DB.indexRecord`. -/
inductive DB.Built {Chunk : Type} (env : Env Chunk) : DB Chunk → Prop where
  | empty (db : DB Chunk) : db.tree.root = node.nil → DB.Built env db
  | load (fuel : Nat) (db db' : DB Chunk) :
      DB.Built env db → DB.load env fuel db = some db' → DB.Built env db'
  | index (fuel : Nat) (db db' : DB Chunk) (record : Bytes) (err : Option Error) :
      DB.Built env db → DB.indexRecord env fuel db record = some (db', err) →
      DB.Built env db'

/-- The record, as parsed by `Value.Set`, that `DB.Put(key, value)` indexes on
`db`. -/
def DB.putRecord {Chunk : Type} (env : Env Chunk) (db : DB Chunk) (key value : Bytes) : Value :=
  env.Set (env.encodeRecordInto
    (env.Skip db.Ch (env.recordLength key.length value.length).1).1.1 key value)

/-- The record, as parsed by `Value.Set`, that `DB.PutRAW(record)` indexes on
`db`. -/
def DB.putRAWRecord {Chunk : Type} (env : Env Chunk) (db : DB Chunk) (record : Bytes) : Value :=
  env.Set (env.Append db.Ch record).1.1

/-- The `DB` `db'` is the `DB` `db` after calls of `Put`, `Delete` (which is
`Put` with the nil value) and `PutRAW`, one after the other; `ws` are the
records of the calls that returned nil, in order. -/
inductive DB.Later {Chunk : Type} (env : Env Chunk) : DB Chunk → List Value → DB Chunk → Prop
    where
  | refl (db : DB Chunk) : DB.Later env db [] db
  | put (fuel : Nat) (db db1 db2 : DB Chunk) (ws : List Value) (key value : Bytes) :
      DB.Later env db ws db1 → DB.Put env fuel db1 key value = some (db2, none) →
      DB.Later env db (ws ++ [DB.putRecord env db1 key value]) db2
  | putFailed (fuel : Nat) (db db1 db2 : DB Chunk) (ws : List Value) (key value : Bytes)
      (e : Error) :
      DB.Later env db ws db1 → DB.Put env fuel db1 key value = some (db2, some e) →
      DB.Later env db ws db2
  | putRAW (fuel : Nat) (db db1 db2 : DB Chunk) (ws : List Value) (record : Bytes) :
      DB.Later env db ws db1 → DB.PutRAW env fuel db1 record = some (db2, none) →
      DB.Later env db (ws ++ [DB.putRAWRecord env db1 record]) db2
  | putRAWFailed (fuel : Nat) (db db1 db2 : DB Chunk) (ws : List Value) (record : Bytes)
      (e : Error) :
      DB.Later env db ws db1 → DB.PutRAW env fuel db1 record = some (db2, some e) →
      DB.Later env db ws db2

/-- Some record of `ws` has the raw key `k` and a value that is not empty. -/
def Overwritten (ws : List Value) (k : Bytes) : Prop :=
  ∃ v ∈ ws, v.key = k ∧ v.value ≠ []

/-- What one later record `r` does to the payload cell that a node of an
older root points to for the raw key `k`: `s.1` is the record in the cell and
`s.2` tells whether the node of `k` in the current tree still points to the
cell.  While it does, a record for `k` with a non-empty value is written into
the cell, and a record for `k` with an empty value removes the node from the
current tree, after which the cell is written no more. -/
def observe (k : Bytes) (s : Value × Bool) (r : Value) : Value × Bool :=
  if s.2 = true ∧ r.key = k then (if r.value = [] then (s.1, false) else (r, true)) else s

/-- The record in the payload cell that a node of an older root points to for
the raw key `k`, the cell holding `w` when the root was read, after the later
records `ws`; and whether the current tree still points to the cell. -/
def observed (k : Bytes) (w : Value) (ws : List Value) : Value × Bool :=
  ws.foldl (observe k) (w, true)

/-- Sequential calls of `DB.indexRecord` on the records of a list, in order. -/
def DB.indexAll {Chunk : Type} (env : Env Chunk) (fuel : Nat) :
    DB Chunk → List Bytes → Option (DB Chunk)
  | db, [] => some db
  | db, record :: records =>
    match DB.indexRecord env fuel db record with
    | none => none
    | some (db', _) => DB.indexAll env fuel db' records

/-- The content `C`, with priorities, with the record `v` applied, a new node
getting the priority `prio` (see `AppliedP`). -/
def applyRecP (v : Value) (prio : Int) (C : Bytes → Value → Int → Prop) :
    Bytes → Value → Int → Prop :=
  fun k w p =>
    (k = v.key ∧ w = v ∧ v.value ≠ [] ∧
      ((∃ w0, C k w0 p) ∨ ((∀ w0 p0, ¬ C k w0 p0) ∧ p = prio))) ∨
    (k ≠ v.key ∧ C k w p)

/-- The content `C`, with priorities, with the records of a list applied in
order, each with the priority a new node for it gets. -/
def applyAllP : List (Value × Int) → (Bytes → Value → Int → Prop) →
    Bytes → Value → Int → Prop
  | [], C => C
  | e :: es, C => applyAllP es (applyRecP e.1 e.2 C)

/-! ## Facts about the key order -/

theorem bytesCompare_self (a : Bytes) : bytesCompare a a = 0 := by
  induction a with
  | nil => rfl
  | cons x xs ih => simp [bytesCompare, ih]

theorem bytesCompare_eq_zero {a b : Bytes} : bytesCompare a b = 0 ↔ a = b := by
  constructor
  · intro h
    induction a generalizing b with
    | nil =>
      cases b with
      | nil => rfl
      | cons y ys => simp [bytesCompare] at h
    | cons x xs ih =>
      cases b with
      | nil => simp [bytesCompare] at h
      | cons y ys =>
        simp only [bytesCompare] at h
        split_ifs at h with h1 h2
        · simp at h
        · have hxy : x = y := by omega
          rw [hxy, ih h]
  · rintro rfl
    exact bytesCompare_self a

theorem bytesCompare_swap (a b : Bytes) : bytesCompare b a = - bytesCompare a b := by
  induction a generalizing b with
  | nil => cases b <;> simp [bytesCompare]
  | cons x xs ih =>
    cases b with
    | nil => simp [bytesCompare]
    | cons y ys =>
      simp only [bytesCompare]
      split_ifs <;> first | omega | simp | exact ih ys

theorem bytesCompare_range (a b : Bytes) :
    bytesCompare a b = -1 ∨ bytesCompare a b = 0 ∨ bytesCompare a b = 1 := by
  induction a generalizing b with
  | nil => cases b <;> simp [bytesCompare]
  | cons x xs ih =>
    cases b with
    | nil => simp [bytesCompare]
    | cons y ys =>
      simp only [bytesCompare]
      split_ifs
      · simp
      · simp
      · exact ih ys

theorem bytesCompare_neg_iff_lex {a b : Bytes} :
    bytesCompare a b = -1 ↔ List.Lex (· < ·) a b := by
  induction a generalizing b with
  | nil =>
    cases b with
    | nil => simp [bytesCompare]
    | cons y ys => simp [bytesCompare, List.Lex.nil]
  | cons x xs ih =>
    cases b with
    | nil => simp [bytesCompare]
    | cons y ys =>
      simp only [bytesCompare]
      split_ifs with h1 h2
      · simp [List.Lex.rel h1]
      · constructor
        · intro h; simp at h
        · intro h
          cases h with
          | cons h => omega
          | rel h => omega
      · have hxy : x = y := by omega
        subst hxy
        rw [ih]
        constructor
        · intro h; exact List.Lex.cons h
        · intro h
          cases h with
          | cons h => exact h
          | rel h => omega

theorem bytesCompare_trans {a b c : Bytes}
    (hab : bytesCompare a b = -1) (hbc : bytesCompare b c = -1) : bytesCompare a c = -1 := by
  induction a generalizing b c with
  | nil =>
    cases b with
    | nil => simpa using hbc
    | cons y ys =>
      cases c with
      | nil => simp [bytesCompare] at hbc
      | cons z zs => simp [bytesCompare]
  | cons x xs ih =>
    cases b with
    | nil => simp [bytesCompare] at hab
    | cons y ys =>
      cases c with
      | nil => simp [bytesCompare] at hbc
      | cons z zs =>
        simp only [bytesCompare] at hab hbc ⊢
        split_ifs at hab hbc ⊢ <;> first | omega | rfl | exact ih hab hbc

theorem bytesCompare_pos_iff_lex {a b : Bytes} :
    bytesCompare a b = 1 ↔ List.Lex (· < ·) b a := by
  rw [← bytesCompare_neg_iff_lex, bytesCompare_swap b a]
  omega

theorem compareKey_range (A B : Nat × Bytes) :
    compareKey A B = -1 ∨ compareKey A B = 0 ∨ compareKey A B = 1 := by
  unfold compareKey
  split_ifs
  · simp
  · simp
  · exact bytesCompare_range _ _

theorem compareKey_eq_zero {A B : Nat × Bytes} : compareKey A B = 0 ↔ A = B := by
  obtain ⟨a1, a2⟩ := A
  obtain ⟨b1, b2⟩ := B
  unfold compareKey
  simp only [gt_iff_lt, Prod.mk.injEq]
  split_ifs with h1 h2
  · simp; omega
  · simp; omega
  · rw [bytesCompare_eq_zero]
    constructor
    · intro h; exact ⟨by omega, h⟩
    · intro h; exact h.2

theorem compareKey_swap (A B : Nat × Bytes) : compareKey B A = - compareKey A B := by
  unfold compareKey
  simp only [gt_iff_lt]
  split_ifs <;> first | omega | simp | exact bytesCompare_swap _ _

theorem compareKey_trans {A B C : Nat × Bytes}
    (hab : compareKey A B = -1) (hbc : compareKey B C = -1) : compareKey A C = -1 := by
  unfold compareKey at hab hbc ⊢
  simp only [gt_iff_lt] at hab hbc ⊢
  split_ifs at hab hbc ⊢ <;> first | omega | rfl | exact bytesCompare_trans hab hbc

theorem compareKey_self (A : Nat × Bytes) : compareKey A A = 0 :=
  compareKey_eq_zero.mpr rfl

theorem compareItem_of_decode {cells : Cells} {a b : Item} {A B : Nat × Bytes}
    (ha : decodeItem cells a = some A) (hb : decodeItem cells b = some B) :
    compareItem cells a b = some (compareKey A B) := by
  simp [compareItem, ha, hb]

/-! ## Facts about the treap engine -/

theorem itemLt_trans {cells : Cells} {a b c : Item}
    (hab : itemLt cells a b) (hbc : itemLt cells b c) : itemLt cells a c := by
  obtain ⟨A, B, hA, hB, h1⟩ := hab
  obtain ⟨B', C, hB', hC, h2⟩ := hbc
  rw [hB] at hB'
  cases hB'
  exact ⟨A, C, hA, hC, compareKey_trans h1 h2⟩

theorem itemLt_ne_key {cells : Cells} {a b : Item} {K : Nat × Bytes}
    (hab : itemLt cells a b) (ha : decodeItem cells a = some K) :
    decodeItem cells b ≠ some K := by
  obtain ⟨A, B, hA, hB, h1⟩ := hab
  rw [ha] at hA
  cases hA
  rw [hB]
  intro h
  cases h
  rw [compareKey_self] at h1
  omega

theorem itemLt_ne_key_left {cells : Cells} {a b : Item} {K : Nat × Bytes}
    (hab : itemLt cells a b) (hb : decodeItem cells b = some K) :
    decodeItem cells a ≠ some K := by
  obtain ⟨A, B, hA, hB, h1⟩ := hab
  rw [hb] at hB
  cases hB
  rw [hA]
  intro h
  cases h
  rw [compareKey_self] at h1
  omega

theorem sortedItems_append_cons {cells : Cells} {l r : List Item} {it : Item} :
    SortedItems cells (l ++ it :: r) ↔
      SortedItems cells l ∧ SortedItems cells r ∧ (∃ A, decodeItem cells it = some A) ∧
        (∀ x ∈ l, itemLt cells x it) ∧ (∀ y ∈ r, itemLt cells it y) := by
  unfold SortedItems
  constructor
  · rintro ⟨hdec, hpw⟩
    rw [List.pairwise_append, List.pairwise_cons] at hpw
    obtain ⟨hl, ⟨hir, hr⟩, hlr⟩ := hpw
    refine ⟨⟨fun x hx => hdec x (by simp [hx]), hl⟩, ⟨fun x hx => hdec x (by simp [hx]), hr⟩,
      hdec it (by simp), fun x hx => hlr x hx it (by simp), hir⟩
  · rintro ⟨⟨hdl, hl⟩, ⟨hdr, hr⟩, hit, hlt, hgt⟩
    refine ⟨?_, ?_⟩
    · intro x hx
      simp only [List.mem_append, List.mem_cons] at hx
      rcases hx with hx | rfl | hx
      · exact hdl x hx
      · exact hit
      · exact hdr x hx
    · rw [List.pairwise_append, List.pairwise_cons]
      refine ⟨hl, ⟨hgt, hr⟩, ?_⟩
      intro x hx y hy
      simp only [List.mem_cons] at hy
      rcases hy with rfl | hy
      · exact hlt x hx
      · exact itemLt_trans (hlt x hx) (hgt y hy)

theorem node.Ordered_mk {cells : Cells} {it : Item} {p : Int} {l r : node} :
    (node.mk it p l r).Ordered cells ↔
      l.Ordered cells ∧ r.Ordered cells ∧ (∃ A, decodeItem cells it = some A) ∧
        (∀ x ∈ l.items, itemLt cells x it) ∧ (∀ y ∈ r.items, itemLt cells it y) := by
  unfold node.Ordered
  simp only [node.items]
  exact sortedItems_append_cons

theorem node.Ordered_nil (cells : Cells) : node.nil.Ordered cells := by
  simp [node.Ordered, SortedItems, node.items]

theorem node.Get_spec {cells : Cells} {t : node} {target : Item} {K : Nat × Bytes}
    (ho : t.Ordered cells) (hk : decodeItem cells target = some K) :
    (∃ it, node.Get cells t target = some (some it) ∧ it ∈ t.items ∧
        decodeItem cells it = some K) ∨
    (node.Get cells t target = some none ∧ ∀ x ∈ t.items, decodeItem cells x ≠ some K) := by
  induction t with
  | nil => right; simp [node.Get, node.items]
  | mk it p l r ihl ihr =>
    rw [node.Ordered_mk] at ho
    obtain ⟨hl, hr, ⟨A, hA⟩, hlt, hgt⟩ := ho
    simp only [node.Get, compareItem_of_decode hk hA, node.items, List.mem_append,
      List.mem_cons]
    rcases compareKey_range K A with h | h | h
    · have hti : itemLt cells target it := ⟨K, A, hk, hA, h⟩
      rw [h]
      simp only [Int.reduceNeg, Left.neg_neg_iff, zero_lt_one, ↓reduceIte]
      rcases ihl hl with ⟨it', hget, hmem, hdec⟩ | ⟨hget, hno⟩
      · exact Or.inl ⟨it', hget, Or.inl hmem, hdec⟩
      · refine Or.inr ⟨hget, ?_⟩
        rintro x (hx | rfl | hx)
        · exact hno x hx
        · exact itemLt_ne_key hti hk
        · exact itemLt_ne_key (itemLt_trans hti (hgt x hx)) hk
    · have hKA' : K = A := compareKey_eq_zero.mp h
      rw [h]
      simp only [lt_self_iff_false, ↓reduceIte]
      exact Or.inl ⟨it, rfl, Or.inr (Or.inl rfl), hKA' ▸ hA⟩
    · have hit : itemLt cells it target := by
        refine ⟨A, K, hA, hk, ?_⟩
        rw [compareKey_swap K A, h]
      rw [h]
      simp only [zero_lt_one, ↓reduceIte, Int.reduceNeg]
      have : ¬ ((1 : Int) < 0) := by omega
      simp only [this, ↓reduceIte]
      rcases ihr hr with ⟨it', hget, hmem, hdec⟩ | ⟨hget, hno⟩
      · exact Or.inl ⟨it', hget, Or.inr (Or.inr hmem), hdec⟩
      · refine Or.inr ⟨hget, ?_⟩
        rintro x (hx | rfl | hx)
        · exact itemLt_ne_key_left (itemLt_trans (hlt x hx) hit) hk
        · exact itemLt_ne_key_left hit hk
        · exact hno x hx

theorem node.liftLeft_items (it : Item) (p : Int) (l r : node) :
    (node.liftLeft it p l r).items = l.items ++ it :: r.items := by
  unfold node.liftLeft
  cases l with
  | nil => rfl
  | mk litem lprio ll lr =>
    simp only
    split_ifs <;> simp [node.items]

theorem node.liftRight_items (it : Item) (p : Int) (l r : node) :
    (node.liftRight it p l r).items = l.items ++ it :: r.items := by
  unfold node.liftRight
  cases r with
  | nil => rfl
  | mk ritem rprio rl rr =>
    simp only
    split_ifs <;> simp [node.items]

theorem node.sink_items (l r : node) : (node.sink l r).items = l.items ++ r.items := by
  induction l, r using node.sink.induct with
  | case1 r => simp [node.sink, node.items]
  | case2 l hl => 
    cases l with
    | nil => simp [node.sink, node.items]
    | mk a b c d => simp [node.sink, node.items]
  | case3 litem lprio ll lr ritem rprio rl rr h ih =>
    rw [node.sink]
    simp only [h, ↓reduceIte, node.items, ih]
    simp
  | case4 litem lprio ll lr ritem rprio rl rr h ih =>
    rw [node.sink]
    simp only [h, ↓reduceIte, node.items, ih]
    simp

/-- Inserting a key that is absent: the new tree has the in-order traversal
of the old one with the item put in at its place in the key order. -/
theorem node.Upsert_absent {cells : Cells} {t : node} {item : Item} {K : Nat × Bytes}
    (prio : Int) (ho : t.Ordered cells) (hk : decodeItem cells item = some K)
    (habs : ∀ x ∈ t.items, decodeItem cells x ≠ some K) :
    ∃ t', node.Upsert cells t item prio = some t' ∧
      ∃ l1 l2, t.items = l1 ++ l2 ∧ t'.items = l1 ++ item :: l2 ∧
        (∀ x ∈ l1, itemLt cells x item) ∧ (∀ y ∈ l2, itemLt cells item y) := by
  induction t with
  | nil =>
    exact ⟨_, rfl, [], [], by simp [node.items]⟩
  | mk it p l r ihl ihr =>
    rw [node.Ordered_mk] at ho
    obtain ⟨hl, hr, ⟨A, hA⟩, hlt, hgt⟩ := ho
    simp only [node.items, List.mem_append, List.mem_cons] at habs
    simp only [node.Upsert, compareItem_of_decode hk hA]
    rcases compareKey_range K A with h | h | h
    · have hti : itemLt cells item it := ⟨K, A, hk, hA, h⟩
      rw [h]
      simp only [Int.reduceNeg, Left.neg_neg_iff, zero_lt_one, ↓reduceIte]
      obtain ⟨l', hup, a1, a2, hitems, hitems', h1, h2⟩ :=
        ihl hl (fun x hx => habs x (Or.inl hx))
      rw [hup]
      refine ⟨_, rfl, a1, a2 ++ it :: r.items, ?_, ?_, h1, ?_⟩
      · simp [node.items, hitems]
      · simp [node.liftLeft_items, hitems']
      · intro y hy
        simp only [List.mem_append, List.mem_cons] at hy
        rcases hy with hy | rfl | hy
        · exact h2 y hy
        · exact hti
        · exact itemLt_trans hti (hgt y hy)
    · exact absurd ((compareKey_eq_zero.mp h) ▸ hA) (habs it (Or.inr (Or.inl rfl)))
    · have hit : itemLt cells it item := by
        refine ⟨A, K, hA, hk, ?_⟩
        rw [compareKey_swap K A, h]
      rw [h]
      have : ¬ ((1 : Int) < 0) := by omega
      simp only [this, zero_lt_one, ↓reduceIte]
      obtain ⟨r', hup, a1, a2, hitems, hitems', h1, h2⟩ :=
        ihr hr (fun x hx => habs x (Or.inr (Or.inr hx)))
      rw [hup]
      refine ⟨_, rfl, l.items ++ it :: a1, a2, ?_, ?_, ?_, h2⟩
      · simp [node.items, hitems]
      · simp [node.liftRight_items, hitems']
      · intro x hx
        simp only [List.mem_append, List.mem_cons] at hx
        rcases hx with hx | rfl | hx
        · exact itemLt_trans (hlt x hx) hit
        · exact hit
        · exact h1 x hx

theorem sortedItems_insert {cells : Cells} {l1 l2 : List Item} {item : Item}
    {K : Nat × Bytes} (hs : SortedItems cells (l1 ++ l2))
    (hk : decodeItem cells item = some K)
    (h1 : ∀ x ∈ l1, itemLt cells x item) (h2 : ∀ y ∈ l2, itemLt cells item y) :
    SortedItems cells (l1 ++ item :: l2) := by
  rw [sortedItems_append_cons]
  obtain ⟨hdec, hpw⟩ := hs
  rw [List.pairwise_append] at hpw
  exact ⟨⟨fun x hx => hdec x (by simp [hx]), hpw.1⟩,
    ⟨fun x hx => hdec x (by simp [hx]), hpw.2.1⟩, ⟨K, hk⟩, h1, h2⟩

/-- Deleting a key: the new tree has the in-order traversal of the old one
without the items of that key. -/
theorem node.Delete_spec {cells : Cells} {t : node} {target : Item} {K : Nat × Bytes}
    (ho : t.Ordered cells) (hk : decodeItem cells target = some K) :
    ∃ t', node.Delete cells t target = some t' ∧
      t'.items = t.items.filter (fun x => decide (decodeItem cells x ≠ some K)) := by
  induction t with
  | nil => exact ⟨_, rfl, by simp [node.items]⟩
  | mk it p l r ihl ihr =>
    rw [node.Ordered_mk] at ho
    obtain ⟨hl, hr, ⟨A, hA⟩, hlt, hgt⟩ := ho
    simp only [node.Delete, compareItem_of_decode hk hA]
    rcases compareKey_range K A with h | h | h
    · have hti : itemLt cells target it := ⟨K, A, hk, hA, h⟩
      rw [h]
      simp only [Int.reduceNeg, Left.neg_neg_iff, zero_lt_one, ↓reduceIte]
      obtain ⟨l', hdel, hitems⟩ := ihl hl
      rw [hdel]
      refine ⟨_, rfl, ?_⟩
      have hkeep : (it :: r.items).filter (fun x => decide (decodeItem cells x ≠ some K))
          = it :: r.items := by
        rw [List.filter_eq_self]
        intro x hx
        simp only [List.mem_cons] at hx
        rcases hx with rfl | hx
        · simpa using itemLt_ne_key hti hk
        · simpa using itemLt_ne_key (itemLt_trans hti (hgt x hx)) hk
      simp only [node.items, List.filter_append, hkeep, hitems]
    · have hKA : K = A := compareKey_eq_zero.mp h
      subst hKA
      rw [h]
      simp only [lt_self_iff_false, ↓reduceIte]
      refine ⟨_, rfl, ?_⟩
      have hkl : l.items.filter (fun x => decide (decodeItem cells x ≠ some K)) = l.items := by
        rw [List.filter_eq_self]
        intro x hx
        simpa using itemLt_ne_key_left (hlt x hx) hA
      have hkr : r.items.filter (fun x => decide (decodeItem cells x ≠ some K)) = r.items := by
        rw [List.filter_eq_self]
        intro x hx
        simpa using itemLt_ne_key (hgt x hx) hA
      rw [node.items, List.filter_append, List.filter_cons, hkl, hkr, node.sink_items]
      simp [hA]
    · have hit : itemLt cells it target := by
        refine ⟨A, K, hA, hk, ?_⟩
        rw [compareKey_swap K A, h]
      rw [h]
      have : ¬ ((1 : Int) < 0) := by omega
      simp only [this, zero_lt_one, ↓reduceIte]
      obtain ⟨r', hdel, hitems⟩ := ihr hr
      rw [hdel]
      refine ⟨_, rfl, ?_⟩
      have hkl : l.items.filter (fun x => decide (decodeItem cells x ≠ some K)) = l.items := by
        rw [List.filter_eq_self]
        intro x hx
        simpa using itemLt_ne_key_left (itemLt_trans (hlt x hx) hit) hk
      have hki : decodeItem cells it ≠ some K := itemLt_ne_key_left hit hk
      rw [node.items, node.items, List.filter_append, List.filter_cons, hkl, hitems]
      simp [hki]

theorem sortedItems_filter {cells : Cells} {xs : List Item} (p : Item → Bool)
    (hs : SortedItems cells xs) : SortedItems cells (xs.filter p) :=
  ⟨fun x hx => hs.1 x (List.mem_filter.mp hx).1, hs.2.sublist (List.filter_sublist xs)⟩

/-! ## Facts about the cells and the invariant -/

theorem decodeItem_cell {cells : Cells} {a : Nat} {v : Value}
    (h : cells[a]? = some (some v)) : decodeItem cells (.cell a) = some (v.hash, v.key) := by
  simp [decodeItem, h, Value.GHash, Value.GKey]

theorem decodeItem_congr {cells cells' : Cells} (x : Item)
    (h : ∀ a, x = Item.cell a → cells'[a]? = cells[a]?) :
    decodeItem cells' x = decodeItem cells x := by
  cases x with
  | cell a => simp only [decodeItem, h a rfl]
  | iKey hash data => rfl
  | iKeyPtr hash data => rfl

theorem sortedItems_congr {cells cells' : Cells} {xs : List Item}
    (h : ∀ x ∈ xs, decodeItem cells' x = decodeItem cells x)
    (hs : SortedItems cells xs) : SortedItems cells' xs := by
  refine ⟨fun x hx => ?_, hs.2.imp_of_mem ?_⟩
  · rw [h x hx]
    exact hs.1 x hx
  · rintro a b ha hb ⟨A, B, hA, hB, hAB⟩
    exact ⟨A, B, by rw [h a ha, hA], by rw [h b hb, hB], hAB⟩

theorem sortedItems_unique {cells : Cells} {xs : List Item} (hs : SortedItems cells xs)
    {x y : Item} (hx : x ∈ xs) (hy : y ∈ xs)
    (hxy : decodeItem cells x = decodeItem cells y) : x = y := by
  have hpw : xs.Pairwise (fun a b => a = b ∨ decodeItem cells a ≠ decodeItem cells b) := by
    refine hs.2.imp ?_
    rintro a b ⟨A, B, hA, hB, hAB⟩
    right
    rw [hA, hB]
    intro h
    cases h
    rw [compareKey_self] at hAB
    omega
  have hsymm : Symmetric (fun a b : Item => a = b ∨ decodeItem cells a ≠ decodeItem cells b) := by
    rintro a b (h | h)
    · exact Or.inl h.symm
    · exact Or.inr (Ne.symm h)
  rcases hpw.forall_of_forall hsymm (fun a _ => Or.inl rfl) hx hy with h | h
  · exact h
  · exact absurd hxy h

theorem node.Get_congr {cells cells' : Cells} {t : node} {target target' : Item}
    (h : ∀ x ∈ t.items, decodeItem cells' x = decodeItem cells x)
    (ht : decodeItem cells' target' = decodeItem cells target) :
    node.Get cells' t target' = node.Get cells t target := by
  induction t with
  | nil => rfl
  | mk it p l r ihl ihr =>
    simp only [node.items, List.mem_append, List.mem_cons] at h
    simp only [node.Get, compareItem, ht, h it (Or.inr (Or.inl rfl))]
    rw [ihl (fun x hx => h x (Or.inl hx)), ihr (fun x hx => h x (Or.inr (Or.inr hx)))]

theorem IndexInv.nil {Chunk : Type} (env : Env Chunk) (flags : LoadFlags) (cells : Cells) :
    IndexInv env flags cells node.nil :=
  ⟨node.Ordered_nil cells, by simp [node.items]⟩

theorem decodeItem_eq_of_cells {cells cells' : Cells} {root : node}
    (h : ∀ a, Item.cell a ∈ root.items → cells'[a]? = cells[a]?) :
    ∀ x ∈ root.items, decodeItem cells' x = decodeItem cells x := by
  intro x hx
  apply decodeItem_congr
  rintro a rfl
  exact h a hx

/-- The invariant and the content depend only on the cells the tree points to. -/
theorem IndexInv.frame_of_cells {Chunk : Type} {env : Env Chunk} {flags : LoadFlags}
    {cells cells' : Cells} {root : node} (hinv : IndexInv env flags cells root)
    (h : ∀ a, Item.cell a ∈ root.items → cells'[a]? = cells[a]?) :
    IndexInv env flags cells' root := by
  refine ⟨sortedItems_congr (decodeItem_eq_of_cells h) hinv.ordered, ?_⟩
  intro x hx
  obtain ⟨a, v, rfl, hc, hh⟩ := hinv.stored x hx
  exact ⟨a, v, rfl, by rw [h a hx, hc], hh⟩

theorem Holds.iff_of_cells {cells cells' : Cells} {root : node}
    (h : ∀ a, Item.cell a ∈ root.items → cells'[a]? = cells[a]?) (k : Bytes) (v : Value) :
    Holds cells' root k v ↔ Holds cells root k v := by
  constructor
  · rintro ⟨a, ha, hc, hk⟩
    exact ⟨a, ha, by rw [← h a ha, hc], hk⟩
  · rintro ⟨a, ha, hc, hk⟩
    exact ⟨a, ha, by rw [h a ha, hc], hk⟩

/-- Under the invariant a raw key has at most one record in the tree. -/
theorem Holds.unique {Chunk : Type} {env : Env Chunk} {flags : LoadFlags}
    {cells : Cells} {root : node} (hinv : IndexInv env flags cells root)
    {k : Bytes} {v v' : Value} (h : Holds cells root k v) (h' : Holds cells root k v') :
    v = v' := by
  obtain ⟨a, ha, hc, hk⟩ := h
  obtain ⟨a', ha', hc', hk'⟩ := h'
  obtain ⟨b, w, hb, hcw, hhw, _⟩ := hinv.stored _ ha
  obtain ⟨b', w', hb', hcw', hhw', _⟩ := hinv.stored _ ha'
  cases hb
  cases hb'
  rw [hc] at hcw
  rw [hc'] at hcw'
  cases hcw
  cases hcw'
  have hdec : decodeItem cells (.cell a) = decodeItem cells (.cell a') := by
    rw [decodeItem_cell hc, decodeItem_cell hc', hhw, hhw', hk, hk']
  have := sortedItems_unique hinv.ordered ha ha' hdec
  cases this
  rw [hc] at hc'
  cases hc'
  rfl

/-- The key under which the tree is searched for the raw key `k`. -/
theorem Holds_iff_decode {Chunk : Type} {env : Env Chunk} {flags : LoadFlags}
    {cells : Cells} {root : node} (hinv : IndexInv env flags cells root)
    (k : Bytes) :
    (∃ v, Holds cells root k v) ↔
      ∃ x ∈ root.items, decodeItem cells x = some (hashOf env flags k, k) := by
  constructor
  · rintro ⟨v, a, ha, hc, hk⟩
    obtain ⟨b, w, hb, hcw, hhw, _⟩ := hinv.stored _ ha
    cases hb
    rw [hc] at hcw
    cases hcw
    exact ⟨_, ha, by rw [decodeItem_cell hc, hhw, hk]⟩
  · rintro ⟨x, hx, hdec⟩
    obtain ⟨a, v, rfl, hc, hh, _⟩ := hinv.stored _ hx
    rw [decodeItem_cell hc] at hdec
    simp only [Option.some.injEq, Prod.mk.injEq] at hdec
    exact ⟨v, a, hx, hc, hdec.2⟩

/-! ## Lookups under the invariant -/

theorem DB.GetRecord_found {Chunk : Type} {env : Env Chunk} {db : DB Chunk} {k : Bytes}
    {v : Value} (synced : Bool) (hinv : DB.Inv env db)
    (h : Holds db.cells db.tree.root k v) :
    DB.GetRecord env db k synced = some (some v, true) := by
  have hK : decodeItem db.cells (.iKey (hashOf env db.flags k) k)
      = some (hashOf env db.flags k, k) := rfl
  obtain ⟨a, ha, hc, hk⟩ := h
  obtain ⟨b, w, hb, hcw, hhw, _⟩ := hinv.stored _ ha
  cases hb
  rw [hc] at hcw
  cases hcw
  have hda : decodeItem db.cells (.cell a) = some (hashOf env db.flags k, k) := by
    rw [decodeItem_cell hc, hhw, hk]
  rcases node.Get_spec hinv.ordered hK with ⟨it, hget, hmem, hdec⟩ | ⟨_, hno⟩
  · have hit : it = .cell a :=
      sortedItems_unique hinv.ordered hmem ha (by rw [hdec, hda])
    subst hit
    simp [DB.GetRecord, TreapPtr.Get, DB.hash, hget, hc]
  · exact absurd hda (hno _ ha)

theorem DB.GetRecord_absent {Chunk : Type} {env : Env Chunk} {db : DB Chunk} {k : Bytes}
    (synced : Bool) (hinv : DB.Inv env db)
    (h : ∀ v, ¬ Holds db.cells db.tree.root k v) :
    DB.GetRecord env db k synced = some (none, false) := by
  have hK : decodeItem db.cells (.iKey (hashOf env db.flags k) k)
      = some (hashOf env db.flags k, k) := rfl
  rcases node.Get_spec hinv.ordered hK with ⟨it, _, hmem, hdec⟩ | ⟨hget, _⟩
  · exfalso
    obtain ⟨v, hv⟩ := (Holds_iff_decode hinv k).mpr ⟨it, hmem, hdec⟩
    exact h v hv
  · simp [DB.GetRecord, TreapPtr.Get, DB.hash, hget]

theorem DB.Get_found {Chunk : Type} {env : Env Chunk} {db : DB Chunk} {k : Bytes}
    {v : Value} (synced : Bool) (hinv : DB.Inv env db)
    (h : Holds db.cells db.tree.root k v) :
    DB.Get env db k synced = some (k, v.value, true) := by
  have hk : v.key = k := by
    obtain ⟨a, _, _, hk⟩ := h
    exact hk
  simp [DB.Get, DB.GetRecord_found synced hinv h, Value.GKey, Value.GValue, hk]

theorem DB.Get_absent {Chunk : Type} {env : Env Chunk} {db : DB Chunk} {k : Bytes}
    (synced : Bool) (hinv : DB.Inv env db)
    (h : ∀ v, ¬ Holds db.cells db.tree.root k v) :
    DB.Get env db k synced = some ([], [], false) := by
  simp [DB.Get, DB.GetRecord_absent synced hinv h]

/-! ## One record applied to the tree -/

theorem IndexInv.stored_key {Chunk : Type} {env : Env Chunk} {flags : LoadFlags}
    {cells : Cells} {root : node} (hinv : IndexInv env flags cells root) {a : Nat} {w : Value}
    (ha : Item.cell a ∈ root.items) (hc : cells[a]? = some (some w)) :
    decodeItem cells (.cell a) = some (hashOf env flags w.key, w.key) ∧ w.value ≠ [] := by
  obtain ⟨b, w', hb, hcw, hhw, hne⟩ := hinv.stored _ ha
  cases hb
  rw [hc] at hcw
  cases hcw
  exact ⟨by rw [decodeItem_cell hc, hhw], hne⟩

/-- A tombstone for a key the tree does not hold: nothing is to be done. -/
theorem step_tombstone_absent {Chunk : Type} {env : Env Chunk} {flags : LoadFlags}
    {cells : Cells} {root : node} {v : Value} {vv : Nat}
    (hinv : IndexInv env flags cells root) (hv : cells[vv]? = some (some v))
    (hh : v.hash = hashOf env flags v.key) (hval : v.value = [])
    (hget : node.Get cells root (.cell vv) = some none) :
    Applied v (Holds cells root) (Holds cells root) := by
  have hK : decodeItem cells (.cell vv) = some (hashOf env flags v.key, v.key) := by
    rw [decodeItem_cell hv, hh]
  have hno : ∀ x ∈ root.items, decodeItem cells x ≠ some (hashOf env flags v.key, v.key) := by
    rcases node.Get_spec hinv.ordered hK with ⟨it, hget', _, _⟩ | ⟨_, hno⟩
    · rw [hget] at hget'
      cases hget'
    · exact hno
  intro k w
  constructor
  · intro h
    right
    refine ⟨?_, h⟩
    rintro rfl
    obtain ⟨a, ha, hc, hk⟩ := h
    exact hno _ ha (by rw [(hinv.stored_key ha hc).1, hk])
  · rintro (⟨_, _, hne⟩ | ⟨_, h⟩)
    · exact absurd hval hne
    · exact h

/-- A tombstone for a key the tree holds: the key is deleted. -/
theorem step_tombstone_present {Chunk : Type} {env : Env Chunk} {flags : LoadFlags}
    {cells : Cells} {t : TreapPtr} {v : Value} {vv : Nat} {it : Item} (next : Nat)
    (hinv : IndexInv env flags cells t.root) (hv : cells[vv]? = some (some v))
    (hh : v.hash = hashOf env flags v.key) (hval : v.value = [])
    (hget : node.Get cells t.root (.cell vv) = some (some it)) :
    ∃ root', t.Delete cells (.cell vv) next = some (⟨next, root'⟩, next + 1) ∧
      IndexInv env flags cells root' ∧ Applied v (Holds cells t.root) (Holds cells root') ∧
      (∀ x ∈ root'.items, x ∈ t.root.items) := by
  have hK : decodeItem cells (.cell vv) = some (hashOf env flags v.key, v.key) := by
    rw [decodeItem_cell hv, hh]
  obtain ⟨root', hdel, hitems⟩ := node.Delete_spec hinv.ordered hK
  have hsub : ∀ x ∈ root'.items, x ∈ t.root.items := by
    intro x hx
    rw [hitems] at hx
    exact (List.mem_filter.mp hx).1
  refine ⟨root', by simp [TreapPtr.Delete, hget, hdel], ⟨?_, ?_⟩, ?_, hsub⟩
  · unfold node.Ordered
    rw [hitems]
    exact sortedItems_filter _ hinv.ordered
  · intro x hx
    exact hinv.stored x (hsub x hx)
  · intro k w
    constructor
    · rintro ⟨a, ha, hc, hk⟩
      right
      rw [hitems, List.mem_filter] at ha
      refine ⟨?_, a, ha.1, hc, hk⟩
      rintro rfl
      have := ha.2
      rw [(hinv.stored_key ha.1 hc).1, hk] at this
      simp at this
    · rintro (⟨_, _, hne⟩ | ⟨hk', a, ha, hc, hk⟩)
      · exact absurd hval hne
      · refine ⟨a, ?_, hc, hk⟩
        rw [hitems, List.mem_filter]
        refine ⟨ha, ?_⟩
        rw [(hinv.stored_key ha hc).1, hk]
        simp only [ne_eq, Option.some.injEq, Prod.mk.injEq, not_and, decide_eq_true_eq]
        intro _ h
        exact hk' h

/-- A record with a value, for a key the tree holds: the found cell is the
address `a` of a cell of the tree, and storing `v` in it replaces the record. -/
theorem step_replace {Chunk : Type} {env : Env Chunk} {flags : LoadFlags}
    {cells : Cells} {root : node} {v : Value} {vv : Nat} {it : Item}
    (hinv : IndexInv env flags cells root) (hv : cells[vv]? = some (some v))
    (hh : v.hash = hashOf env flags v.key) (hval : v.value ≠ [])
    (hget : node.Get cells root (.cell vv) = some (some it)) :
    ∃ a, it = Item.cell a ∧ IndexInv env flags (storeCell cells a v) root ∧
      Applied v (Holds cells root) (Holds (storeCell cells a v) root) ∧
      (storeCell cells a v)[vv]? = some (some v) := by
  have hK : decodeItem cells (.cell vv) = some (hashOf env flags v.key, v.key) := by
    rw [decodeItem_cell hv, hh]
  obtain ⟨hmem, hdec⟩ : it ∈ root.items ∧
      decodeItem cells it = some (hashOf env flags v.key, v.key) := by
    rcases node.Get_spec hinv.ordered hK with ⟨it', hget', hmem, hdec⟩ | ⟨hget', _⟩
    · rw [hget] at hget'
      cases hget'
      exact ⟨hmem, hdec⟩
    · rw [hget] at hget'
      cases hget'
  obtain ⟨a, w, rfl, hcw, hhw, hwne⟩ := hinv.stored _ hmem
  have hwk : w.key = v.key := by
    rw [decodeItem_cell hcw] at hdec
    simp only [Option.some.injEq, Prod.mk.injEq] at hdec
    exact hdec.2
  have halt : a < cells.length := by
    by_contra hcon
    rw [List.getElem?_eq_none (by omega)] at hcw
    cases hcw
  have hnew : (storeCell cells a v)[a]? = some (some v) := by
    simp [storeCell, List.getElem?_set, halt]
  have hother : ∀ b, b ≠ a → (storeCell cells a v)[b]? = cells[b]? := by
    intro b hb
    simp [storeCell, List.getElem?_set, Ne.symm hb]
  have hdeceq : ∀ x ∈ root.items, decodeItem (storeCell cells a v) x = decodeItem cells x := by
    intro x hx
    by_cases hxa : x = Item.cell a
    · subst hxa
      rw [decodeItem_cell hnew, decodeItem_cell hcw, hh, hhw, hwk]
    · apply decodeItem_congr
      rintro b rfl
      exact hother b (fun h => hxa (by rw [h]))
  refine ⟨a, rfl, ⟨sortedItems_congr hdeceq hinv.ordered, ?_⟩, ?_, ?_⟩
  · intro x hx
    by_cases hxa : x = Item.cell a
    · exact ⟨a, v, hxa, hnew, hh, hval⟩
    · obtain ⟨b, u, rfl, hcu, hu⟩ := hinv.stored x hx
      refine ⟨b, u, rfl, ?_, hu⟩
      rw [hother b (fun h => hxa (by rw [h])), hcu]
  · intro k u
    constructor
    · rintro ⟨b, hb, hc, hk⟩
      by_cases hba : b = a
      · subst hba
        rw [hnew] at hc
        cases hc
        exact Or.inl ⟨hk.symm, rfl, hval⟩
      · right
        rw [hother b hba] at hc
        refine ⟨?_, b, hb, hc, hk⟩
        rintro rfl
        apply hba
        have hdb := (hinv.stored_key hb hc).1
        have := sortedItems_unique hinv.ordered hb hmem (by rw [hdb, hdec, hk])
        cases this
        rfl
    · rintro (⟨rfl, rfl, _⟩ | ⟨hk', b, hb, hc, hk⟩)
      · exact ⟨a, hmem, hnew, rfl⟩
      · refine ⟨b, hb, ?_, hk⟩
        rw [hother b ?_, hc]
        rintro rfl
        rw [hcw] at hc
        cases hc
        exact hk' (hk.symm.trans hwk)
  · by_cases hva : vv = a
    · subst hva
      exact hnew
    · rw [hother vv hva, hv]

/-- A record with a value, for a key the tree does not hold: the scratch cell
becomes a node of the tree. -/
theorem step_insert {Chunk : Type} {env : Env Chunk} {flags : LoadFlags}
    {cells : Cells} {t : TreapPtr} {v : Value} {vv : Nat} (prio : Int) (next : Nat)
    (hinv : IndexInv env flags cells t.root) (hv : cells[vv]? = some (some v))
    (hh : v.hash = hashOf env flags v.key) (hval : v.value ≠ [])
    (hget : node.Get cells t.root (.cell vv) = some none) :
    ∃ root', t.Upsert cells (.cell vv) prio next = some (⟨next, root'⟩, next + 1) ∧
      IndexInv env flags cells root' ∧ Applied v (Holds cells t.root) (Holds cells root') ∧
      (∀ x, x ∈ root'.items ↔ x = Item.cell vv ∨ x ∈ t.root.items) := by
  have hK : decodeItem cells (.cell vv) = some (hashOf env flags v.key, v.key) := by
    rw [decodeItem_cell hv, hh]
  have hno : ∀ x ∈ t.root.items,
      decodeItem cells x ≠ some (hashOf env flags v.key, v.key) := by
    rcases node.Get_spec hinv.ordered hK with ⟨it, hget', _, _⟩ | ⟨_, hno⟩
    · rw [hget] at hget'
      cases hget'
    · exact hno
  obtain ⟨root', hup, l1, l2, hitems, hitems', h1, h2⟩ :=
    node.Upsert_absent prio hinv.ordered hK hno
  have hmem : ∀ x, x ∈ root'.items ↔ x = Item.cell vv ∨ x ∈ t.root.items := by
    intro x
    rw [hitems, hitems']
    simp only [List.mem_append, List.mem_cons]
    tauto
  refine ⟨root', by simp [TreapPtr.Upsert, hget, hup], ⟨?_, ?_⟩, ?_, hmem⟩
  · unfold node.Ordered
    rw [hitems']
    exact sortedItems_insert (hitems ▸ hinv.ordered) hK h1 h2
  · intro x hx
    rcases (hmem x).mp hx with rfl | hx
    · exact ⟨vv, v, rfl, hv, hh, hval⟩
    · exact hinv.stored x hx
  · intro k u
    constructor
    · rintro ⟨b, hb, hc, hk⟩
      rcases (hmem _).mp hb with hb | hb
      · cases hb
        rw [hv] at hc
        cases hc
        exact Or.inl ⟨hk.symm, rfl, hval⟩
      · right
        refine ⟨?_, b, hb, hc, hk⟩
        rintro rfl
        exact hno _ hb (by rw [(hinv.stored_key hb hc).1, hk])
    · rintro (⟨rfl, rfl, _⟩ | ⟨_, b, hb, hc, hk⟩)
      · exact ⟨vv, (hmem _).mpr (Or.inl rfl), hv, rfl⟩
      · exact ⟨b, (hmem _).mpr (Or.inr hb), hc, hk⟩

/-! ## `DB.indexRecord` run alone -/

theorem alloc_store_new (cells : Cells) (v : Value) :
    (storeCell (newCell cells).2 (newCell cells).1 v)[cells.length]? = some (some v) := by
  simp [storeCell, newCell, List.getElem?_set]

theorem alloc_store_old (cells : Cells) (v : Value) {a : Nat} (ha : a < cells.length) :
    (storeCell (newCell cells).2 (newCell cells).1 v)[a]? = cells[a]? := by
  have : cells.length ≠ a := by omega
  simp [storeCell, newCell, List.getElem?_set, this, List.getElem?_append_left ha]

theorem IndexInv.addr_lt {Chunk : Type} {env : Env Chunk} {flags : LoadFlags}
    {cells : Cells} {root : node} (hinv : IndexInv env flags cells root) {a : Nat}
    (ha : Item.cell a ∈ root.items) : a < cells.length := by
  obtain ⟨b, w, hb, hcw, _⟩ := hinv.stored _ ha
  cases hb
  by_contra hcon
  rw [List.getElem?_eq_none (by omega)] at hcw
  cases hcw

theorem node.Get_isSome {Chunk : Type} {env : Env Chunk} {flags : LoadFlags}
    {cells : Cells} {root : node} (hinv : IndexInv env flags cells root) {vv : Nat} {v : Value}
    (hv : cells[vv]? = some (some v)) :
    node.Get cells root (.cell vv) = some none ∨
      ∃ it, node.Get cells root (.cell vv) = some (some it) := by
  rcases node.Get_spec hinv.ordered (decodeItem_cell hv) with ⟨it, hget, _, _⟩ | ⟨hget, _⟩
  · exact Or.inr ⟨it, hget⟩
  · exact Or.inl hget

theorem Applied.congr {v : Value} {b b' a a' : Bytes → Value → Prop}
    (hb : ∀ k w, b' k w ↔ b k w) (ha : ∀ k w, a' k w ↔ a k w)
    (h : Applied v b a) : Applied v b' a' := by
  intro k w
  rw [ha, hb, h k w]

/-- The state after `DB.indexRecord`, run alone on a `DB` that satisfies the
invariant, with at least one pass allowed: the call returns nil, the
invariant holds again, the record has been applied, and the log, the seed
and the flags are as before. -/
theorem DB.indexRecord_spec {Chunk : Type} {env : Env Chunk} {db : DB Chunk}
    (record : Bytes) (fuel : Nat) (hinv : DB.Inv env db) :
    ∃ db', DB.indexRecord env (fuel + 1) db record = some (db', none) ∧ DB.Inv env db' ∧
      Applied ((env.Set record).sHash (hashOf env db.flags (env.Set record).key))
        (Holds db.cells db.tree.root) (Holds db'.cells db'.tree.root) ∧
      db'.flags = db.flags ∧ db'.Ch = db.Ch ∧ db'.seed = db.seed := by
  set v := (env.Set record).sHash (hashOf env db.flags (env.Set record).key) with hvdef
  set cells0 := storeCell (newCell db.cells).2 (newCell db.cells).1 v with hc0
  have hv : cells0[db.cells.length]? = some (some v) := alloc_store_new db.cells v
  have hold : ∀ a, Item.cell a ∈ db.tree.root.items → cells0[a]? = db.cells[a]? :=
    fun a ha => alloc_store_old db.cells v (IndexInv.addr_lt hinv ha)
  have hinv0 : IndexInv env db.flags cells0 db.tree.root := IndexInv.frame_of_cells hinv hold
  have hh : v.hash = hashOf env db.flags v.key := rfl
  have hbefore : ∀ k w, Holds db.cells db.tree.root k w ↔ Holds cells0 db.tree.root k w :=
    fun k w => (Holds.iff_of_cells hold k w).symm
  have hunf : DB.indexRecord env (fuel + 1) db record =
      match DB.indexLoop env record v db.cells.length (fuel + 1) (-1)
          { db with cells := cells0 } with
      | none => none
      | some db => some (db, none) := rfl
  rw [hunf]
  by_cases hval : v.value = []
  · have hlen : v.GValue.length = 0 := by simp [Value.GValue, hval]
    rcases node.Get_isSome hinv0 hv with hget | ⟨it, hget⟩
    · have happ := step_tombstone_absent hinv0 hv hh hval hget
      refine ⟨{ db with cells := cells0 }, ?_, hinv0, happ.congr hbefore (fun _ _ => Iff.rfl),
        rfl, rfl, rfl⟩
      simp [DB.indexLoop, DB.indexAttempt, hlen, TreapPtr.Get, hget]
    · obtain ⟨root', hdel, hinv', happ, _⟩ :=
        step_tombstone_present db.nextTreap hinv0 hv hh hval hget
      refine ⟨{ db with cells := cells0, tree := ⟨db.nextTreap, root'⟩,
                        nextTreap := db.nextTreap + 1 }, ?_, hinv',
        happ.congr hbefore (fun _ _ => Iff.rfl), rfl, rfl, rfl⟩
      simp [DB.indexLoop, DB.indexAttempt, hlen, TreapPtr.Get, hget, hdel]
  · have hlen : ¬ v.GValue.length = 0 := by simpa [Value.GValue] using hval
    rcases node.Get_isSome hinv0 hv with hget | ⟨it, hget⟩
    · obtain ⟨root', hup, hinv', happ, _⟩ :=
        step_insert (computePriority env record db.seed) db.nextTreap hinv0 hv hh hval hget
      refine ⟨{ db with cells := cells0, tree := ⟨db.nextTreap, root'⟩,
                        nextTreap := db.nextTreap + 1 }, ?_, hinv',
        happ.congr hbefore (fun _ _ => Iff.rfl), rfl, rfl, rfl⟩
      simp [DB.indexLoop, DB.indexAttempt, hlen, TreapPtr.Get, hget, hup]
    · obtain ⟨a, rfl, hinv', happ, _⟩ := step_replace hinv0 hv hh hval hget
      refine ⟨{ db with cells := storeCell cells0 a v }, ?_, hinv',
        happ.congr hbefore (fun _ _ => Iff.rfl), rfl, rfl, rfl⟩
      simp [DB.indexLoop, DB.indexAttempt, hlen, TreapPtr.Get, hget]

/-! ## The arithmetic of `int64` -/

theorem wrapInt64_of_range {x : Int} (hlo : -2 ^ 63 ≤ x) (hhi : x < 2 ^ 63) :
    wrapInt64 x = x := by
  unfold wrapInt64
  omega

theorem wrapInt64_range (x : Int) : -2 ^ 63 ≤ wrapInt64 x ∧ wrapInt64 x < 2 ^ 63 := by
  unfold wrapInt64
  omega

theorem wrapInt64_add_wrap (a b : Int) : wrapInt64 (wrapInt64 a + b) = wrapInt64 (a + b) := by
  unfold wrapInt64
  omega

theorem validEnd_le_consumed (os : List Outcome) : validEnd os ≤ consumed os := by
  induction os with
  | nil => simp [validEnd, consumed]
  | cons o os ih =>
    simp only [validEnd, consumed]
    split_ifs <;> omega

/-! ## The loop of `DB.load` -/

theorem store_scratch_new {cells : Cells} {vv : Nat} (v : Value) (h : vv < cells.length) :
    (storeCell cells vv v)[vv]? = some (some v) := by
  simp [storeCell, List.getElem?_set, h]

theorem store_scratch_old {cells : Cells} {vv a : Nat} (v : Value) (h : a ≠ vv) :
    (storeCell cells vv v)[a]? = cells[a]? := by
  simp [storeCell, List.getElem?_set, Ne.symm h]

theorem newCell_old {cells : Cells} {a : Nat} (h : a < cells.length) :
    (newCell cells).2[a]? = cells[a]? := by
  simp [newCell, List.getElem?_append_left h]

/-- One valid record in the loop of `DB.load`: the body returns, keeps the
loop invariant, applies the record, and sets `usedPos` to `pos`. -/
theorem DB.loadRecord_spec {Chunk : Type} {env : Env Chunk} {flags : LoadFlags} (seed : Nat)
    {st : LoadState} (v : Value) (hinv : LoadInv env flags st) :
    ∃ st', DB.loadRecord env flags seed st v = some st' ∧ LoadInv env flags st' ∧
      Applied (setHash env flags v) (Holds st.cells st.t.root) (Holds st'.cells st'.t.root) ∧
      st'.mem = st.mem ∧ st'.pos = st.pos ∧ st'.usedPos = st.pos := by
  set w := setHash env flags v with hw
  set cells0 := storeCell st.cells st.vv w with hc0
  have hv : cells0[st.vv]? = some (some w) := store_scratch_new w hinv.scratch
  have hold : ∀ a, Item.cell a ∈ st.t.root.items → cells0[a]? = st.cells[a]? := by
    intro a ha
    apply store_scratch_old
    rintro rfl
    exact hinv.fresh ha
  have hinv0 : IndexInv env flags cells0 st.t.root := IndexInv.frame_of_cells hinv.index hold
  have hh : w.hash = hashOf env flags w.key := rfl
  have hbefore : ∀ k u, Holds st.cells st.t.root k u ↔ Holds cells0 st.t.root k u :=
    fun k u => (Holds.iff_of_cells hold k u).symm
  have hlen0 : cells0.length = st.cells.length := by simp [hc0, storeCell]
  have hunf : DB.loadRecord env flags seed st v =
      if w.GValue.length = 0 then
        match st.t.Get cells0 (.cell st.vv) with
        | none => none
        | some none => some { st with cells := cells0, usedPos := st.pos }
        | some (some _) =>
          match st.t.Delete cells0 (.cell st.vv) st.nextTreap with
          | none => none
          | some (t, next) =>
            some { st with cells := cells0, t := t, nextTreap := next, usedPos := st.pos }
      else
        match st.t.Get cells0 (.cell st.vv) with
        | none => none
        | some (some oo) =>
          match oo with
          | .cell a => some { st with cells := storeCell cells0 a w, usedPos := st.pos }
          | _ => none
        | some none =>
          match st.t.Upsert cells0 (.cell st.vv) (computePriority env w.Record seed)
              st.nextTreap with
          | none => none
          | some (t, next) =>
            some { st with cells := (newCell cells0).2, t := t, nextTreap := next,
                           vv := (newCell cells0).1, usedPos := st.pos } := rfl
  rw [hunf]
  by_cases hval : w.value = []
  · have hlen : w.GValue.length = 0 := by simp [Value.GValue, hval]
    rcases node.Get_isSome hinv0 hv with hget | ⟨it, hget⟩
    · have happ := step_tombstone_absent hinv0 hv hh hval hget
      refine ⟨{ st with cells := cells0, usedPos := st.pos }, ?_,
        ⟨hinv0, by simpa [hlen0] using hinv.scratch, hinv.fresh⟩,
        happ.congr hbefore (fun _ _ => Iff.rfl), rfl, rfl, rfl⟩
      simp [hlen, TreapPtr.Get, hget]
    · obtain ⟨root', hdel, hinv', happ, hsub⟩ :=
        step_tombstone_present st.nextTreap hinv0 hv hh hval hget
      refine ⟨{ st with cells := cells0, t := ⟨st.nextTreap, root'⟩,
                        nextTreap := st.nextTreap + 1, usedPos := st.pos }, ?_,
        ⟨hinv', by simpa [hlen0] using hinv.scratch, fun h => hinv.fresh (hsub _ h)⟩,
        happ.congr hbefore (fun _ _ => Iff.rfl), rfl, rfl, rfl⟩
      simp [hlen, TreapPtr.Get, hget, hdel]
  · have hlen : ¬ w.GValue.length = 0 := by simpa [Value.GValue] using hval
    rcases node.Get_isSome hinv0 hv with hget | ⟨it, hget⟩
    · obtain ⟨root', hup, hinv', happ, hmem⟩ :=
        step_insert (computePriority env w.Record seed) st.nextTreap hinv0 hv hh hval hget
      have hold' : ∀ a, Item.cell a ∈ root'.items → (newCell cells0).2[a]? = cells0[a]? :=
        fun a ha => newCell_old (IndexInv.addr_lt hinv' ha)
      refine ⟨{ st with cells := (newCell cells0).2, t := ⟨st.nextTreap, root'⟩,
                        nextTreap := st.nextTreap + 1, vv := (newCell cells0).1,
                        usedPos := st.pos }, ?_,
        ⟨IndexInv.frame_of_cells hinv' hold', by simp [newCell], ?_⟩,
        happ.congr hbefore (fun k u => Holds.iff_of_cells hold' k u), rfl, rfl, rfl⟩
      · simp [hlen, TreapPtr.Get, hget, hup]
      · intro h
        have := IndexInv.addr_lt hinv' h
        simp [newCell] at this
    · obtain ⟨a, rfl, hinv', happ, _⟩ := step_replace hinv0 hv hh hval hget
      refine ⟨{ st with cells := storeCell cells0 a w, usedPos := st.pos }, ?_,
        ⟨hinv', by simpa [storeCell, hlen0] using hinv.scratch, hinv.fresh⟩,
        happ.congr hbefore (fun _ _ => Iff.rfl), rfl, rfl, rfl⟩
      simp [hlen, TreapPtr.Get, hget]

theorem validEnd_of_no_valid {os : List Outcome} (h : validRecords os = []) :
    validEnd os = 0 := by
  cases os with
  | nil => rfl
  | cons o os =>
    simp only [validRecords] at h
    split_ifs at h with h1
    simp [validEnd, h1, h]

theorem applyAll_congr {C C' : Bytes → Value → Prop} (vs : List Value)
    (h : ∀ k w, C k w ↔ C' k w) : ∀ k w, applyAll vs C k w ↔ applyAll vs C' k w := by
  induction vs generalizing C C' with
  | nil => exact h
  | cons v vs ih =>
    apply ih
    intro k w
    simp only [applyRec, h k w]

theorem scanned_halt {Chunk : Type} {env : Env Chunk} {flags : LoadFlags} (fuel : Nat)
    {mem : Bytes}
    (h : (env.Decode mem).2 = some Error.EShortRecord ∨
      ((env.Decode mem).2 = some Error.EInvalidRecord ∧ flags.has L_STOP_INVALID = true)) :
    scanned env flags (fuel + 1) mem = [] := by
  rcases h with h | h
  · simp [scanned, h]
  · simp only [scanned]
    split_ifs <;> rfl

theorem scanned_step {Chunk : Type} {env : Env Chunk} {flags : LoadFlags} (fuel : Nat)
    {mem : Bytes} (h1 : ¬ (env.Decode mem).2 = some Error.EShortRecord)
    (h2 : ¬ ((env.Decode mem).2 = some Error.EInvalidRecord ∧ flags.has L_STOP_INVALID = true)) :
    scanned env flags (fuel + 1) mem =
      env.Decode mem :: scanned env flags fuel (mem.drop (env.Decode mem).1.Record.length) := by
  simp only [scanned]
  rw [if_neg h1, if_neg h2]

/-- The loop of `DB.load` from a state that satisfies the loop invariant: when
it halts, the invariant holds, the tree holds the content it started from with
the valid records scanned applied in order, and `usedPos` is the end of the
last valid record scanned (unchanged if there is none). -/
theorem DB.loadLoop_spec {Chunk : Type} {env : Env Chunk} {flags : LoadFlags} {seed : Nat}
    (fuel : Nat) (st st' : LoadState) (hinv : LoadInv env flags st)
    (h : DB.loadLoop env flags seed fuel st = some st') :
    LoadInv env flags st' ∧
    (∀ k w, Holds st'.cells st'.t.root k w ↔
      applyAll ((validRecords (scanned env flags fuel st.mem)).map (setHash env flags))
        (Holds st.cells st.t.root) k w) ∧
    st'.usedPos = (if validRecords (scanned env flags fuel st.mem) = [] then st.usedPos
      else wrapInt64 (st.pos + (validEnd (scanned env flags fuel st.mem) : Int))) := by
  induction fuel generalizing st with
  | zero => simp [DB.loadLoop] at h
  | succ fuel ih =>
    simp only [DB.loadLoop] at h
    split_ifs at h with h1 h2 h3
    · cases h
      rw [scanned_halt fuel (Or.inl h1)]
      exact ⟨hinv, fun k w => Iff.rfl, rfl⟩
    · cases h
      rw [scanned_halt fuel (Or.inr h2)]
      exact ⟨hinv, fun k w => Iff.rfl, rfl⟩
    · obtain ⟨hi, hc, hu⟩ := ih _
          (⟨hinv.index, hinv.scratch, hinv.fresh⟩ :
            LoadInv env flags { st with
              mem := st.mem.drop (env.Decode st.mem).1.Record.length,
              pos := wrapInt64 (st.pos + ((env.Decode st.mem).1.Record.length : Int)) }) h
      rw [scanned_step fuel h1 h2]
      have hvr : validRecords (env.Decode st.mem ::
          scanned env flags fuel (st.mem.drop (env.Decode st.mem).1.Record.length))
          = validRecords (scanned env flags fuel
              (st.mem.drop (env.Decode st.mem).1.Record.length)) := by
        simp [validRecords, h3]
      refine ⟨hi, ?_, ?_⟩
      · rw [hvr]
        exact hc
      · rw [hvr, hu]
        simp only [validEnd, h3, false_or]
        split_ifs with h4
        · rfl
        · rw [wrapInt64_add_wrap]
          push_cast
          rw [add_assoc]
    · have h3' : (env.Decode st.mem).2 = none := by
        by_contra hcon
        exact h3 hcon
      obtain ⟨st2, hrec, hinv2, happ, hmem, hpos, hused⟩ :=
        DB.loadRecord_spec seed (env.Decode st.mem).1
          (⟨hinv.index, hinv.scratch, hinv.fresh⟩ :
            LoadInv env flags { st with
              mem := st.mem.drop (env.Decode st.mem).1.Record.length,
              pos := wrapInt64 (st.pos + ((env.Decode st.mem).1.Record.length : Int)) })
      rw [hrec] at h
      obtain ⟨hi, hc, hu⟩ := ih _ hinv2 h
      rw [scanned_step fuel h1 h2]
      rw [hmem] at hc hu
      refine ⟨hi, ?_, ?_⟩
      · intro k w
        rw [hc k w]
        simp only [validRecords, h3', ↓reduceIte, List.map_cons, applyAll]
        apply applyAll_congr
        intro k w
        exact happ k w
      · rw [hu, hused, hpos]
        simp only [validRecords, h3', ↓reduceIte, validEnd, true_or, reduceCtorEq]
        split_ifs with h4
        · rw [validEnd_of_no_valid h4]
          simp
        · rw [wrapInt64_add_wrap]
          push_cast
          rw [add_assoc]

/-- The loop of `DB.load` halts within `len(mem) + 1` iterations when every
decode that is not short yields a record of at least one and at most
`len(mem)` bytes. -/
theorem DB.loadLoop_total {Chunk : Type} {env : Env Chunk} {flags : LoadFlags} {seed : Nat}
    (hlen : ∀ m, (env.Decode m).2 ≠ some Error.EShortRecord →
      1 ≤ (env.Decode m).1.Record.length ∧ (env.Decode m).1.Record.length ≤ m.length)
    (fuel : Nat) (st : LoadState) (hinv : LoadInv env flags st)
    (hf : st.mem.length < fuel) :
    ∃ st', DB.loadLoop env flags seed fuel st = some st' := by
  induction fuel generalizing st with
  | zero => omega
  | succ fuel ih =>
    simp only [DB.loadLoop]
    split_ifs with h1 h2 h3
    · exact ⟨st, rfl⟩
    · exact ⟨st, rfl⟩
    · apply ih _
          (⟨hinv.index, hinv.scratch, hinv.fresh⟩ :
            LoadInv env flags { st with
              mem := st.mem.drop (env.Decode st.mem).1.Record.length,
              pos := wrapInt64 (st.pos + ((env.Decode st.mem).1.Record.length : Int)) })
      have := hlen st.mem h1
      simp only [List.length_drop]
      omega
    · obtain ⟨st2, hrec, hinv2, _, hmem, _, _⟩ :=
        DB.loadRecord_spec seed (env.Decode st.mem).1
          (⟨hinv.index, hinv.scratch, hinv.fresh⟩ :
            LoadInv env flags { st with
              mem := st.mem.drop (env.Decode st.mem).1.Record.length,
              pos := wrapInt64 (st.pos + ((env.Decode st.mem).1.Record.length : Int)) })
      rw [hrec]
      apply ih _ hinv2
      rw [hmem]
      have := hlen st.mem h1
      simp only [List.length_drop]
      omega

theorem DB.loadRecord_mem {Chunk : Type} {env : Env Chunk} {flags : LoadFlags} {seed : Nat}
    {st st' : LoadState} {v : Value} (h : DB.loadRecord env flags seed st v = some st') :
    st'.mem = st.mem := by
  unfold DB.loadRecord at h
  simp only at h
  split_ifs at h
  · split at h
    · cases h
    · cases h
      rfl
    · split at h
      · cases h
      · cases h
        rfl
  · split at h
    · cases h
    · split at h
      · cases h
        rfl
      · cases h
    · split at h
      · cases h
      · cases h
        rfl

theorem DB.loadRecord_pos {Chunk : Type} {env : Env Chunk} {flags : LoadFlags} {seed : Nat}
    {st st' : LoadState} {v : Value} (h : DB.loadRecord env flags seed st v = some st') :
    st'.pos = st.pos ∧ st'.usedPos = st.pos := by
  unfold DB.loadRecord at h
  simp only at h
  split_ifs at h
  · split at h
    · cases h
    · cases h
      exact ⟨rfl, rfl⟩
    · split at h
      · cases h
      · cases h
        exact ⟨rfl, rfl⟩
  · split at h
    · cases h
    · split at h
      · cases h
        exact ⟨rfl, rfl⟩
      · cases h
    · split at h
      · cases h
      · cases h
        exact ⟨rfl, rfl⟩

/-- In the loop of `DB.load`, as long as the offsets stay in the range of
`int64` (the offset of the start is at least -2^63 and the offset after the
last record scanned is below 2^63), `usedPos` never passes `pos`: at the halt
it is at most the offset of the record at which the scan halted. -/
theorem DB.loadLoop_usedPos_le {Chunk : Type} {env : Env Chunk} {flags : LoadFlags}
    {seed : Nat} (fuel : Nat) (st st' : LoadState) (hle : st.usedPos ≤ st.pos)
    (hlo : -2 ^ 63 ≤ st.pos)
    (hhi : st.pos + (consumed (scanned env flags fuel st.mem) : Int) < 2 ^ 63)
    (h : DB.loadLoop env flags seed fuel st = some st') : st'.usedPos ≤ st'.pos := by
  induction fuel generalizing st with
  | zero => simp [DB.loadLoop] at h
  | succ fuel ih =>
    simp only [DB.loadLoop] at h
    split_ifs at h with h1 h2 h3
    · cases h
      exact hle
    · cases h
      exact hle
    · rw [scanned_step fuel h1 h2] at hhi
      simp only [consumed] at hhi
      push_cast at hhi
      have hw : wrapInt64 (st.pos + ((env.Decode st.mem).1.Record.length : Int)) =
          st.pos + ((env.Decode st.mem).1.Record.length : Int) :=
        wrapInt64_of_range (by omega) (by omega)
      apply ih _ _ _ _ h
      · show st.usedPos ≤ wrapInt64 (st.pos + ((env.Decode st.mem).1.Record.length : Int))
        rw [hw]
        omega
      · show -2 ^ 63 ≤ wrapInt64 (st.pos + ((env.Decode st.mem).1.Record.length : Int))
        rw [hw]
        omega
      · show wrapInt64 (st.pos + ((env.Decode st.mem).1.Record.length : Int)) +
            (consumed (scanned env flags fuel
              (st.mem.drop (env.Decode st.mem).1.Record.length)) : Int) < 2 ^ 63
        rw [hw]
        omega
    · rw [scanned_step fuel h1 h2] at hhi
      simp only [consumed] at hhi
      push_cast at hhi
      have hw : wrapInt64 (st.pos + ((env.Decode st.mem).1.Record.length : Int)) =
          st.pos + ((env.Decode st.mem).1.Record.length : Int) :=
        wrapInt64_of_range (by omega) (by omega)
      cases hrec : DB.loadRecord env flags seed
          { st with mem := st.mem.drop (env.Decode st.mem).1.Record.length,
                    pos := wrapInt64 (st.pos + ((env.Decode st.mem).1.Record.length : Int)) }
          (env.Decode st.mem).1 with
      | none => simp [hrec] at h
      | some st2 =>
        rw [hrec] at h
        obtain ⟨hp, hu⟩ := DB.loadRecord_pos hrec
        have hm : st2.mem = st.mem.drop (env.Decode st.mem).1.Record.length :=
          DB.loadRecord_mem hrec
        apply ih _ _ _ _ h
        · rw [hp, hu]
        · rw [hp]
          show -2 ^ 63 ≤ wrapInt64 (st.pos + ((env.Decode st.mem).1.Record.length : Int))
          rw [hw]
          omega
        · rw [hp, hm]
          show wrapInt64 (st.pos + ((env.Decode st.mem).1.Record.length : Int)) +
              (consumed (scanned env flags fuel
                (st.mem.drop (env.Decode st.mem).1.Record.length)) : Int) < 2 ^ 63
          rw [hw]
          omega

/-! ## `DB.load` and `DB.Open` -/

theorem DB.loadInit_inv {Chunk : Type} {env : Env Chunk} {db : DB Chunk}
    (hinv : DB.Inv env db) : LoadInv env db.flags (DB.loadInit env db) := by
  have hold : ∀ a, Item.cell a ∈ db.tree.root.items → (newCell db.cells).2[a]? = db.cells[a]? :=
    fun a ha => newCell_old (IndexInv.addr_lt hinv ha)
  refine ⟨IndexInv.frame_of_cells hinv hold, by simp [DB.loadInit, newCell], ?_⟩
  intro h
  have := IndexInv.addr_lt hinv h
  simp [DB.loadInit, newCell] at this

theorem DB.loadInit_holds {Chunk : Type} {env : Env Chunk} {db : DB Chunk}
    (hinv : DB.Inv env db) (k : Bytes) (w : Value) :
    Holds (DB.loadInit env db).cells (DB.loadInit env db).t.root k w ↔
      Holds db.cells db.tree.root k w :=
  Holds.iff_of_cells (fun _ ha => newCell_old (IndexInv.addr_lt hinv ha)) k w

/-- The state after `DB.load` on a `DB` that satisfies the invariant: the
invariant holds, the tree holds the former content with the valid records
scanned applied in order, and the log has been truncated once, at the end of
the last valid record scanned, if `L_DISCARD_INVALID_TAIL` is set, and is
untouched otherwise. -/
theorem DB.load_spec {Chunk : Type} {env : Env Chunk} {db db' : DB Chunk} (fuel : Nat)
    (hinv : DB.Inv env db) (h : DB.load env fuel db = some db') :
    DB.Inv env db' ∧ db'.flags = db.flags ∧ db'.seed = db.seed ∧
    (∀ k w, Holds db'.cells db'.tree.root k w ↔
      applyAll ((validRecords (scanned env db.flags fuel (env.GetCommitted db.Ch).1)).map
        (setHash env db.flags)) (Holds db.cells db.tree.root) k w) ∧
    db'.Ch = (if db.flags.has L_DISCARD_INVALID_TAIL = true then
        env.SetLast db.Ch (wrapInt64 ((env.GetCommitted db.Ch).2 +
          (validEnd (scanned env db.flags fuel (env.GetCommitted db.Ch).1) : Int)))
      else db.Ch) := by
  unfold DB.load at h
  cases hloop : DB.loadLoop env db.flags db.seed fuel (DB.loadInit env db) with
  | none => simp [hloop] at h
  | some st =>
    obtain ⟨hi, hc, hu⟩ := DB.loadLoop_spec fuel _ st (DB.loadInit_inv hinv) hloop
    have hc' : ∀ k w, Holds st.cells st.t.root k w ↔
        applyAll ((validRecords (scanned env db.flags fuel (env.GetCommitted db.Ch).1)).map
          (setHash env db.flags)) (Holds db.cells db.tree.root) k w := by
      intro k w
      rw [hc k w]
      exact applyAll_congr _ (DB.loadInit_holds hinv) k w
    have hu' : st.usedPos = wrapInt64 ((env.GetCommitted db.Ch).2 +
        (validEnd (scanned env db.flags fuel (env.GetCommitted db.Ch).1) : Int)) := by
      rw [hu]
      split_ifs with h4
      · have h0 := validEnd_of_no_valid h4
        simp only [DB.loadInit] at h0 ⊢
        rw [h0]
        simp
      · simp only [DB.loadInit]
        rw [wrapInt64_add_wrap]
    simp only [hloop] at h
    split_ifs at h with hflag
    · cases h
      exact ⟨hi.index, rfl, rfl, hc', by simp only [hflag, ↓reduceIte, hu']⟩
    · cases h
      exact ⟨hi.index, rfl, rfl, hc', by simp only [hflag]; rfl⟩

/-- With a codec whose records that are not short have at least one byte and
at most the bytes that remain, `DB.load` returns when it is given
`len(mem) + 1` iterations. -/
theorem DB.load_total {Chunk : Type} {env : Env Chunk} {db : DB Chunk}
    (hlen : ∀ m, (env.Decode m).2 ≠ some Error.EShortRecord →
      1 ≤ (env.Decode m).1.Record.length ∧ (env.Decode m).1.Record.length ≤ m.length)
    (hinv : DB.Inv env db) :
    ∃ db', DB.load env ((env.GetCommitted db.Ch).1.length + 1) db = some db' := by
  obtain ⟨st, hst⟩ := @DB.loadLoop_total Chunk env db.flags db.seed hlen
    ((env.GetCommitted db.Ch).1.length + 1) (DB.loadInit env db) (DB.loadInit_inv hinv)
    (by simp [DB.loadInit])
  unfold DB.load
  rw [hst]
  simp only
  split_ifs <;> exact ⟨_, rfl⟩

theorem applyAll_lastRecord (vs : List Value) (C : Bytes → Value → Prop) (k : Bytes)
    (w : Value) :
    applyAll vs C k w ↔
      match lastRecord k vs with
      | some v => w = v ∧ v.value ≠ []
      | none => C k w := by
  induction vs generalizing C with
  | nil => simp [applyAll, lastRecord]
  | cons v vs ih =>
    simp only [applyAll, lastRecord]
    rw [ih]
    cases hl : lastRecord k vs with
    | some u => simp
    | none =>
      simp only [applyRec]
      by_cases hk : v.key = k
      · simp only [hk, ↓reduceIte]
        subst hk
        simp
      · simp only [hk, ↓reduceIte]
        have : ¬ k = v.key := fun h => hk h.symm
        simp [this]

theorem lastRecord_map_setHash {Chunk : Type} (env : Env Chunk) (flags : LoadFlags)
    (k : Bytes) (vs : List Value) :
    lastRecord k (vs.map (setHash env flags)) = (lastRecord k vs).map (setHash env flags) := by
  induction vs with
  | nil => rfl
  | cons v vs ih =>
    simp only [List.map_cons, lastRecord, ih]
    cases lastRecord k vs with
    | some u => rfl
    | none =>
      simp only [Option.map_none', setHash, Value.sHash]
      split_ifs <;> rfl

/-- The answers of `Get` on a `DB` whose tree holds the records `vs` applied in
order to the empty content. -/
theorem DB.Get_of_applyAll {Chunk : Type} {env : Env Chunk} {db : DB Chunk}
    (hinv : DB.Inv env db) (vs : List Value)
    (hc : ∀ k w, Holds db.cells db.tree.root k w ↔
      applyAll (vs.map (setHash env db.flags)) (fun _ _ => False) k w)
    (k : Bytes) (synced : Bool) :
    DB.Get env db k synced = some (expectedGet k vs) := by
  have hc' : ∀ w, Holds db.cells db.tree.root k w ↔
      match (lastRecord k vs).map (setHash env db.flags) with
      | some v => w = v ∧ v.value ≠ []
      | none => False := by
    intro w
    rw [hc k w, applyAll_lastRecord, lastRecord_map_setHash]
  unfold expectedGet
  cases hl : lastRecord k vs with
  | none =>
    simp only [hl, Option.map_none'] at hc'
    rw [DB.Get_absent synced hinv (fun w hw => (hc' w).mp hw)]
  | some v =>
    simp only [hl, Option.map_some'] at hc'
    by_cases hval : v.value = []
    · have : ∀ w, ¬ Holds db.cells db.tree.root k w := by
        intro w hw
        exact ((hc' w).mp hw).2 (by simpa [setHash, Value.sHash] using hval)
      rw [DB.Get_absent synced hinv this]
      simp [hval]
    · have hh : Holds db.cells db.tree.root k (setHash env db.flags v) :=
        (hc' _).mpr ⟨rfl, by simpa [setHash, Value.sHash] using hval⟩
      rw [DB.Get_found synced hinv hh]
      simp [hval, setHash, Value.sHash]

theorem DB.Open_spec {Chunk : Type} {env : Env Chunk} {db db' : DB Chunk}
    {flags : LoadFlags} {now : Nat} (fuel : Nat)
    (h : DB.Open env fuel db flags now = some db') :
    DB.Inv env db' ∧ db'.flags = flags ∧
    (∀ k w, Holds db'.cells db'.tree.root k w ↔
      applyAll ((validRecords (scanned env flags fuel (env.GetCommitted db.Ch).1)).map
        (setHash env flags)) (fun _ _ => False) k w) := by
  unfold DB.Open at h
  obtain ⟨hi, hf, _, hc, _⟩ :=
    DB.load_spec fuel (by exact IndexInv.nil env flags db.cells) h
  refine ⟨hi, hf, ?_⟩
  intro k w
  rw [hc k w]
  apply applyAll_congr
  intro k w
  simp [Holds, NewTreap, node.items]

theorem DB.Open_total {Chunk : Type} {env : Env Chunk} (db : DB Chunk) (flags : LoadFlags)
    (now : Nat)
    (hlen : ∀ m, (env.Decode m).2 ≠ some Error.EShortRecord →
      1 ≤ (env.Decode m).1.Record.length ∧ (env.Decode m).1.Record.length ≤ m.length) :
    ∃ db', DB.Open env ((env.GetCommitted db.Ch).1.length + 1) db flags now = some db' := by
  unfold DB.Open
  apply DB.load_total hlen
  exact IndexInv.nil env flags db.cells

/-! ## `DB.Put` and `DB.PutRAW` run alone -/

/-- The method `DB.Put` returns (with an error or without one) on every `DB`
that satisfies the invariant, when at least one pass is allowed. -/
theorem DB.Put_returns {Chunk : Type} {env : Env Chunk} {db : DB Chunk} (k v : Bytes)
    (fuel : Nat) (hinv : DB.Inv env db) :
    ∃ r, DB.Put env (fuel + 1) db k v = some r := by
  unfold DB.Put
  simp only
  split_ifs with h1 h2
  · exact ⟨_, rfl⟩
  · exact ⟨_, rfl⟩
  · obtain ⟨db', h, _⟩ := @DB.indexRecord_spec Chunk env
      { db with Ch := (env.Skip db.Ch (env.recordLength k.length v.length).1).2 }
      (env.encodeRecordInto (env.Skip db.Ch (env.recordLength k.length v.length).1).1.1 k v)
      fuel hinv
    exact ⟨_, h⟩

/-- A `DB.Put` that returns nil has applied the record it encoded, and keeps
the invariant. -/
theorem DB.Put_ok {Chunk : Type} {env : Env Chunk} {db db' : DB Chunk} {k v : Bytes}
    {fuel : Nat} (hinv : DB.Inv env db) (h : DB.Put env (fuel + 1) db k v = some (db', none)) :
    DB.Inv env db' ∧ db'.flags = db.flags ∧
    Applied (setHash env db.flags (env.Set (env.encodeRecordInto
        (env.Skip db.Ch (env.recordLength k.length v.length).1).1.1 k v)))
      (Holds db.cells db.tree.root) (Holds db'.cells db'.tree.root) := by
  unfold DB.Put at h
  simp only at h
  split_ifs at h with h1 h2
  · simp only [Option.some.injEq, Prod.mk.injEq] at h
    exact absurd h.2 h1
  · simp only [Option.some.injEq, Prod.mk.injEq] at h
    exact absurd h.2 h2
  · obtain ⟨db'', h', hi, happ, hf, _⟩ := @DB.indexRecord_spec Chunk env
      { db with Ch := (env.Skip db.Ch (env.recordLength k.length v.length).1).2 }
      (env.encodeRecordInto (env.Skip db.Ch (env.recordLength k.length v.length).1).1.1 k v)
      fuel hinv
    rw [h'] at h
    cases h
    exact ⟨hi, hf, happ⟩

/-- The method `DB.PutRAW` returns on every `DB` that satisfies the invariant,
when at least one pass is allowed. -/
theorem DB.PutRAW_returns {Chunk : Type} {env : Env Chunk} {db : DB Chunk} (record : Bytes)
    (fuel : Nat) (hinv : DB.Inv env db) :
    ∃ r, DB.PutRAW env (fuel + 1) db record = some r := by
  unfold DB.PutRAW
  simp only
  split_ifs with h1
  · exact ⟨_, rfl⟩
  · obtain ⟨db', h, _⟩ := @DB.indexRecord_spec Chunk env
      { db with Ch := (env.Append db.Ch record).2 } (env.Append db.Ch record).1.1 fuel hinv
    exact ⟨_, h⟩

/-- A `DB.PutRAW` that returns nil has applied the record the log stored, and
keeps the invariant. -/
theorem DB.PutRAW_ok {Chunk : Type} {env : Env Chunk} {db db' : DB Chunk} {record : Bytes}
    {fuel : Nat} (hinv : DB.Inv env db)
    (h : DB.PutRAW env (fuel + 1) db record = some (db', none)) :
    DB.Inv env db' ∧ db'.flags = db.flags ∧
    Applied (setHash env db.flags (env.Set (env.Append db.Ch record).1.1))
      (Holds db.cells db.tree.root) (Holds db'.cells db'.tree.root) := by
  unfold DB.PutRAW at h
  simp only at h
  split_ifs at h with h1
  · simp only [Option.some.injEq, Prod.mk.injEq] at h
    exact absurd h.2 h1
  · obtain ⟨db'', h', hi, happ, hf, _⟩ := @DB.indexRecord_spec Chunk env
      { db with Ch := (env.Append db.Ch record).2 } (env.Append db.Ch record).1.1 fuel hinv
    rw [h'] at h
    cases h
    exact ⟨hi, hf, happ⟩

/-- When `recordLength` and `Skip` return no error, `DB.Put` returns nil on
every `DB` that satisfies the invariant; the log is the log after `Skip`. -/
theorem DB.Put_succeeds {Chunk : Type} {env : Env Chunk} {db : DB Chunk} (k v : Bytes)
    (fuel : Nat) (hinv : DB.Inv env db)
    (h1 : (env.recordLength k.length v.length).2 = none)
    (h2 : (env.Skip db.Ch (env.recordLength k.length v.length).1).1.2.2 = none) :
    ∃ db', DB.Put env (fuel + 1) db k v = some (db', none) ∧
      db'.Ch = (env.Skip db.Ch (env.recordLength k.length v.length).1).2 := by
  obtain ⟨db', h, _, _, _, hch, _⟩ := @DB.indexRecord_spec Chunk env
    { db with Ch := (env.Skip db.Ch (env.recordLength k.length v.length).1).2 }
    (env.encodeRecordInto (env.Skip db.Ch (env.recordLength k.length v.length).1).1.1 k v)
    fuel hinv
  refine ⟨db', ?_, hch⟩
  unfold DB.Put
  simp only [h1, h2, ne_eq, not_true_eq_false, ↓reduceIte]
  exact h

/-- When `Append` returns no error, `DB.PutRAW` returns nil on every `DB` that
satisfies the invariant; the log is the log after `Append`. -/
theorem DB.PutRAW_succeeds {Chunk : Type} {env : Env Chunk} {db : DB Chunk} (record : Bytes)
    (fuel : Nat) (hinv : DB.Inv env db)
    (h1 : (env.Append db.Ch record).1.2.2 = none) :
    ∃ db', DB.PutRAW env (fuel + 1) db record = some (db', none) ∧
      db'.Ch = (env.Append db.Ch record).2 := by
  obtain ⟨db', h, _, _, _, hch, _⟩ := @DB.indexRecord_spec Chunk env
    { db with Ch := (env.Append db.Ch record).2 } (env.Append db.Ch record).1.1 fuel hinv
  refine ⟨db', ?_, hch⟩
  unfold DB.PutRAW
  simp only [h1, ne_eq, not_true_eq_false, ↓reduceIte]
  exact h

theorem demoDB_inv (ch : DemoChunk) (flags : LoadFlags) : DB.Inv demoEnv (demoDB ch flags) :=
  IndexInv.nil demoEnv flags []

theorem demoDB1_inv : DB.Inv demoEnv demoDB1 := by
  refine ⟨⟨?_, ?_⟩, ?_⟩
  · simp [demoDB1, node.items, decodeItem]
  · simp [demoDB1, node.items]
  · simp [demoDB1, node.items, hashOf, LoadFlags.has, L_HASHED]

theorem demoDecode_length (m : Bytes) (h : (demoEnv.Decode m).2 ≠ some Error.EShortRecord) :
    1 ≤ (demoEnv.Decode m).1.Record.length ∧ (demoEnv.Decode m).1.Record.length ≤ m.length := by
  simp only [demoEnv] at h ⊢
  unfold demoDecode at h ⊢
  match m with
  | [] => simp at h
  | [_] => simp at h
  | [_, _] => simp at h
  | tag :: klen :: vlen :: rest =>
    simp only at h ⊢
    split_ifs at h ⊢ with h1 h2
    · simp at h
    · simp only [demoParse, List.length_take, List.length_cons]
      omega
    · simp only [demoParse, List.length_take, List.length_cons]
      omega

/-- Every call of `DB.Put` that returns keeps the invariant, whether it
returns an error or nil. -/
theorem DB.Put_inv {Chunk : Type} {env : Env Chunk} {db db' : DB Chunk} {k v : Bytes}
    {fuel : Nat} {err : Option Error} (hinv : DB.Inv env db)
    (h : DB.Put env fuel db k v = some (db', err)) : DB.Inv env db' := by
  cases fuel with
  | zero =>
    unfold DB.Put at h
    simp only at h
    split_ifs at h with h1 h2
    · simp only [Option.some.injEq, Prod.mk.injEq] at h
      rw [← h.1]
      exact hinv
    · simp only [Option.some.injEq, Prod.mk.injEq] at h
      rw [← h.1]
      exact hinv
    · simp [DB.indexRecord, DB.indexLoop] at h
  | succ fuel =>
    unfold DB.Put at h
    simp only at h
    split_ifs at h with h1 h2
    · simp only [Option.some.injEq, Prod.mk.injEq] at h
      rw [← h.1]
      exact hinv
    · simp only [Option.some.injEq, Prod.mk.injEq] at h
      rw [← h.1]
      exact hinv
    · obtain ⟨db'', h', hi, _⟩ := @DB.indexRecord_spec Chunk env
        { db with Ch := (env.Skip db.Ch (env.recordLength k.length v.length).1).2 }
        (env.encodeRecordInto (env.Skip db.Ch (env.recordLength k.length v.length).1).1.1 k v)
        fuel hinv
      rw [h'] at h
      simp only [Option.some.injEq, Prod.mk.injEq] at h
      rw [← h.1]
      exact hi

/-- Every call of `DB.PutRAW` that returns keeps the invariant. -/
theorem DB.PutRAW_inv {Chunk : Type} {env : Env Chunk} {db db' : DB Chunk} {record : Bytes}
    {fuel : Nat} {err : Option Error} (hinv : DB.Inv env db)
    (h : DB.PutRAW env fuel db record = some (db', err)) : DB.Inv env db' := by
  cases fuel with
  | zero =>
    unfold DB.PutRAW at h
    simp only at h
    split_ifs at h with h1
    · simp only [Option.some.injEq, Prod.mk.injEq] at h
      rw [← h.1]
      exact hinv
    · simp [DB.indexRecord, DB.indexLoop] at h
  | succ fuel =>
    unfold DB.PutRAW at h
    simp only at h
    split_ifs at h with h1
    · simp only [Option.some.injEq, Prod.mk.injEq] at h
      rw [← h.1]
      exact hinv
    · obtain ⟨db'', h', hi, _⟩ := @DB.indexRecord_spec Chunk env
        { db with Ch := (env.Append db.Ch record).2 } (env.Append db.Ch record).1.1 fuel hinv
      rw [h'] at h
      simp only [Option.some.injEq, Prod.mk.injEq] at h
      rw [← h.1]
      exact hi

/-- Every state that `Open` and the calls of `Put`, `Delete`, `PutRAW` and
`Commit` can produce satisfies the invariant. -/
theorem DB.Reachable.inv {Chunk : Type} {env : Env Chunk} {db : DB Chunk}
    (h : DB.Reachable env db) : DB.Inv env db := by
  induction h with
  | opened fuel db db' flags now hopen => exact (DB.Open_spec fuel hopen).1
  | put fuel db db' key value err _ hput ih => exact DB.Put_inv ih hput
  | putRAW fuel db db' record err _ hput ih => exact DB.PutRAW_inv ih hput
  | commit db _ ih => exact ih

/-! ## Load-then-serve -/

/-- C1 (load-then-serve).  For every log, `DB.Open` (which loads the log into
the empty tree) yields an index that answers `Get`, for every key `k` and in
both read modes, with the value of the last valid record for `k` scanned
before the scan halted if that value is not empty, and with absent otherwise
(`expectedGet`, over the valid records of the decode outcomes scanned).  The
load returns within `len(mem) + 1` iterations when every record that is not
short has at least one byte and at most the bytes that remain.  In particular,
when the valid records scanned are a put of `a`, a put of `b` and a delete of
`a`, `Get(a)` is absent and `Get(b)` is the value put. -/
theorem load_then_serve {Chunk : Type} (env : Env Chunk) (db : DB Chunk) (flags : LoadFlags)
    (now : Nat) :
    (∀ fuel db', DB.Open env fuel db flags now = some db' → ∀ k synced,
      DB.Get env db' k synced = some (expectedGet k
        (validRecords (scanned env flags fuel (env.GetCommitted db.Ch).1)))) ∧
    ((∀ m, (env.Decode m).2 ≠ some Error.EShortRecord →
        1 ≤ (env.Decode m).1.Record.length ∧ (env.Decode m).1.Record.length ≤ m.length) →
      ∃ db', DB.Open env ((env.GetCommitted db.Ch).1.length + 1) db flags now = some db') ∧
    (∀ fuel db' (ra rb rd : Value), DB.Open env fuel db flags now = some db' →
      validRecords (scanned env flags fuel (env.GetCommitted db.Ch).1) = [ra, rb, rd] →
      ra.value ≠ [] → rb.value ≠ [] → rd.value = [] → rd.key = ra.key → rb.key ≠ ra.key →
      ∀ synced, DB.Get env db' ra.key synced = some ([], [], false) ∧
        DB.Get env db' rb.key synced = some (rb.key, rb.value, true)) := by
  have main : ∀ fuel db', DB.Open env fuel db flags now = some db' → ∀ k synced,
      DB.Get env db' k synced = some (expectedGet k
        (validRecords (scanned env flags fuel (env.GetCommitted db.Ch).1))) := by
    intro fuel db' h k synced
    obtain ⟨hi, hf, hc⟩ := DB.Open_spec fuel h
    apply DB.Get_of_applyAll hi
    rw [hf]
    exact hc
  refine ⟨main, DB.Open_total db flags now, ?_⟩
  intro fuel db' ra rb rd h hvr ha hb hd hda hba synced
  rw [main fuel db' h, main fuel db' h, hvr]
  have hba' : ¬ ra.key = rb.key := fun h => hba h.symm
  constructor
  · simp [expectedGet, lastRecord, hda, hd]
  · simp [expectedGet, lastRecord, hda, hb, hba, hba']

/-- Witness of C1: the log `[put(a,1), put(b,2), delete(a)]` of the
concrete instance is loaded, and then `Get(a)` is absent and `Get(b)` is the
value 2. -/
theorem load_then_serve_witness :
    ∃ db', DB.Open demoEnv 15 (demoDB demoLogABA 0) L_HASHED 7 = some db' ∧
      DB.Get demoEnv db' [97] true = some ([], [], false) ∧
      DB.Get demoEnv db' [98] true = some ([98], [2], true) := by
  obtain ⟨db', h⟩ := (load_then_serve demoEnv (demoDB demoLogABA 0) L_HASHED 7).2.1
    demoDecode_length
  refine ⟨db', h, ?_, ?_⟩
  · rw [(load_then_serve demoEnv (demoDB demoLogABA 0) L_HASHED 7).1 _ db' h]
    rfl
  · rw [(load_then_serve demoEnv (demoDB demoLogABA 0) L_HASHED 7).1 _ db' h]
    rfl

/-! ## Put, then get -/

/-- C2 (put-then-get).  On every `DB` that satisfies the invariant (as every
`DB` does after `Open` and any sequence of `Put`, `Delete`, `PutRAW`), for
every key `k` and every non-empty value `v` whose encoded record the codec
parses back to `k` and `v`: `Put(k, v)` returns, and if it returns nil then
`Get(k, synced)` returns `mkey = k`, `value = v`, `ok = true` for both values
of `synced`, whether `k` was absent (insert) or present (replacement of the
payload in place). -/
theorem put_then_get {Chunk : Type} (env : Env Chunk) (db : DB Chunk) (k v : Bytes)
    (fuel : Nat) (hinv : DB.Inv env db) (hv : v ≠ [])
    (hcodec : (env.Set (env.encodeRecordInto
        (env.Skip db.Ch (env.recordLength k.length v.length).1).1.1 k v)).GKey = k ∧
      (env.Set (env.encodeRecordInto
        (env.Skip db.Ch (env.recordLength k.length v.length).1).1.1 k v)).GValue = v) :
    (∃ r, DB.Put env (fuel + 1) db k v = some r) ∧
    ∀ db', DB.Put env (fuel + 1) db k v = some (db', none) →
      ∀ synced, DB.Get env db' k synced = some (k, v, true) := by
  refine ⟨DB.Put_returns k v fuel hinv, ?_⟩
  intro db' h synced
  obtain ⟨hi, _, happ⟩ := DB.Put_ok hinv h
  have hkey : (setHash env db.flags (env.Set (env.encodeRecordInto
      (env.Skip db.Ch (env.recordLength k.length v.length).1).1.1 k v))).key = k := hcodec.1
  have hvalue : (setHash env db.flags (env.Set (env.encodeRecordInto
      (env.Skip db.Ch (env.recordLength k.length v.length).1).1.1 k v))).value = v := hcodec.2
  have hh := (happ k _).mpr (Or.inl ⟨hkey.symm, rfl, by rw [hvalue]; exact hv⟩)
  rw [DB.Get_found synced hi hh, hvalue]

/-- Witness of C2: on the `DB` that holds `[5] ↦ [9]`, `Put([5], [10])` takes
the replacement path (the root is the one before the call), and `Get([5])`
then returns the value `[10]`; `Put([6], [7])` takes the insert path (the root
is new), and `Get([6])` then returns the value `[7]`. -/
theorem put_then_get_witness :
    (∃ db', DB.Put demoEnv 1 demoDB1 [5] [10] = some (db', none) ∧
      db'.tree = demoDB1.tree ∧
      DB.Get demoEnv db' [5] true = some ([5], [10], true) ∧
      DB.Get demoEnv db' [5] false = some ([5], [10], true)) ∧
    (∃ db', DB.Put demoEnv 1 demoDB1 [6] [7] = some (db', none) ∧
      db'.tree.addr = 2 ∧ db'.tree.root.size = 2 ∧
      DB.Get demoEnv db' [6] true = some ([6], [7], true)) := by
  refine ⟨?_, ?_⟩
  swap
  · have h : ∃ db', DB.Put demoEnv 1 demoDB1 [6] [7] = some (db', none) ∧
        db'.tree.addr = 2 ∧ db'.tree.root.size = 2 := ⟨_, rfl, rfl, rfl⟩
    obtain ⟨db', h, ha, hs⟩ := h
    exact ⟨db', h, ha, hs,
      (put_then_get demoEnv demoDB1 [6] [7] 0 demoDB1_inv (by decide) ⟨rfl, rfl⟩).2 db' h true⟩
  have h : ∃ db', DB.Put demoEnv 1 demoDB1 [5] [10] = some (db', none) := ⟨_, rfl⟩
  obtain ⟨db', h⟩ := h
  have ht : db'.tree = demoDB1.tree := by
    have h' : DB.Put demoEnv 1 demoDB1 [5] [10] =
        some ({ demoDB1 with
          Ch := { mem := [], base := 0, last := 10, free := 40, calls := [] },
          cells := [some { Record := [1, 1, 1, 5, 10], key := [5], value := [10], hash := 0 },
            some { Record := [1, 1, 1, 5, 10], key := [5], value := [10], hash := 0 }] },
          none) := rfl
    rw [h'] at h
    cases h
    rfl
  exact ⟨db', h, ht,
    (put_then_get demoEnv demoDB1 [5] [10] 0 demoDB1_inv (by decide) ⟨rfl, rfl⟩).2 db' h true,
    (put_then_get demoEnv demoDB1 [5] [10] 0 demoDB1_inv (by decide) ⟨rfl, rfl⟩).2 db' h false⟩

/-! ## Tombstones -/

/-- C3 (tombstone semantics).  `Delete(k)` is `Put(k, nil)`.  On every `DB`
that satisfies the invariant, whether or not it holds a record for `k`, for
every key `k` whose tombstone record the codec parses back to `k` and the
empty value: `Put(k, empty)` returns, and if it returns nil then `Get(k)`
returns `ok = false` in both read modes. -/
theorem tombstone_semantics {Chunk : Type} (env : Env Chunk) (db : DB Chunk) (k : Bytes)
    (fuel : Nat) (hinv : DB.Inv env db)
    (hcodec : (env.Set (env.encodeRecordInto
        (env.Skip db.Ch (env.recordLength k.length 0).1).1.1 k [])).GKey = k ∧
      (env.Set (env.encodeRecordInto
        (env.Skip db.Ch (env.recordLength k.length 0).1).1.1 k [])).GValue = []) :
    DB.Delete env (fuel + 1) db k = DB.Put env (fuel + 1) db k [] ∧
    (∃ r, DB.Put env (fuel + 1) db k [] = some r) ∧
    ∀ db', DB.Put env (fuel + 1) db k [] = some (db', none) →
      ∀ synced, DB.Get env db' k synced = some ([], [], false) := by
  refine ⟨rfl, DB.Put_returns k [] fuel hinv, ?_⟩
  intro db' h synced
  obtain ⟨hi, _, happ⟩ := DB.Put_ok hinv h
  have hkey : (setHash env db.flags (env.Set (env.encodeRecordInto
      (env.Skip db.Ch (env.recordLength k.length ([] : Bytes).length).1).1.1 k []))).key = k :=
    hcodec.1
  have hvalue : (setHash env db.flags (env.Set (env.encodeRecordInto
      (env.Skip db.Ch (env.recordLength k.length ([] : Bytes).length).1).1.1 k []))).value = [] :=
    hcodec.2
  apply DB.Get_absent synced hi
  intro w hw
  rcases (happ k w).mp hw with ⟨_, _, hne⟩ | ⟨hk, _⟩
  · exact hne hvalue
  · exact hk hkey.symm

/-- Witness of C3: on the `DB` that holds `[5] ↦ [9]`, `Delete([5])` returns
nil and `Get([5])` is then absent. -/
theorem tombstone_semantics_witness :
    DB.Get demoEnv demoDB1 [5] true = some ([5], [9], true) ∧
    ∃ db', DB.Delete demoEnv 1 demoDB1 [5] = some (db', none) ∧
      DB.Get demoEnv db' [5] true = some ([], [], false) := by
  have h : ∃ db', DB.Put demoEnv 1 demoDB1 [5] [] = some (db', none) := ⟨_, rfl⟩
  obtain ⟨db', h⟩ := h
  exact ⟨rfl, db', h,
    (tombstone_semantics demoEnv demoDB1 [5] 0 demoDB1_inv ⟨rfl, rfl⟩).2.2 db' h true⟩

/-! ## Failed mutations -/

/-- C4 (failed mutations do not touch the index).  For every `DB` and every
bound on the passes of `indexRecord` (0 included, so `indexRecord` is not
run): if `recordLength` fails, `Put` returns that error and the `DB` is as
before; if the reservation `Chunk.Skip` fails, `Put` returns that error, and
if `Chunk.Append` fails, `PutRAW` returns that error, the `DB` being as before
but for the state of the log: the root slot and the cells are unchanged. -/
theorem failed_mutation_frame {Chunk : Type} (env : Env Chunk) (db : DB Chunk)
    (key value record : Bytes) (fuel : Nat) :
    (∀ e, (env.recordLength key.length value.length).2 = some e →
      DB.Put env fuel db key value = some (db, some e)) ∧
    (∀ e, (env.recordLength key.length value.length).2 = none →
      (env.Skip db.Ch (env.recordLength key.length value.length).1).1.2.2 = some e →
      DB.Put env fuel db key value = some ({ db with
        Ch := (env.Skip db.Ch (env.recordLength key.length value.length).1).2 }, some e)) ∧
    (∀ e, (env.Append db.Ch record).1.2.2 = some e →
      DB.PutRAW env fuel db record = some ({ db with Ch := (env.Append db.Ch record).2 },
        some e)) := by
  refine ⟨?_, ?_, ?_⟩
  · intro e h
    simp [DB.Put, h]
  · intro e h1 h2
    simp [DB.Put, h1, h2]
  · intro e h
    simp [DB.PutRAW, h]

/-- Witness of C4: with the concrete instance, a key of 20 bytes fails the
length validation, and a log without free space fails `Skip` and `Append`;
the tree and the cells are those of before. -/
theorem failed_mutation_frame_witness :
    DB.Put demoEnv 0 demoDB1 (List.replicate 20 0) [1] = some (demoDB1, some (Error.other 1)) ∧
    DB.Put demoEnv 0 { demoDB1 with Ch := { demoDB1.Ch with free := 0 } } [5] [1]
      = some ({ demoDB1 with Ch := { demoDB1.Ch with free := 0 } }, some (Error.other 2)) ∧
    DB.PutRAW demoEnv 0 { demoDB1 with Ch := { demoDB1.Ch with free := 0 } } [1, 1, 1, 5, 1]
      = some ({ demoDB1 with Ch := { demoDB1.Ch with free := 0 } }, some (Error.other 2)) :=
  ⟨(failed_mutation_frame demoEnv demoDB1 (List.replicate 20 0) [1] [] 0).1 _ rfl,
   (failed_mutation_frame demoEnv { demoDB1 with Ch := { demoDB1.Ch with free := 0 } }
      [5] [1] [] 0).2.1 _ rfl rfl,
   (failed_mutation_frame demoEnv { demoDB1 with Ch := { demoDB1.Ch with free := 0 } }
      [] [] [1, 1, 1, 5, 1] 0).2.2 _ rfl⟩

/-! ## The key order -/

/-- C5 (hash first, then raw bytes).  For items `a` and `b`, in any of the
three representations, that decode to the keys `(ha, ra)` and `(hb, rb)`:
`compareItem(a, b)` is 1 when `ha > hb` and -1 when `ha < hb`, whatever `ra`
and `rb`; when `ha = hb` it is `bytes.Compare(ra, rb)`, which is -1, 0 or 1 as
`ra` is lexicographically less than, equal to or greater than `rb`. -/
theorem compareItem_hash_then_raw (cells : Cells) (a b : Item) (ha hb : Nat) (ra rb : Bytes)
    (hA : decodeItem cells a = some (ha, ra)) (hB : decodeItem cells b = some (hb, rb)) :
    (ha > hb → compareItem cells a b = some 1) ∧
    (ha < hb → compareItem cells a b = some (-1)) ∧
    (ha = hb → compareItem cells a b = some (bytesCompare ra rb) ∧
      (compareItem cells a b = some (-1) ↔ List.Lex (· < ·) ra rb) ∧
      (compareItem cells a b = some 0 ↔ ra = rb) ∧
      (compareItem cells a b = some 1 ↔ List.Lex (· < ·) rb ra)) := by
  rw [compareItem_of_decode hA hB]
  refine ⟨?_, ?_, ?_⟩
  · intro h
    simp [compareKey, h]
  · intro h
    have : ¬ ha > hb := by omega
    simp [compareKey, h, this]
  · intro h
    subst h
    have hk : compareKey (ha, ra) (ha, rb) = bytesCompare ra rb := by
      simp [compareKey]
    rw [hk]
    simp only [Option.some.injEq, true_and]
    exact ⟨bytesCompare_neg_iff_lex, bytesCompare_eq_zero, bytesCompare_pos_iff_lex⟩

/-- Witness of C5: a record with hash 5 and raw key `[9, 9]`, in a cell, sorts
before the `iKey` with hash 7 and raw key `[0]`, and after it when the hashes
are exchanged. -/
theorem compareItem_hash_then_raw_witness :
    compareItem [some { Record := [], key := [9, 9], value := [1], hash := 5 }]
      (.cell 0) (.iKey 7 [0]) = some (-1) ∧
    compareItem [some { Record := [], key := [9, 9], value := [1], hash := 5 }]
      (.iKeyPtr 7 [0]) (.cell 0) = some 1 :=
  ⟨(compareItem_hash_then_raw [some { Record := [], key := [9, 9], value := [1], hash := 5 }]
      (.cell 0) (.iKey 7 [0]) 5 7 [9, 9] [0] rfl rfl).2.1 (by decide),
   (compareItem_hash_then_raw [some { Record := [], key := [9, 9], value := [1], hash := 5 }]
      (.iKeyPtr 7 [0]) (.cell 0) 7 5 [0] [9, 9] rfl rfl).1 (by decide)⟩

/-- C6 (key equality).  For items `a` and `b`, in any of the three
representations, that decode to the keys `(ha, ra)` and `(hb, rb)`:
`compareItem(a, b)` is 0 if and only if `ha = hb` and `ra = rb`. -/
theorem compareItem_eq_zero_iff (cells : Cells) (a b : Item) (ha hb : Nat) (ra rb : Bytes)
    (hA : decodeItem cells a = some (ha, ra)) (hB : decodeItem cells b = some (hb, rb)) :
    compareItem cells a b = some 0 ↔ ha = hb ∧ ra = rb := by
  rw [compareItem_of_decode hA hB]
  simp only [Option.some.injEq]
  rw [compareKey_eq_zero]
  simp

/-- Witness of C6: the record with hash 5 and raw key `[9, 9]`, in a cell, and
the `iKey` with the same hash and raw key compare equal. -/
theorem compareItem_eq_zero_iff_witness :
    compareItem [some { Record := [], key := [9, 9], value := [1], hash := 5 }]
      (.cell 0) (.iKey 5 [9, 9]) = some 0 :=
  (compareItem_eq_zero_iff [some { Record := [], key := [9, 9], value := [1], hash := 5 }]
    (.cell 0) (.iKey 5 [9, 9]) 5 5 [9, 9] [9, 9] rfl rfl).mpr ⟨rfl, rfl⟩

/-! ## The scan of the loader -/

/-- Counterexample to C7 as stated.  The committed bytes start at the offset
`p0 = 2^63 - 3` and hold one valid record of 5 bytes.  With
`L_DISCARD_INVALID_TAIL` the load calls `SetLast` once, with
`-2^63 + 2 = -9223372036854775806`: the statement
`pos += int64(len(v.Record))` has wrapped.  The sum of `p0` and the length of
the record is `9223372036854775810`. -/
theorem load_truncation_counterexample :
    ∃ db', DB.load demoEnv 10 (demoDB demoLogHighOffset L_DISCARD_INVALID_TAIL) = some db' ∧
      (demoEnv.GetCommitted (demoDB demoLogHighOffset L_DISCARD_INVALID_TAIL).Ch).2 +
        (validEnd (scanned demoEnv L_DISCARD_INVALID_TAIL 10 demoLogHighOffset.mem) : Int)
        = 9223372036854775810 ∧
      db'.Ch.calls = [-9223372036854775806] ∧
      db'.Ch.calls ≠ [9223372036854775810] :=
  ⟨_, rfl, rfl, rfl, by decide⟩

/-- C7 as amended (loader truncation).  Let `p0` be the offset `GetCommitted` returns.
After `DB.load` on a `DB` that satisfies the invariant: with
`L_DISCARD_INVALID_TAIL` set, the log is the log of before with `SetLast`
applied once, to `p0` plus the total length of the records consumed up to and
including the last valid record scanned (`p0` when no valid record was
scanned), the sum being that of `int64` as the code computes it, which is the
exact sum whenever `p0` is an `int64` and the exact sum is below 2^63; with
the flag unset the log is the log of before. -/
theorem load_truncation {Chunk : Type} (env : Env Chunk) (db db' : DB Chunk) (fuel : Nat)
    (hinv : DB.Inv env db) (h : DB.load env fuel db = some db') :
    (db.flags.has L_DISCARD_INVALID_TAIL = true →
      db'.Ch = env.SetLast db.Ch (wrapInt64 ((env.GetCommitted db.Ch).2 +
        (validEnd (scanned env db.flags fuel (env.GetCommitted db.Ch).1) : Int))) ∧
      (-2 ^ 63 ≤ (env.GetCommitted db.Ch).2 →
        (env.GetCommitted db.Ch).2 +
          (validEnd (scanned env db.flags fuel (env.GetCommitted db.Ch).1) : Int) < 2 ^ 63 →
        db'.Ch = env.SetLast db.Ch ((env.GetCommitted db.Ch).2 +
          (validEnd (scanned env db.flags fuel (env.GetCommitted db.Ch).1) : Int)))) ∧
    (db.flags.has L_DISCARD_INVALID_TAIL = false → db'.Ch = db.Ch) ∧
    (validRecords (scanned env db.flags fuel (env.GetCommitted db.Ch).1) = [] →
      validEnd (scanned env db.flags fuel (env.GetCommitted db.Ch).1) = 0) := by
  obtain ⟨_, _, _, _, hch⟩ := DB.load_spec fuel hinv h
  refine ⟨?_, ?_, validEnd_of_no_valid⟩
  · intro hf
    rw [hch, if_pos hf]
    refine ⟨rfl, ?_⟩
    intro hlo hhi
    rw [wrapInt64_of_range (by omega) hhi]
  · intro hf
    rw [hch, if_neg (by simp [hf])]

/-- Witness of C7: a log of the concrete instance with one valid record of 5
bytes at offset 100 and a short record after it.  With
`L_DISCARD_INVALID_TAIL` the load calls `SetLast` once, with 105; without the
flag it does not call it and the length stays 109. -/
theorem load_truncation_witness :
    (∃ db', DB.load demoEnv 10 (demoDB demoLogShortTail L_DISCARD_INVALID_TAIL) = some db' ∧
      db'.Ch.calls = [105] ∧ db'.Ch.last = 105) ∧
    (∃ db', DB.load demoEnv 10 (demoDB demoLogShortTail L_NONE) = some db' ∧
      db'.Ch.calls = [] ∧ db'.Ch.last = 109) := by
  have h1 : ∃ db', DB.load demoEnv 10 (demoDB demoLogShortTail L_DISCARD_INVALID_TAIL)
      = some db' := ⟨_, rfl⟩
  have h2 : ∃ db', DB.load demoEnv 10 (demoDB demoLogShortTail L_NONE) = some db' := ⟨_, rfl⟩
  obtain ⟨db1, h1⟩ := h1
  obtain ⟨db2, h2⟩ := h2
  refine ⟨⟨db1, h1, ?_⟩, ⟨db2, h2, ?_⟩⟩
  · rw [((load_truncation demoEnv (demoDB demoLogShortTail L_DISCARD_INVALID_TAIL) db1 10
      (demoDB_inv _ _) h1).1 rfl).2 (by decide) (by decide)]
    exact ⟨rfl, rfl⟩
  · rw [(load_truncation demoEnv (demoDB demoLogShortTail L_NONE) db2 10
      (demoDB_inv _ _) h2).2.1 rfl]
    exact ⟨rfl, rfl⟩

/-- C8 (invalid-record policy).  In any state of the loop of `DB.load` that
satisfies the loop invariant and in which the decode yields `EInvalidRecord`:
with `L_STOP_INVALID` set the loop halts at once in that very state, so no
later record is applied; with the flag unset the loop goes on from the same
tree, cells and `usedPos`, with `mem` and `pos` advanced by the length of the
record (`pos` in the arithmetic of `int64`), and the tree at the halt is the
tree of before the invalid record with the valid records scanned after it
applied in order. -/
theorem invalid_record_policy {Chunk : Type} (env : Env Chunk) (flags : LoadFlags)
    (seed fuel : Nat) (st : LoadState) (hinv : LoadInv env flags st)
    (hbad : (env.Decode st.mem).2 = some Error.EInvalidRecord) :
    (flags.has L_STOP_INVALID = true → DB.loadLoop env flags seed (fuel + 1) st = some st) ∧
    (flags.has L_STOP_INVALID = false →
      DB.loadLoop env flags seed (fuel + 1) st =
        DB.loadLoop env flags seed fuel { st with
          mem := st.mem.drop (env.Decode st.mem).1.Record.length,
          pos := wrapInt64 (st.pos + ((env.Decode st.mem).1.Record.length : Int)) } ∧
      ∀ st', DB.loadLoop env flags seed (fuel + 1) st = some st' →
        ∀ k w, Holds st'.cells st'.t.root k w ↔
          applyAll ((validRecords (scanned env flags fuel
              (st.mem.drop (env.Decode st.mem).1.Record.length))).map (setHash env flags))
            (Holds st.cells st.t.root) k w) := by
  constructor
  · intro hf
    simp [DB.loadLoop, hbad, hf]
  · intro hf
    have hstep : DB.loadLoop env flags seed (fuel + 1) st =
        DB.loadLoop env flags seed fuel { st with
          mem := st.mem.drop (env.Decode st.mem).1.Record.length,
          pos := wrapInt64 (st.pos + ((env.Decode st.mem).1.Record.length : Int)) } := by
      simp [DB.loadLoop, hbad, hf]
    refine ⟨hstep, ?_⟩
    intro st' h
    rw [hstep] at h
    exact (DB.loadLoop_spec fuel _ st'
      (⟨hinv.index, hinv.scratch, hinv.fresh⟩ :
        LoadInv env flags { st with
          mem := st.mem.drop (env.Decode st.mem).1.Record.length,
          pos := wrapInt64 (st.pos + ((env.Decode st.mem).1.Record.length : Int)) }) h).2.1

/-- Witness of C8: a log of the concrete instance with an invalid record
followed by a valid record for the key `[98]`.  With `L_STOP_INVALID` the loop
halts in its first state and the loaded index has no record for `[98]`;
without the flag the loop goes on after the record and the loaded index
answers `[98] ↦ [2]`. -/
theorem invalid_record_policy_witness :
    (DB.loadLoop demoEnv L_STOP_INVALID 7 10
        (DB.loadInit demoEnv (demoDB demoLogInvalid L_STOP_INVALID))
      = some (DB.loadInit demoEnv (demoDB demoLogInvalid L_STOP_INVALID)) ∧
     ∃ db', DB.load demoEnv 10 (demoDB demoLogInvalid L_STOP_INVALID) = some db' ∧
      DB.Get demoEnv db' [98] true = some ([], [], false)) ∧
    (DB.loadLoop demoEnv L_NONE 7 10 (DB.loadInit demoEnv (demoDB demoLogInvalid L_NONE))
      = DB.loadLoop demoEnv L_NONE 7 9
          { DB.loadInit demoEnv (demoDB demoLogInvalid L_NONE) with
            mem := demoRecord [98] [2], pos := 5 } ∧
     ∃ db', DB.load demoEnv 10 (demoDB demoLogInvalid L_NONE) = some db' ∧
      DB.Get demoEnv db' [98] true = some ([98], [2], true)) :=
  ⟨⟨(invalid_record_policy demoEnv L_STOP_INVALID 7 9
      (DB.loadInit demoEnv (demoDB demoLogInvalid L_STOP_INVALID))
      (DB.loadInit_inv (demoDB_inv demoLogInvalid L_STOP_INVALID)) rfl).1 rfl,
    ⟨_, rfl, rfl⟩⟩,
   ⟨((invalid_record_policy demoEnv L_NONE 7 9
      (DB.loadInit demoEnv (demoDB demoLogInvalid L_NONE))
      (DB.loadInit_inv (demoDB_inv demoLogInvalid L_NONE)) rfl).2 rfl).1,
    ⟨_, rfl, rfl⟩⟩⟩

/-- C9 (a short record halts the scan).  For every flag setting and every
state of the loop of `DB.load`, whatever bytes follow in `mem`: when the
decode yields `EShortRecord` the loop halts in that very state.  No further
record is applied (the tree and the cells are those of the state), `pos` is
not advanced, and `usedPos` is not assigned.  In a scan that reaches this
state, `usedPos` is thus the offset, in the arithmetic of `int64`, of the end
of the last valid record scanned (or the `usedPos` of the start when there is
none), whatever the offset of the short record; and while the offsets do not
leave the range of `int64`, in a scan that started with `usedPos ≤ pos` (as
`DB.load` does) it is at most the offset `pos` at which the short record
starts, so no byte of the short record is counted as valid. -/
theorem short_record_halts {Chunk : Type} (env : Env Chunk) (flags : LoadFlags)
    (seed fuel : Nat) (st : LoadState)
    (hshort : (env.Decode st.mem).2 = some Error.EShortRecord) :
    DB.loadLoop env flags seed (fuel + 1) st = some st ∧
    scanned env flags (fuel + 1) st.mem = [] ∧
    (∀ fuel0 st0, LoadInv env flags st0 →
      DB.loadLoop env flags seed fuel0 st0 = some st →
      st.usedPos = (if validRecords (scanned env flags fuel0 st0.mem) = [] then st0.usedPos
        else wrapInt64 (st0.pos + (validEnd (scanned env flags fuel0 st0.mem) : Int)))) ∧
    (∀ fuel0 st0, st0.usedPos ≤ st0.pos → -2 ^ 63 ≤ st0.pos →
      st0.pos + (consumed (scanned env flags fuel0 st0.mem) : Int) < 2 ^ 63 →
      DB.loadLoop env flags seed fuel0 st0 = some st → st.usedPos ≤ st.pos) := by
  refine ⟨?_, scanned_halt fuel (Or.inl hshort), ?_, ?_⟩
  · simp [DB.loadLoop, hshort]
  · intro fuel0 st0 hinv0 h
    exact (DB.loadLoop_spec fuel0 st0 st hinv0 h).2.2
  · intro fuel0 st0 hle hlo hhi h
    exact DB.loadLoop_usedPos_le fuel0 st0 st hle hlo hhi h

/-- Witness of C9: a log of the concrete instance that starts with a short
record, although the bytes from offset 4 on decode to a valid record for the
key `[98]`: the loop halts in its first state, and the loaded index has no
record for `[98]`.  On the log with a valid record of 5 bytes at offset 100
and a short record after it, the scan halts at the short record, at the
offset 105, with `usedPos` 105, the end of the valid record. -/
theorem short_record_halts_witness :
    (demoEnv.Decode (demoLogShortHead.mem.drop 4)).2 = none ∧
    DB.loadLoop demoEnv L_NONE 7 10 (DB.loadInit demoEnv (demoDB demoLogShortHead L_NONE))
      = some (DB.loadInit demoEnv (demoDB demoLogShortHead L_NONE)) ∧
    (∃ db', DB.load demoEnv 10 (demoDB demoLogShortHead L_DISCARD_INVALID_TAIL) = some db' ∧
      DB.Get demoEnv db' [98] true = some ([], [], false) ∧ db'.Ch.calls = [0]) ∧
    (∃ st, DB.loadLoop demoEnv L_NONE 7 10
        (DB.loadInit demoEnv (demoDB demoLogShortTail L_NONE)) = some st ∧
      (demoEnv.Decode st.mem).2 = some Error.EShortRecord ∧
      st.pos = 105 ∧ st.usedPos = 105 ∧ st.usedPos ≤ st.pos) := by
  have h : ∃ st, DB.loadLoop demoEnv L_NONE 7 10
        (DB.loadInit demoEnv (demoDB demoLogShortTail L_NONE)) = some st ∧
      (demoEnv.Decode st.mem).2 = some Error.EShortRecord ∧ st.pos = 105 :=
    ⟨_, rfl, rfl, rfl⟩
  obtain ⟨st, hst, hshort, hpos⟩ := h
  have hthm := short_record_halts demoEnv L_NONE 7 9 st hshort
  refine ⟨rfl,
    (short_record_halts demoEnv L_NONE 7 9
      (DB.loadInit demoEnv (demoDB demoLogShortHead L_NONE)) rfl).1,
    ⟨_, rfl, rfl, rfl⟩, st, hst, hshort, hpos, ?_, ?_⟩
  · exact (hthm.2.2.1 10 _ (DB.loadInit_inv (demoDB_inv demoLogShortTail L_NONE)) hst).trans rfl
  · exact hthm.2.2.2 10 _ (by decide) (by decide) (by decide) hst

/-! ## Concurrent calls of `DB.Put`: the invariant is kept -/

theorem cells_append_old {cells extra : Cells} {a : Nat} (h : a < cells.length) :
    (cells ++ extra)[a]? = cells[a]? :=
  List.getElem?_append_left h

theorem IndexInv.cells_append {Chunk : Type} {env : Env Chunk} {flags : LoadFlags}
    {cells : Cells} {root : node} (extra : Cells) (hinv : IndexInv env flags cells root) :
    IndexInv env flags (cells ++ extra) root :=
  IndexInv.frame_of_cells hinv (fun _ ha => cells_append_old (IndexInv.addr_lt hinv ha))

theorem Holds.append_iff {Chunk : Type} {env : Env Chunk} {flags : LoadFlags}
    {cells : Cells} {root : node} (extra : Cells) (hinv : IndexInv env flags cells root)
    (k : Bytes) (w : Value) :
    Holds (cells ++ extra) root k w ↔ Holds cells root k w :=
  Holds.iff_of_cells (fun _ ha => cells_append_old (IndexInv.addr_lt hinv ha)) k w

theorem getElem?_append_some {cells extra : Cells} {a : Nat} {c : Option Value}
    (h : cells[a]? = some c) : (cells ++ extra)[a]? = some c := by
  have hlt : a < cells.length := by
    by_contra hcon
    rw [List.getElem?_eq_none (by omega)] at h
    cases h
  rw [cells_append_old hlt, h]

theorem LocalInv.mono_local {Chunk : Type} {env : Env Chunk} {db db' : DB Chunk} {t : Thread}
    {v : Value} {vv : Nat} (h : LocalInv env db t v vv) (hflags : db'.flags = db.flags)
    (extra : Cells) (hcells : db'.cells = db.cells ++ extra) : LocalInv env db' t v vv :=
  ⟨h.key, h.value, by rw [hflags]; exact h.hash, by rw [hcells]; exact getElem?_append_some h.cell⟩

theorem SnapInv.mono_snap {Chunk : Type} {env : Env Chunk} {db db' : DB Chunk}
    {done done' : Bytes → Prop} {ptr : TreapPtr} (h : SnapInv env db done ptr)
    (hflags : db'.flags = db.flags) (extra : Cells) (hcells : db'.cells = db.cells ++ extra)
    (hdone : ∀ k, done k → done' k)
    (htree : db'.tree = db.tree ∨ db.tree.addr < db'.tree.addr) :
    SnapInv env db' done' ptr := by
  refine ⟨?_, ?_, ?_, ?_⟩
  · rw [hflags, hcells]
    exact h.index.cells_append extra
  · intro k w hw
    rw [hcells, Holds.append_iff extra h.index] at hw
    exact hdone k (h.sub k w hw)
  · rcases htree with ht | ht
    · rw [ht]
      exact h.le
    · have := h.le
      omega
  · rcases htree with ht | ht
    · rw [ht]
      exact h.same
    · intro heq
      have := h.le
      omega

theorem ThreadInv.mono_thread {Chunk : Type} {env : Env Chunk} {db db' : DB Chunk}
    {done done' : Bytes → Prop} {t : Thread} (h : ThreadInv env db done t)
    (hflags : db'.flags = db.flags) (extra : Cells) (hcells : db'.cells = db.cells ++ extra)
    (hdone : ∀ k, done k → done' k)
    (htree : db'.tree = db.tree ∨ db.tree.addr < db'.tree.addr)
    (hnext : db.nextTreap ≤ db'.nextTreap) :
    ThreadInv env db' done' t := by
  unfold ThreadInv at h ⊢
  cases hpc : t.pc with
  | start => trivial
  | index record =>
    rw [hpc] at h
    exact h
  | restart record v vv priority =>
    rw [hpc] at h
    exact h.mono_local hflags extra hcells
  | loaded record v vv priority ptr =>
    rw [hpc] at h
    exact ⟨h.1.mono_local hflags extra hcells, h.2.mono_snap hflags extra hcells hdone htree⟩
  | cas record v vv priority ptr nptr =>
    rw [hpc] at h
    obtain ⟨hl, hs, hi, ha, hlen, hlt, hn⟩ := h
    refine ⟨hl.mono_local hflags extra hcells, hs.mono_snap hflags extra hcells hdone htree, ?_, ?_,
      hlen, hlt, by omega⟩
    · rw [hflags, hcells]
      exact hi.cells_append extra
    · rw [hcells]
      exact ha.congr (Holds.append_iff extra hs.index) (Holds.append_iff extra hi)
  | returned err => trivial

theorem DB.stepPut_not_succeeded {Chunk : Type} {env : Env Chunk} {db : DB Chunk} {t : Thread}
    {r : DB Chunk × Thread} (h : DB.stepPut env db t = some r) : t.succeeded = false := by
  unfold DB.stepPut at h
  unfold Thread.succeeded
  cases hpc : t.pc with
  | returned err =>
    rw [hpc] at h
    cases h
  | start => rfl
  | index record => rfl
  | restart record v vv priority => rfl
  | loaded record v vv priority ptr => rfl
  | cas record v vv priority ptr nptr => rfl

theorem mem_set_of_ne {l : List Thread} {i : Nat} {t u t' : Thread}
    (hi : l[i]? = some t) (hu : u ∈ l) (hne : u ≠ t) : u ∈ l.set i t' := by
  rw [List.mem_iff_getElem?] at hu ⊢
  obtain ⟨j, hj⟩ := hu
  refine ⟨j, ?_⟩
  have hij : i ≠ j := by
    rintro rfl
    rw [hi] at hj
    cases hj
    exact hne rfl
  rw [List.getElem?_set, if_neg hij, hj]

theorem DoneKey.mono_set {l : List Thread} {i : Nat} {t t' : Thread} {k : Bytes}
    (hi : l[i]? = some t) (ht : t.succeeded = false) (h : DoneKey l k) :
    DoneKey (l.set i t') k := by
  obtain ⟨u, hu, hs, hk⟩ := h
  refine ⟨u, mem_set_of_ne hi hu ?_, hs, hk⟩
  rintro rfl
  rw [ht] at hs
  cases hs

theorem map_key_set {l : List Thread} {i : Nat} {t t' : Thread}
    (hi : l[i]? = some t) (hk : t'.key = t.key) :
    (l.set i t').map Thread.key = l.map Thread.key := by
  apply List.ext_getElem?
  intro j
  rw [List.map_set, List.getElem?_set]
  split_ifs with h1 h2
  · subst h1
    simp [hi, hk]
  · subst h1
    simp only [List.length_map] at h2
    rw [List.getElem?_eq_none (by simp; omega)]
  · rfl

theorem countP_set_succeeded {l : List Thread} {i : Nat} {t t' : Thread}
    (hi : l[i]? = some t) (ht : t.succeeded = false) :
    (l.set i t').countP Thread.succeeded
      = l.countP Thread.succeeded + (if t'.succeeded = true then 1 else 0) := by
  have hlt : i < l.length := by
    by_contra hcon
    rw [List.getElem?_eq_none (by omega)] at hi
    cases hi
  have hget : l[i] = t := by
    rw [List.getElem?_eq_getElem hlt] at hi
    exact Option.some.inj hi
  rw [List.countP_set _ _ _ _ hlt, hget, ht]
  simp

theorem eq_of_key_eq {l : List Thread} (hnd : (l.map Thread.key).Nodup) {t u : Thread}
    (ht : t ∈ l) (hu : u ∈ l) (hk : t.key = u.key) : t = u :=
  List.inj_on_of_nodup_map hnd ht hu hk

theorem mem_of_getElem?_eq {l : List Thread} {i : Nat} {t : Thread} (hi : l[i]? = some t) :
    t ∈ l :=
  List.mem_iff_getElem?.mpr ⟨i, hi⟩

theorem lt_of_getElem?_eq {l : List Thread} {i : Nat} {t : Thread} (hi : l[i]? = some t) :
    i < l.length := by
  by_contra hcon
  rw [List.getElem?_eq_none (by omega)] at hi
  cases hi

/-- A step that leaves the root slot alone, by a goroutine that has not
returned nil after it, keeps the invariant, provided the goroutine satisfies
`ThreadInv` where it now stands. -/
theorem ConcInv.frame_step {Chunk : Type} {env : Env Chunk} {s : Conc Chunk} {i : Nat}
    {t t' : Thread} {db' : DB Chunk} (hinv : ConcInv env s) (hi : s.threads[i]? = some t)
    (ht : t.succeeded = false) (hkey : t'.key = t.key) (hvalue : t'.value = t.value)
    (ht' : t'.succeeded = false) (hflags : db'.flags = s.db.flags)
    (htree : db'.tree = s.db.tree) (extra : Cells) (hcells : db'.cells = s.db.cells ++ extra)
    (hnext : s.db.nextTreap ≤ db'.nextTreap)
    (hnew : ThreadInv env db' (DoneKey (s.threads.set i t')) t') :
    ConcInv env { db := db', threads := s.threads.set i t' } := by
  have htmem : t ∈ s.threads := mem_of_getElem?_eq hi
  have hholds : ∀ k w, Holds db'.cells db'.tree.root k w ↔
      Holds s.db.cells s.db.tree.root k w := by
    intro k w
    rw [hcells, htree]
    exact Holds.append_iff extra hinv.index k w
  refine ⟨?_, ?_, ?_, ?_, ?_, ?_, ?_, ?_, ?_⟩
  · show IndexInv env db'.flags db'.cells db'.tree.root
    rw [hflags, hcells, htree]
    exact hinv.index.cells_append extra
  · show db'.tree.addr < db'.nextTreap
    rw [htree]
    exact lt_of_lt_of_le hinv.addr hnext
  · intro k w hw
    obtain ⟨u, hu, hs, hk⟩ := hinv.sound k w ((hholds k w).mp hw)
    refine ⟨u, mem_set_of_ne hi hu ?_, hs, hk⟩
    rintro rfl
    rw [ht] at hs
    cases hs
  · intro u hu hs
    rcases List.mem_or_eq_of_mem_set hu with hu | rfl
    · obtain ⟨w, hw, hv⟩ := hinv.complete u hu hs
      exact ⟨w, (hholds _ w).mpr hw, hv⟩
    · rw [ht'] at hs
      cases hs
  · show db'.tree.root.items.length = (s.threads.set i t').countP Thread.succeeded
    rw [countP_set_succeeded hi ht, htree, hinv.count, ht']
    simp
  · show ((s.threads.set i t').map Thread.key).Nodup
    rw [map_key_set hi hkey]
    exact hinv.keys
  · intro u hu
    rcases List.mem_or_eq_of_mem_set hu with hu | rfl
    · exact hinv.values u hu
    · rw [hvalue]
      exact hinv.values t htmem
  · intro u hu
    rcases List.mem_or_eq_of_mem_set hu with hu | rfl
    · exact hinv.codec u hu
    · rw [hkey, hvalue]
      exact hinv.codec t htmem
  · intro u hu
    rcases List.mem_or_eq_of_mem_set hu with hu | rfl
    · exact (hinv.each u hu).mono_thread hflags extra hcells
        (fun k hk => DoneKey.mono_set hi ht hk) (Or.inl htree) hnext
    · exact hnew

/-- A compare-and-swap that succeeds keeps the invariant: the root read by the
goroutine is still the root, so the new root is the root with the record of
the goroutine added. -/
theorem ConcInv.cas_step {Chunk : Type} {env : Env Chunk} {s : Conc Chunk} {i : Nat}
    {t : Thread} {record : Bytes} {v : Value} {vv : Nat} {priority : Int}
    {ptr nptr : TreapPtr} (hinv : ConcInv env s) (hi : s.threads[i]? = some t)
    (hpc : t.pc = .cas record v vv priority ptr nptr) (heq : s.db.tree.addr = ptr.addr) :
    ConcInv env { db := { s.db with tree := nptr },
                  threads := s.threads.set i { t with pc := .returned none } } := by
  have htmem : t ∈ s.threads := mem_of_getElem?_eq hi
  have ht : t.succeeded = false := by simp [Thread.succeeded, hpc]
  have hti := hinv.each t htmem
  unfold ThreadInv at hti
  rw [hpc] at hti
  obtain ⟨hl, hs, hni, happ, hlen, hlt, hn⟩ := hti
  have hptr : ptr = s.db.tree := hs.same heq.symm
  subst hptr
  have hnewmem : ({ t with pc := .returned none } : Thread) ∈
      s.threads.set i { t with pc := .returned none } :=
    List.mem_set _ _ (lt_of_getElem?_eq hi) _
  have hvne : v.value ≠ [] := by
    rw [hl.value]
    exact hinv.values t htmem
  refine ⟨hni, hn, ?_, ?_, ?_, ?_, ?_, ?_, ?_⟩
  · intro k w hw
    rcases (happ k w).mp hw with ⟨hk, hw', _⟩ | ⟨_, hold⟩
    · refine ⟨_, hnewmem, rfl, ?_, ?_⟩
      · show t.key = k
        rw [hk, hl.key]
      · show t.value = w.value
        rw [hw', hl.value]
    · obtain ⟨u, hu, hus, hk⟩ := hinv.sound k w hold
      refine ⟨u, mem_set_of_ne hi hu ?_, hus, hk⟩
      rintro rfl
      rw [ht] at hus
      cases hus
  · intro u hu hus
    rcases List.mem_or_eq_of_mem_set hu with hu | rfl
    · obtain ⟨w, hw, hv⟩ := hinv.complete u hu hus
      refine ⟨w, (happ _ w).mpr (Or.inr ⟨?_, hw⟩), hv⟩
      intro hk
      have : u = t := eq_of_key_eq hinv.keys hu htmem (hk.trans hl.key)
      subst this
      rw [ht] at hus
      cases hus
    · exact ⟨v, (happ _ v).mpr (Or.inl ⟨hl.key.symm, rfl, hvne⟩), hl.value⟩
  · show nptr.root.items.length = (s.threads.set i _).countP Thread.succeeded
    rw [countP_set_succeeded hi ht, hlen, hinv.count]
    rfl
  · show ((s.threads.set i _).map Thread.key).Nodup
    rw [@map_key_set s.threads i t { t with pc := .returned none } hi rfl]
    exact hinv.keys
  · intro u hu
    rcases List.mem_or_eq_of_mem_set hu with hu | rfl
    · exact hinv.values u hu
    · exact hinv.values t htmem
  · intro u hu
    rcases List.mem_or_eq_of_mem_set hu with hu | rfl
    · exact hinv.codec u hu
    · exact hinv.codec t htmem
  · intro u hu
    rcases List.mem_or_eq_of_mem_set hu with hu | rfl
    · exact (hinv.each u hu).mono_thread rfl [] (List.append_nil _).symm
        (fun k hk => DoneKey.mono_set hi ht hk) (Or.inr hlt) (le_refl _)
    · trivial

theorem alloc_store_eq (cells : Cells) (v : Value) :
    storeCell (newCell cells).2 (newCell cells).1 v = cells ++ [some v] := by
  apply List.ext_getElem?
  intro j
  by_cases hj : j < cells.length
  · rw [alloc_store_old cells v hj, cells_append_old hj]
  · by_cases hj' : j = cells.length
    · subst hj'
      rw [alloc_store_new]
      simp
    · rw [List.getElem?_eq_none (by simp [storeCell, newCell]; omega),
        List.getElem?_eq_none (by simp; omega)]

/-- The pass of `DB.indexRecord` for a record with a value whose key the tree
read does not hold reaches the compare-and-swap with a new root that has one
more node, for the record. -/
theorem DB.indexAttempt_insert {Chunk : Type} {env : Env Chunk} {flags : LoadFlags}
    {cells : Cells} {ptr : TreapPtr} {v : Value} {vv : Nat} (seed : Nat) (record : Bytes)
    (priority : Int) (next : Nat)
    (hinv : IndexInv env flags cells ptr.root) (hv : cells[vv]? = some (some v))
    (hh : v.hash = hashOf env flags v.key) (hval : v.value ≠ [])
    (hget : node.Get cells ptr.root (.cell vv) = some none) :
    ∃ root', DB.indexAttempt env seed record v vv priority ptr cells next =
        some (.swap ⟨next, root'⟩ (next + 1)
          (if priority < 0 then computePriority env record seed else priority)) ∧
      IndexInv env flags cells root' ∧ Applied v (Holds cells ptr.root) (Holds cells root') ∧
      root'.items.length = ptr.root.items.length + 1 := by
  have hlen : ¬ v.GValue.length = 0 := by simpa [Value.GValue] using hval
  obtain ⟨root', hup, hinv', happ, _⟩ :=
    step_insert (if priority < 0 then computePriority env record seed else priority) next
      hinv hv hh hval hget
  refine ⟨root', ?_, hinv', happ, ?_⟩
  · simp [DB.indexAttempt, hlen, TreapPtr.Get, hget, hup]
  · have hK : decodeItem cells (.cell vv) = some (hashOf env flags v.key, v.key) := by
      rw [decodeItem_cell hv, hh]
    have hno : ∀ x ∈ ptr.root.items,
        decodeItem cells x ≠ some (hashOf env flags v.key, v.key) := by
      rcases node.Get_spec hinv.ordered hK with ⟨it, hget', _, _⟩ | ⟨_, hno⟩
      · rw [hget] at hget'
        cases hget'
      · exact hno
    obtain ⟨root'', hup', l1, l2, hitems, hitems', _, _⟩ :=
      node.Upsert_absent (if priority < 0 then computePriority env record seed else priority)
        hinv.ordered hK hno
    simp only [TreapPtr.Upsert, hget, hup', Option.some.injEq, Prod.mk.injEq,
      TreapPtr.mk.injEq, true_and, and_true] at hup
    subst hup
    rw [hitems, hitems']
    simp
    omega

/-- Every step of every goroutine keeps the invariant. -/
theorem ConcInv.step {Chunk : Type} {env : Env Chunk} {s s' : Conc Chunk} {i : Nat}
    (hinv : ConcInv env s) (h : s.step env i = some s') : ConcInv env s' := by
  unfold Conc.step at h
  cases hi : s.threads[i]? with
  | none => simp [hi] at h
  | some t =>
    simp only [hi] at h
    have htmem : t ∈ s.threads := mem_of_getElem?_eq hi
    cases hstep : DB.stepPut env s.db t with
    | none => simp [hstep] at h
    | some r =>
      obtain ⟨db', t'⟩ := r
      simp only [hstep, Option.some.injEq] at h
      subst h
      have ht := DB.stepPut_not_succeeded hstep
      have hti := hinv.each t htmem
      unfold DB.stepPut at hstep
      unfold ThreadInv at hti
      cases hpc : t.pc with
      | returned err =>
        rw [hpc] at hstep
        cases hstep
      | start =>
        rw [hpc] at hstep
        simp only at hstep
        split_ifs at hstep with h1 h2
        · simp only [Option.some.injEq, Prod.mk.injEq] at hstep
          obtain ⟨rfl, rfl⟩ := hstep
          refine hinv.frame_step hi ht rfl rfl ?_ rfl rfl [] (List.append_nil _).symm
            (le_refl _) ?_
          · cases he : (env.recordLength t.key.length t.value.length).2 with
            | none => exact absurd he h1
            | some e => rfl
          · unfold ThreadInv
            trivial
        · simp only [Option.some.injEq, Prod.mk.injEq] at hstep
          obtain ⟨rfl, rfl⟩ := hstep
          refine hinv.frame_step hi ht rfl rfl ?_ rfl rfl [] (List.append_nil _).symm
            (le_refl _) ?_
          · cases he : (env.Skip s.db.Ch
                (env.recordLength t.key.length t.value.length).1).1.2.2 with
            | none => exact absurd he h2
            | some e => rfl
          · unfold ThreadInv
            trivial
        · simp only [Option.some.injEq, Prod.mk.injEq] at hstep
          obtain ⟨rfl, rfl⟩ := hstep
          refine hinv.frame_step hi ht rfl rfl rfl rfl rfl [] (List.append_nil _).symm
            (le_refl _) ?_
          unfold ThreadInv
          exact hinv.codec t htmem _
      | index record =>
        rw [hpc] at hstep hti
        simp only [Option.some.injEq, Prod.mk.injEq] at hstep
        obtain ⟨rfl, rfl⟩ := hstep
        refine hinv.frame_step hi ht rfl rfl rfl rfl rfl [some _] (alloc_store_eq _ _)
          (le_refl _) ?_
        unfold ThreadInv
        refine ⟨hti.1, hti.2, rfl, ?_⟩
        exact alloc_store_new s.db.cells _
      | restart record v vv priority =>
        rw [hpc] at hstep hti
        simp only [Option.some.injEq, Prod.mk.injEq] at hstep
        obtain ⟨rfl, rfl⟩ := hstep
        refine hinv.frame_step hi ht rfl rfl rfl rfl rfl [] (List.append_nil _).symm
          (le_refl _) ?_
        unfold ThreadInv
        refine ⟨⟨hti.key, hti.value, hti.hash, hti.cell⟩, hinv.index, ?_, le_refl _,
          fun _ => rfl⟩
        intro k w hw
        obtain ⟨u, hu, hus, hk, _⟩ := hinv.sound k w hw
        exact DoneKey.mono_set hi ht ⟨u, hu, hus, hk⟩
      | loaded record v vv priority ptr =>
        rw [hpc] at hstep hti
        obtain ⟨hl, hs⟩ := hti
        have hvne : v.value ≠ [] := by
          rw [hl.value]
          exact hinv.values t htmem
        have hget : node.Get s.db.cells ptr.root (.cell vv) = some none := by
          have hK : decodeItem s.db.cells (.cell vv)
              = some (hashOf env s.db.flags v.key, v.key) := by
            rw [decodeItem_cell hl.cell, hl.hash]
          rcases node.Get_spec hs.index.ordered hK with ⟨it, _, hmem, hdec⟩ | ⟨hget, _⟩
          · exfalso
            obtain ⟨w, hw⟩ := (Holds_iff_decode hs.index v.key).mpr ⟨it, hmem, hdec⟩
            obtain ⟨u, hu, hus, hk⟩ := hs.sub _ w hw
            have : u = t := eq_of_key_eq hinv.keys hu htmem (hk.trans hl.key)
            subst this
            rw [ht] at hus
            cases hus
          · exact hget
        obtain ⟨root', hatt, hinv', happ, hlen⟩ :=
          DB.indexAttempt_insert s.db.seed record priority s.db.nextTreap hs.index hl.cell
            hl.hash hvne hget
        simp only at hstep
        rw [hatt] at hstep
        simp only [Option.some.injEq, Prod.mk.injEq] at hstep
        obtain ⟨rfl, rfl⟩ := hstep
        refine hinv.frame_step hi ht rfl rfl rfl rfl rfl [] (List.append_nil _).symm
          (Nat.le_succ _) ?_
        unfold ThreadInv
        refine ⟨⟨hl.key, hl.value, hl.hash, hl.cell⟩, ?_, hinv', happ, hlen, ?_, ?_⟩
        · exact hs.mono_snap rfl [] (List.append_nil _).symm
            (fun k hk => DoneKey.mono_set hi ht hk) (Or.inl rfl)
        · show ptr.addr < s.db.nextTreap
          exact lt_of_le_of_lt hs.le hinv.addr
        · show s.db.nextTreap < s.db.nextTreap + 1
          omega
      | cas record v vv priority ptr nptr =>
        rw [hpc] at hstep hti
        simp only at hstep
        split_ifs at hstep with heq
        · simp only [Option.some.injEq, Prod.mk.injEq] at hstep
          obtain ⟨rfl, rfl⟩ := hstep
          exact hinv.cas_step hi hpc heq
        · simp only [Option.some.injEq, Prod.mk.injEq] at hstep
          obtain ⟨rfl, rfl⟩ := hstep
          refine hinv.frame_step hi ht rfl rfl rfl rfl rfl [] (List.append_nil _).symm
            (le_refl _) ?_
          unfold ThreadInv
          exact ⟨hti.1.key, hti.1.value, hti.1.hash, hti.1.cell⟩

/-- Every interleaving keeps the invariant. -/
theorem ConcInv.run {Chunk : Type} {env : Env Chunk} (sched : List Nat) {s s' : Conc Chunk}
    (hinv : ConcInv env s) (h : Conc.run env sched s = some s') : ConcInv env s' := by
  induction sched generalizing s with
  | nil =>
    simp only [Conc.run, Option.some.injEq] at h
    subst h
    exact hinv
  | cons i sched ih =>
    simp only [Conc.run] at h
    cases hstep : s.step env i with
    | none => simp [hstep] at h
    | some s1 =>
      rw [hstep] at h
      exact ih (hinv.step hstep) h

theorem DB.stepPut_key_value {Chunk : Type} {env : Env Chunk} {db db' : DB Chunk}
    {t t' : Thread} (h : DB.stepPut env db t = some (db', t')) :
    (t'.key, t'.value) = (t.key, t.value) := by
  unfold DB.stepPut at h
  cases hpc : t.pc with
  | returned err =>
    rw [hpc] at h
    cases h
  | start =>
    rw [hpc] at h
    simp only at h
    split_ifs at h <;>
      (simp only [Option.some.injEq, Prod.mk.injEq] at h; obtain ⟨_, rfl⟩ := h; rfl)
  | index record =>
    rw [hpc] at h
    simp only [Option.some.injEq, Prod.mk.injEq] at h
    obtain ⟨_, rfl⟩ := h
    rfl
  | restart record v vv priority =>
    rw [hpc] at h
    simp only [Option.some.injEq, Prod.mk.injEq] at h
    obtain ⟨_, rfl⟩ := h
    rfl
  | loaded record v vv priority ptr =>
    rw [hpc] at h
    simp only at h
    cases hatt : DB.indexAttempt env db.seed record v vv priority ptr db.cells db.nextTreap with
    | none => simp [hatt] at h
    | some a =>
      cases a with
      | done cells =>
        simp only [hatt, Option.some.injEq, Prod.mk.injEq] at h
        obtain ⟨_, rfl⟩ := h
        rfl
      | swap nptr next priority' =>
        simp only [hatt, Option.some.injEq, Prod.mk.injEq] at h
        obtain ⟨_, rfl⟩ := h
        rfl
  | cas record v vv priority ptr nptr =>
    rw [hpc] at h
    simp only at h
    split_ifs at h <;>
      (simp only [Option.some.injEq, Prod.mk.injEq] at h; obtain ⟨_, rfl⟩ := h; rfl)

/-- The goroutines keep their arguments through every interleaving. -/
theorem Conc.run_calls {Chunk : Type} {env : Env Chunk} (sched : List Nat)
    {s s' : Conc Chunk} (h : Conc.run env sched s = some s') :
    s'.threads.map (fun t => (t.key, t.value)) = s.threads.map (fun t => (t.key, t.value)) := by
  induction sched generalizing s with
  | nil =>
    simp only [Conc.run, Option.some.injEq] at h
    subst h
    rfl
  | cons i sched ih =>
    simp only [Conc.run] at h
    cases hstep : s.step env i with
    | none => simp [hstep] at h
    | some s1 =>
      rw [hstep] at h
      rw [ih h]
      unfold Conc.step at hstep
      cases hi : s.threads[i]? with
      | none => simp [hi] at hstep
      | some t =>
        simp only [hi] at hstep
        cases hput : DB.stepPut env s.db t with
        | none => simp [hput] at hstep
        | some r =>
          obtain ⟨db', t'⟩ := r
          simp only [hput, Option.some.injEq] at hstep
          subst hstep
          apply List.ext_getElem?
          intro j
          simp only [List.map_set, List.getElem?_set, List.length_map]
          split_ifs with h1 h2
          · subst h1
            simp [hi, DB.stepPut_key_value hput]
          · subst h1
            rw [List.getElem?_eq_none (by simp; omega)]
          · rfl

/-- The calls issued on an empty index satisfy the invariant. -/
theorem ConcInv.issue {Chunk : Type} {env : Env Chunk} {db : DB Chunk}
    {kvs : List (Bytes × Bytes)} (hempty : db.tree.root = node.nil)
    (haddr : db.tree.addr < db.nextTreap) (hkeys : (kvs.map Prod.fst).Nodup)
    (hvalues : ∀ kv ∈ kvs, kv.2 ≠ [])
    (hcodec : ∀ kv ∈ kvs, ∀ buf,
      (env.Set (env.encodeRecordInto buf kv.1 kv.2)).GKey = kv.1 ∧
      (env.Set (env.encodeRecordInto buf kv.1 kv.2)).GValue = kv.2) :
    ConcInv env (Conc.issue db kvs) := by
  have hnone : ∀ t ∈ (Conc.issue db kvs).threads, t.succeeded = false := by
    intro t ht
    simp only [Conc.issue, List.mem_map] at ht
    obtain ⟨kv, _, rfl⟩ := ht
    rfl
  have hnil : ∀ k w, ¬ Holds db.cells db.tree.root k w := by
    intro k w ⟨a, ha, _⟩
    rw [hempty] at ha
    simp [node.items] at ha
  refine ⟨?_, haddr, ?_, ?_, ?_, ?_, ?_, ?_, ?_⟩
  · show IndexInv env db.flags db.cells db.tree.root
    rw [hempty]
    exact IndexInv.nil env db.flags db.cells
  · intro k w hw
    exact absurd hw (hnil k w)
  · intro t ht hs
    rw [hnone t ht] at hs
    cases hs
  · show db.tree.root.items.length = (Conc.issue db kvs).threads.countP Thread.succeeded
    rw [hempty, List.countP_eq_zero.mpr (fun t ht => by simp [hnone t ht])]
    rfl
  · show ((Conc.issue db kvs).threads.map Thread.key).Nodup
    simp only [Conc.issue, List.map_map]
    exact hkeys
  · intro t ht
    simp only [Conc.issue, List.mem_map] at ht
    obtain ⟨kv, hkv, rfl⟩ := ht
    exact hvalues kv hkv
  · intro t ht
    simp only [Conc.issue, List.mem_map] at ht
    obtain ⟨kv, hkv, rfl⟩ := ht
    exact hcodec kv hkv
  · intro t ht
    simp only [Conc.issue, List.mem_map] at ht
    obtain ⟨kv, hkv, rfl⟩ := ht
    unfold ThreadInv
    trivial

theorem node.size_eq_items_length (t : node) : t.size = t.items.length := by
  induction t with
  | nil => rfl
  | mk it p l r ihl ihr =>
    simp only [node.size, node.items, List.length_append, List.length_cons, ihl, ihr]
    omega

/-- The steps of a goroutine and the method `DB.Put` agree: a goroutine
that runs alone reaches the `return` in five steps, with the `DB` and the
error of `DB.Put` run with one pass of `indexRecord`. -/
theorem DB.runAlone_eq_Put {Chunk : Type} (env : Env Chunk) (db : DB Chunk)
    (key value : Bytes) :
    DB.runAlone env 6 db { key := key, value := value, pc := .start }
      = DB.Put env 1 db key value := by
  simp only [DB.runAlone, DB.stepPut, DB.Put, DB.indexRecord, DB.indexLoop]
  split_ifs with h1 h2
  · rfl
  · rfl
  · simp only
    generalize DB.indexAttempt env _ _ _ _ _ _ _ _ = att
    rcases att with _ | _ | _ <;> simp

/-! ## Concurrent puts -/

/-- C10 (no write is lost).  `Put` is called concurrently for the pairs of
`kvs`, with distinct keys and non-empty values that the codec parses back, on
an index that is empty.  In every interleaving of the steps of the goroutines
(reservation in the log, allocation of the cell, atomic load of the root,
pass over the tree read, compare-and-swap with restart on failure), and at
every point of it: `Get` returns, for every call that has returned nil, the
value it wrote, and the tree has as many keys as calls have returned nil.
Hence, after all `N` calls have returned nil, `Get` returns for each key its
written value and the index holds exactly `N` keys. -/
theorem concurrent_puts {Chunk : Type} (env : Env Chunk) (db : DB Chunk)
    (kvs : List (Bytes × Bytes)) (sched : List Nat) (s : Conc Chunk)
    (hempty : db.tree.root = node.nil) (haddr : db.tree.addr < db.nextTreap)
    (hkeys : (kvs.map Prod.fst).Nodup) (hvalues : ∀ kv ∈ kvs, kv.2 ≠ [])
    (hcodec : ∀ kv ∈ kvs, ∀ buf,
      (env.Set (env.encodeRecordInto buf kv.1 kv.2)).GKey = kv.1 ∧
      (env.Set (env.encodeRecordInto buf kv.1 kv.2)).GValue = kv.2)
    (hrun : Conc.run env sched (Conc.issue db kvs) = some s) :
    (∀ t ∈ s.threads, t.succeeded = true →
      ∀ synced, DB.Get env s.db t.key synced = some (t.key, t.value, true)) ∧
    s.db.tree.root.size = s.threads.countP Thread.succeeded ∧
    ((∀ t ∈ s.threads, t.succeeded = true) →
      (∀ kv ∈ kvs, ∀ synced, DB.Get env s.db kv.1 synced = some (kv.1, kv.2, true)) ∧
      s.db.tree.root.size = kvs.length) := by
  have hinv : ConcInv env s :=
    (ConcInv.issue hempty haddr hkeys hvalues hcodec).run sched hrun
  have hcalls : s.threads.map (fun t => (t.key, t.value)) = kvs := by
    rw [Conc.run_calls sched hrun]
    simp only [Conc.issue, List.map_map]
    exact List.map_id kvs
  have hget : ∀ t ∈ s.threads, t.succeeded = true →
      ∀ synced, DB.Get env s.db t.key synced = some (t.key, t.value, true) := by
    intro t ht hs synced
    obtain ⟨w, hw, hv⟩ := hinv.complete t ht hs
    rw [DB.Get_found synced hinv.index hw, hv]
  have hsize : s.db.tree.root.size = s.threads.countP Thread.succeeded := by
    rw [node.size_eq_items_length, hinv.count]
  refine ⟨hget, hsize, ?_⟩
  intro hall
  constructor
  · intro kv hkv synced
    rw [← hcalls, List.mem_map] at hkv
    obtain ⟨t, ht, rfl⟩ := hkv
    exact hget t ht (hall t ht) synced
  · rw [hsize, List.countP_eq_length.mpr hall, ← hcalls, List.length_map]

/-- Witness of C10: two concurrent calls, `Put([5], [9])` and `Put([6], [8])`,
on the empty index of the concrete instance, in an interleaving in which both
goroutines read the empty root before either swaps: the compare-and-swap of
the second one fails (after ten steps it is back at `restart`), it retries,
and in the end both keys are served and the tree has two keys. -/
theorem concurrent_puts_witness :
    (Conc.run demoEnv [0, 0, 0, 1, 1, 1, 0, 1, 0, 1]
        (Conc.issue (demoDB ⟨[], 0, 0, 50, []⟩ 0) [([5], [9]), ([6], [8])])).map
      (fun s => s.threads.map Thread.succeeded) = some [true, false] ∧
    ∃ s, Conc.run demoEnv [0, 0, 0, 1, 1, 1, 0, 1, 0, 1, 1, 1, 1]
        (Conc.issue (demoDB ⟨[], 0, 0, 50, []⟩ 0) [([5], [9]), ([6], [8])]) = some s ∧
      (∀ t ∈ s.threads, t.succeeded = true) ∧
      DB.Get demoEnv s.db [5] true = some ([5], [9], true) ∧
      DB.Get demoEnv s.db [6] true = some ([6], [8], true) ∧
      s.db.tree.root.size = 2 := by
  refine ⟨rfl, ?_⟩
  have h : ∃ s, Conc.run demoEnv [0, 0, 0, 1, 1, 1, 0, 1, 0, 1, 1, 1, 1]
      (Conc.issue (demoDB ⟨[], 0, 0, 50, []⟩ 0) [([5], [9]), ([6], [8])]) = some s ∧
      s.threads.map Thread.succeeded = [true, true] := ⟨_, rfl, rfl⟩
  obtain ⟨s, hrun, hmap⟩ := h
  have hall : ∀ t ∈ s.threads, t.succeeded = true := by
    intro t ht
    have : t.succeeded ∈ s.threads.map Thread.succeeded := List.mem_map_of_mem _ ht
    rw [hmap] at this
    simpa using this
  have key := concurrent_puts demoEnv (demoDB ⟨[], 0, 0, 50, []⟩ 0) [([5], [9]), ([6], [8])]
    [0, 0, 0, 1, 1, 1, 0, 1, 0, 1, 1, 1, 1] s rfl (by decide) (by decide)
    (by intro kv hkv; simp at hkv; rcases hkv with rfl | rfl <;> simp)
    (by intro kv hkv buf; simp at hkv; rcases hkv with rfl | rfl <;> exact ⟨rfl, rfl⟩)
    hrun
  exact ⟨s, hrun, hall, (key.2.2 hall).1 ([5], [9]) (by simp) true,
    (key.2.2 hall).1 ([6], [8]) (by simp) true, (key.2.2 hall).2⟩

/-! ## The load flags -/

/-- C19 (load flags are independent bits).  `L_NONE` is 0 and `L_HASHED`,
`L_STOP_INVALID`, `L_DISCARD_INVALID_TAIL` are 2, 4 and 8.  For the flag set
`l` that is the OR of any subset of the three flags (the subset is given by
three booleans), `l.has(f)` is true exactly when `f` is in the subset; and
`L_NONE.has(f)` is false for every `f`. -/
theorem load_flags_independent :
    L_NONE = 0 ∧ L_HASHED = 2 ∧ L_STOP_INVALID = 4 ∧ L_DISCARD_INVALID_TAIL = 8 ∧
    (∀ a b c : Bool,
      LoadFlags.has ((if a then L_HASHED else L_NONE) ||| (if b then L_STOP_INVALID else L_NONE)
          ||| (if c then L_DISCARD_INVALID_TAIL else L_NONE)) L_HASHED = a ∧
      LoadFlags.has ((if a then L_HASHED else L_NONE) ||| (if b then L_STOP_INVALID else L_NONE)
          ||| (if c then L_DISCARD_INVALID_TAIL else L_NONE)) L_STOP_INVALID = b ∧
      LoadFlags.has ((if a then L_HASHED else L_NONE) ||| (if b then L_STOP_INVALID else L_NONE)
          ||| (if c then L_DISCARD_INVALID_TAIL else L_NONE)) L_DISCARD_INVALID_TAIL = c) ∧
    (∀ f : LoadFlags, LoadFlags.has L_NONE f = false) := by
  refine ⟨rfl, rfl, rfl, rfl, by decide, ?_⟩
  intro f
  simp [LoadFlags.has, L_NONE]

/-! ## The priority of a new node -/

theorem int_complement (p : Int) : ~~~p = -p - 1 := by
  cases p with
  | ofNat n =>
    show Int.negSucc n = -(n : Int) - 1
    rw [Int.negSucc_eq]
    omega
  | negSucc n =>
    show (n : Int) = -(Int.negSucc n) - 1
    rw [Int.negSucc_eq]
    omega

/-- C15 (priority folding).  Let `h` be the 64-bit hash of the record.  The
priority computed from it is between 0 and `2^63 - 1`; it is `h` when the sign
bit of `h` is clear and `2^64 - 1 - h` when it is set; hence it is never the
sentinel -1 with which `indexRecord` marks a priority not yet computed. -/
theorem priority_folding {Chunk : Type} (env : Env Chunk) (record : Bytes) (seed : Nat) :
    0 ≤ computePriority env record seed ∧
    computePriority env record seed ≤ 2 ^ 63 - 1 ∧
    (env.Hash64WithSeed record seed % 2 ^ 64 < 2 ^ 63 →
      computePriority env record seed = ((env.Hash64WithSeed record seed % 2 ^ 64 : Nat) : Int)) ∧
    (2 ^ 63 ≤ env.Hash64WithSeed record seed % 2 ^ 64 →
      computePriority env record seed
        = 2 ^ 64 - 1 - ((env.Hash64WithSeed record seed % 2 ^ 64 : Nat) : Int)) ∧
    computePriority env record seed ≠ -1 := by
  have hlt : env.Hash64WithSeed record seed % 2 ^ 64 < 2 ^ 64 := Nat.mod_lt _ (by norm_num)
  unfold computePriority int64
  simp only [int_complement]
  split_ifs <;> (refine ⟨?_, ?_, ?_, ?_, ?_⟩ <;> intros <;> omega)

/-! ## Termination of the loader -/

/-- C18 (loader termination).  When every decode whose outcome is not short
yields a record of at least one byte and at most the bytes that remain, the
scan loop of `DB.load` halts within `len(mem) + 1` iterations, from every loop
state that satisfies the loop invariant and for every flag setting, and so
`DB.load` returns on every `DB` that satisfies the invariant.  Without the
lower bound the loop need not halt: with a codec that always yields an invalid
record of length 0, and `L_STOP_INVALID` unset, the loop has not halted after
any number of iterations. -/
theorem loader_terminates {Chunk : Type} (env : Env Chunk) :
    ((∀ m, (env.Decode m).2 ≠ some Error.EShortRecord →
        1 ≤ (env.Decode m).1.Record.length ∧ (env.Decode m).1.Record.length ≤ m.length) →
      (∀ (flags : LoadFlags) (seed : Nat) (st : LoadState), LoadInv env flags st →
        ∃ st', DB.loadLoop env flags seed (st.mem.length + 1) st = some st') ∧
      (∀ db : DB Chunk, DB.Inv env db →
        ∃ db', DB.load env ((env.GetCommitted db.Ch).1.length + 1) db = some db')) ∧
    ((∀ m, (env.Decode m).2 = some Error.EInvalidRecord ∧ (env.Decode m).1.Record = []) →
      ∀ (flags : LoadFlags) (seed : Nat) (st : LoadState), flags.has L_STOP_INVALID = false →
        ∀ fuel, DB.loadLoop env flags seed fuel st = none) := by
  constructor
  · intro hlen
    exact ⟨fun flags seed st hinv =>
        DB.loadLoop_total hlen (st.mem.length + 1) st hinv (Nat.lt_succ_self _),
      fun db hinv => DB.load_total hlen hinv⟩
  · intro hbad flags seed st hflag fuel
    induction fuel generalizing st with
    | zero => rfl
    | succ fuel ih =>
      simp only [DB.loadLoop, (hbad st.mem).1, hflag]
      simp only [Option.some.injEq, reduceCtorEq, ↓reduceIte, Bool.false_eq_true, and_false,
        ne_eq, not_false_eq_true]
      exact ih _

/-- Witness of C18: the codec of the concrete instance satisfies the bounds,
and the load of the log `[put(a,1), put(b,2), delete(a)]`, 14 bytes, returns
with 15 iterations allowed; with the codec that is stuck on an invalid record
of length 0 the loop has not halted after 1000 iterations. -/
theorem loader_terminates_witness :
    (∃ db', DB.load demoEnv 15 (demoDB demoLogABA L_NONE) = some db') ∧
    DB.loadLoop demoEnvStuck L_NONE 7 1000 (DB.loadInit demoEnvStuck (demoDB demoLogABA L_NONE))
      = none :=
  ⟨((loader_terminates demoEnv).1 demoDecode_length).2 (demoDB demoLogABA L_NONE)
      (demoDB_inv _ _),
   (loader_terminates demoEnvStuck).2 (fun _ => ⟨rfl, rfl⟩) L_NONE 7 _ rfl 1000⟩

/-! ## No node with an empty value -/

/-- On a `DB` that satisfies the invariant, `Get` finds a record with a value
that is not empty, or finds nothing. -/
theorem DB.Get_cases {Chunk : Type} {env : Env Chunk} {db : DB Chunk} (hinv : DB.Inv env db)
    (k : Bytes) (synced : Bool) :
    (∃ w, Holds db.cells db.tree.root k w ∧ w.value ≠ [] ∧
      DB.Get env db k synced = some (k, w.value, true)) ∨
    ((∀ w, ¬ Holds db.cells db.tree.root k w) ∧
      DB.Get env db k synced = some ([], [], false)) := by
  by_cases h : ∃ w, Holds db.cells db.tree.root k w
  · obtain ⟨w, hw⟩ := h
    left
    obtain ⟨a, ha, hc, _⟩ := hw
    exact ⟨w, ⟨a, ha, hc, ‹_›⟩, (hinv.stored_key ha hc).2,
      DB.Get_found synced hinv ⟨a, ha, hc, ‹_›⟩⟩
  · right
    have h' : ∀ w, ¬ Holds db.cells db.tree.root k w := fun w hw => h ⟨w, hw⟩
    exact ⟨h', DB.Get_absent synced hinv h'⟩

/-- C13 (no empty-value node).  In every state that `Open` followed by any
sequence of `Put`, `Delete`, `PutRAW` (and `Commit`) produces, every node of
the tree points to a cell that holds a record whose value is not empty; so
`Get` never returns `ok = true` with an empty value, and a key is either
served with a non-empty value or absent. -/
theorem no_empty_value_node {Chunk : Type} (env : Env Chunk) (db : DB Chunk)
    (h : DB.Reachable env db) :
    (∀ x ∈ db.tree.root.items, ∃ a v, x = Item.cell a ∧ db.cells[a]? = some (some v) ∧
      v.value ≠ []) ∧
    (∀ k synced mkey value, DB.Get env db k synced = some (mkey, value, true) → value ≠ []) ∧
    (∀ k synced, (∃ value, value ≠ [] ∧ DB.Get env db k synced = some (k, value, true)) ∨
      DB.Get env db k synced = some ([], [], false)) := by
  have hinv : DB.Inv env db := h.inv
  refine ⟨?_, ?_, ?_⟩
  · intro x hx
    obtain ⟨a, v, hxa, hc, _, hv⟩ := hinv.stored x hx
    exact ⟨a, v, hxa, hc, hv⟩
  · intro k synced mkey value hget
    rcases DB.Get_cases hinv k synced with ⟨w, _, hne, hg⟩ | ⟨_, hg⟩
    · rw [hg] at hget
      simp only [Option.some.injEq, Prod.mk.injEq, and_true] at hget
      rw [← hget.2]
      exact hne
    · rw [hg] at hget
      simp at hget
  · intro k synced
    rcases DB.Get_cases hinv k synced with ⟨w, _, hne, hg⟩ | ⟨_, hg⟩
    · exact Or.inl ⟨w.value, hne, hg⟩
    · exact Or.inr hg

/-- Witness of C13: the log `[put(a,1), put(b,2), delete(a)]` of the concrete
instance is opened (the load inserts twice and deletes once); then
`Delete(b)` deletes a stored key, `Put([5], [9])` inserts, `Put([5], [10])`
replaces in place, `PutRAW` of the tombstone of `[5]` deletes, `PutRAW` of the
tombstone of `[6]` finds no key, and `Commit` is called; every call returns
nil.  In the final state the value of every node is not empty, and the keys
`[5]` and `[6]`, whose last records are tombstones, are absent. -/
theorem no_empty_value_node_witness :
    ∃ db1 db2 db3 db4 db5 db6,
      DB.Open demoEnv 15 (demoDB demoLogABA 0) L_HASHED 7 = some db1 ∧
      DB.Delete demoEnv 1 db1 [98] = some (db2, none) ∧
      DB.Put demoEnv 1 db2 [5] [9] = some (db3, none) ∧
      DB.Put demoEnv 1 db3 [5] [10] = some (db4, none) ∧
      DB.PutRAW demoEnv 1 db4 (demoRecord [5] []) = some (db5, none) ∧
      DB.PutRAW demoEnv 1 db5 (demoRecord [6] []) = some (db6, none) ∧
      (∀ x ∈ (DB.Commit demoEnv db6).tree.root.items, ∃ a v, x = Item.cell a ∧
        (DB.Commit demoEnv db6).cells[a]? = some (some v) ∧ v.value ≠ []) ∧
      DB.Get demoEnv (DB.Commit demoEnv db6) [5] true = some ([], [], false) ∧
      DB.Get demoEnv (DB.Commit demoEnv db6) [6] true = some ([], [], false) := by
  have h : ∃ db1, DB.Open demoEnv 15 (demoDB demoLogABA 0) L_HASHED 7 = some db1 ∧
      db1.Ch = demoLogABA := ⟨_, rfl, rfl⟩
  obtain ⟨db1, h1, hc1⟩ := h
  have hr1 : DB.Reachable demoEnv db1 := DB.Reachable.opened 15 _ db1 L_HASHED 7 h1
  obtain ⟨db2, h2, hc2⟩ := DB.Put_succeeds [98] [] 0 hr1.inv rfl (by rw [hc1]; rfl)
  rw [hc1] at hc2
  have hr2 : DB.Reachable demoEnv db2 := DB.Reachable.put 1 db1 db2 [98] [] none hr1 h2
  obtain ⟨db3, h3, hc3⟩ := DB.Put_succeeds [5] [9] 0 hr2.inv rfl (by rw [hc2]; rfl)
  rw [hc2] at hc3
  have hr3 : DB.Reachable demoEnv db3 := DB.Reachable.put 1 db2 db3 [5] [9] none hr2 h3
  obtain ⟨db4, h4, hc4⟩ := DB.Put_succeeds [5] [10] 0 hr3.inv rfl (by rw [hc3]; rfl)
  rw [hc3] at hc4
  have hr4 : DB.Reachable demoEnv db4 := DB.Reachable.put 1 db3 db4 [5] [10] none hr3 h4
  obtain ⟨db5, h5, hc5⟩ :=
    DB.PutRAW_succeeds (demoRecord [5] []) 0 hr4.inv (by rw [hc4]; rfl)
  have hr5 : DB.Reachable demoEnv db5 :=
    DB.Reachable.putRAW 1 db4 db5 (demoRecord [5] []) none hr4 h5
  obtain ⟨db6, h6, _⟩ :=
    DB.PutRAW_succeeds (demoRecord [6] []) 0 hr5.inv (by rw [hc5, hc4]; rfl)
  have hr6 : DB.Reachable demoEnv db6 :=
    DB.Reachable.putRAW 1 db5 db6 (demoRecord [6] []) none hr5 h6
  have hno5 : ∀ w, ¬ Holds db5.cells db5.tree.root [5] w := by
    intro w hw
    have happ := (DB.PutRAW_ok hr4.inv h5).2.2 [5] w
    rw [hc4] at happ
    rcases happ.mp hw with ⟨_, _, hne⟩ | ⟨hk, _⟩
    · exact hne rfl
    · exact hk rfl
  have happ6 := (DB.PutRAW_ok hr5.inv h6).2.2
  rw [hc5, hc4] at happ6
  have hno6 : ∀ k, k = [5] ∨ k = [6] → ∀ w, ¬ Holds db6.cells db6.tree.root k w := by
    intro k hk w hw
    rcases (happ6 k w).mp hw with ⟨_, _, hne⟩ | ⟨hk', hw'⟩
    · exact hne rfl
    · rcases hk with rfl | rfl
      · exact hno5 w hw'
      · exact hk' rfl
  exact ⟨db1, db2, db3, db4, db5, db6, h1, h2, h3, h4, h5, h6,
    (no_empty_value_node demoEnv (DB.Commit demoEnv db6) (DB.Reachable.commit db6 hr6)).1,
    DB.Get_absent true hr6.inv (hno6 [5] (Or.inl rfl)),
    DB.Get_absent true hr6.inv (hno6 [6] (Or.inr rfl))⟩

/-! ## Other keys -/

theorem DB.Get_congr_holds {Chunk : Type} {env : Env Chunk} {db db' : DB Chunk}
    (hinv : DB.Inv env db) (hinv' : DB.Inv env db') {k : Bytes}
    (h : ∀ w, Holds db'.cells db'.tree.root k w ↔ Holds db.cells db.tree.root k w)
    (synced : Bool) : DB.Get env db' k synced = DB.Get env db k synced := by
  rcases DB.Get_cases hinv k synced with ⟨w, hw, _, hg⟩ | ⟨hno, hg⟩
  · rw [hg, DB.Get_found synced hinv' ((h w).mpr hw)]
  · rw [hg, DB.Get_absent synced hinv' (fun w hw => hno w ((h w).mp hw))]

/-- C16 (other keys are untouched).  On a `DB` that satisfies the invariant,
after a `Put(k, v)` that returns nil and whose record the codec parses back to
the key `k`, after a `Delete(k)` likewise, and after a `PutRAW(record)` that
returns nil, the key of the stored record being `k`: for every key `k'` whose
bytes differ from `k`, `Get(k')` returns what it returned before the call, in
both read modes. -/
theorem other_keys_untouched {Chunk : Type} (env : Env Chunk) (db db' : DB Chunk)
    (k k' : Bytes) (fuel : Nat) (synced : Bool) (hinv : DB.Inv env db) (hk : k' ≠ k) :
    (∀ v, DB.Put env fuel db k v = some (db', none) →
      (env.Set (env.encodeRecordInto
        (env.Skip db.Ch (env.recordLength k.length v.length).1).1.1 k v)).GKey = k →
      DB.Get env db' k' synced = DB.Get env db k' synced) ∧
    (DB.Delete env fuel db k = some (db', none) →
      (env.Set (env.encodeRecordInto
        (env.Skip db.Ch (env.recordLength k.length 0).1).1.1 k [])).GKey = k →
      DB.Get env db' k' synced = DB.Get env db k' synced) ∧
    (∀ record, DB.PutRAW env fuel db record = some (db', none) →
      (env.Set (env.Append db.Ch record).1.1).GKey = k →
      DB.Get env db' k' synced = DB.Get env db k' synced) := by
  have hput : ∀ v, DB.Put env fuel db k v = some (db', none) →
      (env.Set (env.encodeRecordInto
        (env.Skip db.Ch (env.recordLength k.length v.length).1).1.1 k v)).GKey = k →
      DB.Get env db' k' synced = DB.Get env db k' synced := by
    intro v h hcodec
    cases fuel with
    | zero =>
      exfalso
      unfold DB.Put at h
      simp only at h
      split_ifs at h with h1 h2
      · simp only [Option.some.injEq, Prod.mk.injEq] at h
        exact h1 h.2
      · simp only [Option.some.injEq, Prod.mk.injEq] at h
        exact h2 h.2
      · simp [DB.indexRecord, DB.indexLoop] at h
    | succ fuel =>
      obtain ⟨hi, _, happ⟩ := DB.Put_ok hinv h
      apply DB.Get_congr_holds hinv hi
      intro w
      rw [happ k' w]
      have hkey : (setHash env db.flags (env.Set (env.encodeRecordInto
          (env.Skip db.Ch (env.recordLength k.length v.length).1).1.1 k v))).key = k := hcodec
      rw [hkey]
      constructor
      · rintro (⟨h1, _⟩ | ⟨_, h2⟩)
        · exact absurd h1 hk
        · exact h2
      · intro h2
        exact Or.inr ⟨hk, h2⟩
  refine ⟨hput, ?_, ?_⟩
  · intro h hcodec
    exact hput [] h hcodec
  · intro record h hcodec
    cases fuel with
    | zero =>
      exfalso
      unfold DB.PutRAW at h
      simp only at h
      split_ifs at h with h1
      · simp only [Option.some.injEq, Prod.mk.injEq] at h
        exact h1 h.2
      · simp [DB.indexRecord, DB.indexLoop] at h
    | succ fuel =>
      obtain ⟨hi, _, happ⟩ := DB.PutRAW_ok hinv h
      apply DB.Get_congr_holds hinv hi
      intro w
      rw [happ k' w]
      have hkey : (setHash env db.flags (env.Set (env.Append db.Ch record).1.1)).key = k :=
        hcodec
      rw [hkey]
      constructor
      · rintro (⟨h1, _⟩ | ⟨_, h2⟩)
        · exact absurd h1 hk
        · exact h2
      · intro h2
        exact Or.inr ⟨hk, h2⟩

/-- Witness of C16: on the `DB` that holds `[5] ↦ [9]`, `Put([6], [7])` and
`Delete([6])` leave `Get([5])` as it was. -/
theorem other_keys_untouched_witness :
    ∃ db1 db2, DB.Put demoEnv 1 demoDB1 [6] [7] = some (db1, none) ∧
      DB.Delete demoEnv 1 db1 [6] = some (db2, none) ∧
      DB.Get demoEnv db1 [5] true = DB.Get demoEnv demoDB1 [5] true ∧
      DB.Get demoEnv db2 [5] true = DB.Get demoEnv db1 [5] true ∧
      DB.Get demoEnv db2 [5] true = some ([5], [9], true) := by
  have h : ∃ db1 db2, DB.Put demoEnv 1 demoDB1 [6] [7] = some (db1, none) ∧
      DB.Delete demoEnv 1 db1 [6] = some (db2, none) ∧
      DB.Get demoEnv db2 [5] true = some ([5], [9], true) := ⟨_, _, rfl, rfl, rfl⟩
  obtain ⟨db1, db2, h1, h2, h3⟩ := h
  have hinv1 : DB.Inv demoEnv db1 := DB.Put_inv demoDB1_inv h1
  exact ⟨db1, db2, h1, h2,
    (other_keys_untouched demoEnv demoDB1 db1 [6] [5] 1 true demoDB1_inv (by decide)).1
      [7] h1 rfl,
    (other_keys_untouched demoEnv db1 db2 [6] [5] 1 true hinv1 (by decide)).2.1 h2 rfl, h3⟩

/-! ## The treap engine, with priorities -/

theorem node.items_eq_entries (t : node) : t.items = t.entries.map Prod.fst := by
  induction t with
  | nil => rfl
  | mk it p l r ihl ihr => simp [node.items, node.entries, ihl, ihr]

theorem node.mem_items_of_mem_entries {t : node} {x : Item} {p : Int}
    (h : (x, p) ∈ t.entries) : x ∈ t.items := by
  rw [node.items_eq_entries]
  exact List.mem_map_of_mem Prod.fst h

theorem node.liftLeft_entries (it : Item) (p : Int) (l r : node) :
    (node.liftLeft it p l r).entries = l.entries ++ (it, p) :: r.entries := by
  unfold node.liftLeft
  cases l with
  | nil => rfl
  | mk litem lprio ll lr =>
    simp only
    split_ifs <;> simp [node.entries]

theorem node.liftRight_entries (it : Item) (p : Int) (l r : node) :
    (node.liftRight it p l r).entries = l.entries ++ (it, p) :: r.entries := by
  unfold node.liftRight
  cases r with
  | nil => rfl
  | mk ritem rprio rl rr =>
    simp only
    split_ifs <;> simp [node.entries]

theorem node.sink_entries (l r : node) :
    (node.sink l r).entries = l.entries ++ r.entries := by
  induction l, r using node.sink.induct with
  | case1 r => simp [node.sink, node.entries]
  | case2 l hl =>
    cases l with
    | nil => simp [node.sink, node.entries]
    | mk a b c d => simp [node.sink, node.entries]
  | case3 litem lprio ll lr ritem rprio rl rr h ih =>
    rw [node.sink]
    simp only [h, ↓reduceIte, node.entries, ih]
    simp
  | case4 litem lprio ll lr ritem rprio rl rr h ih =>
    rw [node.sink]
    simp only [h, ↓reduceIte, node.entries, ih]
    simp

/-- Inserting a key that differs from every key of the tree puts one node,
with the item and the priority given, into the in-order traversal. -/
theorem node.Upsert_entries {cells : Cells} {t t' : node} {item : Item} {prio : Int}
    (hne : ∀ x ∈ t.items, ∃ c, compareItem cells item x = some c ∧ c ≠ 0)
    (h : node.Upsert cells t item prio = some t') :
    ∃ l1 l2, t.entries = l1 ++ l2 ∧ t'.entries = l1 ++ (item, prio) :: l2 := by
  induction t generalizing t' with
  | nil =>
    simp only [node.Upsert, Option.some.injEq] at h
    subst h
    exact ⟨[], [], rfl, rfl⟩
  | mk it p l r ihl ihr =>
    simp only [node.items, List.mem_append, List.mem_cons] at hne
    obtain ⟨c, hc, hc0⟩ := hne it (Or.inr (Or.inl rfl))
    simp only [node.Upsert, hc] at h
    split_ifs at h with h1 h2
    · cases hl : node.Upsert cells l item prio with
      | none => simp [hl] at h
      | some l' =>
        simp only [hl, Option.some.injEq] at h
        subst h
        obtain ⟨a1, a2, he, he'⟩ := ihl (fun x hx => hne x (Or.inl hx)) hl
        exact ⟨a1, a2 ++ (it, p) :: r.entries, by simp [node.entries, he],
          by simp [node.liftLeft_entries, he']⟩
    · cases hr : node.Upsert cells r item prio with
      | none => simp [hr] at h
      | some r' =>
        simp only [hr, Option.some.injEq] at h
        subst h
        obtain ⟨a1, a2, he, he'⟩ := ihr (fun x hx => hne x (Or.inr (Or.inr hx))) hr
        exact ⟨l.entries ++ (it, p) :: a1, a2, by simp [node.entries, he],
          by simp [node.liftRight_entries, he']⟩
    · exact absurd (by omega : c = 0) hc0

/-- Deleting a key leaves the nodes of the other keys, with their items and
priorities, in the in-order traversal. -/
theorem node.Delete_entries {cells : Cells} {t : node} {target : Item} {K : Nat × Bytes}
    (ho : t.Ordered cells) (hk : decodeItem cells target = some K) :
    ∃ t', node.Delete cells t target = some t' ∧
      t'.entries = t.entries.filter (fun e => decide (decodeItem cells e.1 ≠ some K)) := by
  induction t with
  | nil => exact ⟨_, rfl, by simp [node.entries]⟩
  | mk it p l r ihl ihr =>
    rw [node.Ordered_mk] at ho
    obtain ⟨hl, hr, ⟨A, hA⟩, hlt, hgt⟩ := ho
    have hlt' : ∀ e ∈ l.entries, itemLt cells e.1 it := fun e he =>
      hlt e.1 (node.mem_items_of_mem_entries he)
    have hgt' : ∀ e ∈ r.entries, itemLt cells it e.1 := fun e he =>
      hgt e.1 (node.mem_items_of_mem_entries he)
    simp only [node.Delete, compareItem_of_decode hk hA]
    rcases compareKey_range K A with h | h | h
    · have hti : itemLt cells target it := ⟨K, A, hk, hA, h⟩
      rw [h]
      simp only [Int.reduceNeg, Left.neg_neg_iff, zero_lt_one, ↓reduceIte]
      obtain ⟨l', hdel, hitems⟩ := ihl hl
      rw [hdel]
      refine ⟨_, rfl, ?_⟩
      have hkeep : ((it, p) :: r.entries).filter
          (fun e => decide (decodeItem cells e.1 ≠ some K)) = (it, p) :: r.entries := by
        rw [List.filter_eq_self]
        intro e he
        simp only [List.mem_cons] at he
        rcases he with rfl | he
        · simpa using itemLt_ne_key hti hk
        · simpa using itemLt_ne_key (itemLt_trans hti (hgt' e he)) hk
      simp only [node.entries, List.filter_append, hkeep, hitems]
    · have hKA : K = A := compareKey_eq_zero.mp h
      subst hKA
      rw [h]
      simp only [lt_self_iff_false, ↓reduceIte]
      refine ⟨_, rfl, ?_⟩
      have hkl : l.entries.filter (fun e => decide (decodeItem cells e.1 ≠ some K))
          = l.entries := by
        rw [List.filter_eq_self]
        intro e he
        simpa using itemLt_ne_key_left (hlt' e he) hA
      have hkr : r.entries.filter (fun e => decide (decodeItem cells e.1 ≠ some K))
          = r.entries := by
        rw [List.filter_eq_self]
        intro e he
        simpa using itemLt_ne_key (hgt' e he) hA
      rw [node.entries, List.filter_append, List.filter_cons, hkl, hkr, node.sink_entries]
      simp [hA]
    · have hit : itemLt cells it target := by
        refine ⟨A, K, hA, hk, ?_⟩
        rw [compareKey_swap K A, h]
      rw [h]
      have : ¬ ((1 : Int) < 0) := by omega
      simp only [this, zero_lt_one, ↓reduceIte]
      obtain ⟨r', hdel, hitems⟩ := ihr hr
      rw [hdel]
      refine ⟨_, rfl, ?_⟩
      have hkl : l.entries.filter (fun e => decide (decodeItem cells e.1 ≠ some K))
          = l.entries := by
        rw [List.filter_eq_self]
        intro e he
        simpa using itemLt_ne_key_left (itemLt_trans (hlt' e he) hit) hk
      have hki : decodeItem cells it ≠ some K := itemLt_ne_key_left hit hk
      rw [node.entries, node.entries, List.filter_append, List.filter_cons, hkl, hitems]
      simp [hki]

/-! ## One record applied to the tree, with priorities -/

theorem HoldsP.to_holds {cells : Cells} {root : node} {k : Bytes} {w : Value} {p : Int}
    (h : HoldsP cells root k w p) : Holds cells root k w := by
  obtain ⟨a, ha, hc, hk⟩ := h
  exact ⟨a, node.mem_items_of_mem_entries ha, hc, hk⟩

theorem Holds.exists_priority {cells : Cells} {root : node} {k : Bytes} {w : Value}
    (h : Holds cells root k w) : ∃ p, HoldsP cells root k w p := by
  obtain ⟨a, ha, hc, hk⟩ := h
  rw [node.items_eq_entries, List.mem_map] at ha
  obtain ⟨⟨x, p⟩, he, hx⟩ := ha
  simp only at hx
  subst hx
  exact ⟨p, a, he, hc, hk⟩

theorem HoldsP.iff_of_cells_p {cells cells' : Cells} {root : node}
    (h : ∀ a, Item.cell a ∈ root.items → cells'[a]? = cells[a]?) (k : Bytes) (v : Value)
    (p : Int) : HoldsP cells' root k v p ↔ HoldsP cells root k v p := by
  constructor
  · rintro ⟨a, ha, hc, hk⟩
    exact ⟨a, ha, by rw [← h a (node.mem_items_of_mem_entries ha), hc], hk⟩
  · rintro ⟨a, ha, hc, hk⟩
    exact ⟨a, ha, by rw [h a (node.mem_items_of_mem_entries ha), hc], hk⟩

theorem AppliedP.congr_p {v : Value} {prio : Int} {b b' a a' : Bytes → Value → Int → Prop}
    (hb : ∀ k w p, b' k w p ↔ b k w p) (ha : ∀ k w p, a' k w p ↔ a k w p)
    (h : AppliedP v prio b a) : AppliedP v prio b' a' := by
  intro k w p
  rw [ha, h k w p]
  simp only [hb]

/-- The lookup of the scratch cell finds nothing: the tree holds no record for
its key. -/
theorem absent_of_get {Chunk : Type} {env : Env Chunk} {flags : LoadFlags}
    {cells : Cells} {root : node} {v : Value} {vv : Nat}
    (hinv : IndexInv env flags cells root) (hv : cells[vv]? = some (some v))
    (hh : v.hash = hashOf env flags v.key)
    (hget : node.Get cells root (.cell vv) = some none) :
    ∀ w, ¬ Holds cells root v.key w := by
  have hK : decodeItem cells (.cell vv) = some (hashOf env flags v.key, v.key) := by
    rw [decodeItem_cell hv, hh]
  rintro w ⟨a, ha, hc, hk⟩
  rcases node.Get_spec hinv.ordered hK with ⟨it, hget', _, _⟩ | ⟨_, hno⟩
  · rw [hget] at hget'
    cases hget'
  · exact hno _ ha (by rw [(hinv.stored_key ha hc).1, hk])

/-- The lookup of the scratch cell finds an item: it is a cell of the tree
that holds a record with the key and the hash of the scratch cell. -/
theorem present_of_get {Chunk : Type} {env : Env Chunk} {flags : LoadFlags}
    {cells : Cells} {root : node} {v : Value} {vv : Nat} {it : Item}
    (hinv : IndexInv env flags cells root) (hv : cells[vv]? = some (some v))
    (hh : v.hash = hashOf env flags v.key)
    (hget : node.Get cells root (.cell vv) = some (some it)) :
    ∃ a w, it = Item.cell a ∧ Item.cell a ∈ root.items ∧ cells[a]? = some (some w) ∧
      w.key = v.key ∧ w.hash = v.hash ∧ w.value ≠ [] := by
  have hK : decodeItem cells (.cell vv) = some (hashOf env flags v.key, v.key) := by
    rw [decodeItem_cell hv, hh]
  obtain ⟨hmem, hdec⟩ : it ∈ root.items ∧
      decodeItem cells it = some (hashOf env flags v.key, v.key) := by
    rcases node.Get_spec hinv.ordered hK with ⟨it', hget', hmem, hdec⟩ | ⟨hget', _⟩
    · rw [hget] at hget'
      cases hget'
      exact ⟨hmem, hdec⟩
    · rw [hget] at hget'
      cases hget'
  obtain ⟨a, w, rfl, hcw, hhw, hwne⟩ := hinv.stored _ hmem
  rw [decodeItem_cell hcw] at hdec
  simp only [Option.some.injEq, Prod.mk.injEq] at hdec
  exact ⟨a, w, rfl, hmem, hcw, hdec.2, by rw [hdec.1, hh], hwne⟩

theorem stepP_tombstone_absent {cells : Cells} {root : node} {v : Value} (prio : Int)
    (habs : ∀ w, ¬ Holds cells root v.key w) (hval : v.value = []) :
    AppliedP v prio (HoldsP cells root) (HoldsP cells root) := by
  intro k w p
  constructor
  · intro h
    right
    refine ⟨?_, h⟩
    rintro rfl
    exact habs w h.to_holds
  · rintro (⟨_, _, hne, _⟩ | ⟨_, h⟩)
    · exact absurd hval hne
    · exact h

theorem stepP_tombstone_present {Chunk : Type} {env : Env Chunk} {flags : LoadFlags}
    {cells : Cells} {root root' : node} {v : Value} (prio : Int)
    (hinv : IndexInv env flags cells root) (hh : v.hash = hashOf env flags v.key)
    (hval : v.value = [])
    (hent : root'.entries = root.entries.filter
      (fun e => decide (decodeItem cells e.1 ≠ some (v.hash, v.key)))) :
    AppliedP v prio (HoldsP cells root) (HoldsP cells root') := by
  intro k w p
  constructor
  · rintro ⟨a, ha, hc, hk⟩
    right
    rw [hent, List.mem_filter] at ha
    refine ⟨?_, a, ha.1, hc, hk⟩
    rintro rfl
    have := ha.2
    rw [(hinv.stored_key (node.mem_items_of_mem_entries ha.1) hc).1, hk, hh] at this
    simp at this
  · rintro (⟨_, _, hne, _⟩ | ⟨hk', a, ha, hc, hk⟩)
    · exact absurd hval hne
    · refine ⟨a, ?_, hc, hk⟩
      rw [hent, List.mem_filter]
      refine ⟨ha, ?_⟩
      rw [(hinv.stored_key (node.mem_items_of_mem_entries ha) hc).1, hk]
      simp only [ne_eq, Option.some.injEq, Prod.mk.injEq, not_and, decide_eq_true_eq]
      intro _ h
      exact hk' h

theorem stepP_replace {Chunk : Type} {env : Env Chunk} {flags : LoadFlags}
    {cells : Cells} {root : node} {v w0 : Value} {a : Nat} (prio : Int)
    (hinv : IndexInv env flags cells root) (ha : Item.cell a ∈ root.items)
    (hcw : cells[a]? = some (some w0)) (hwk : w0.key = v.key) (hval : v.value ≠ []) :
    AppliedP v prio (HoldsP cells root) (HoldsP (storeCell cells a v) root) := by
  have halt : a < cells.length := IndexInv.addr_lt hinv ha
  have hnew : (storeCell cells a v)[a]? = some (some v) := store_scratch_new v halt
  have hother : ∀ b, b ≠ a → (storeCell cells a v)[b]? = cells[b]? :=
    fun b hb => store_scratch_old v hb
  have huniq : ∀ b u, Item.cell b ∈ root.items → cells[b]? = some (some u) → u.key = v.key →
      b = a := by
    intro b u hb hc hk
    have hdb := (hinv.stored_key hb hc).1
    have hda := (hinv.stored_key ha hcw).1
    have := sortedItems_unique hinv.ordered hb ha (by rw [hdb, hda, hk, hwk])
    cases this
    rfl
  intro k u p
  constructor
  · rintro ⟨b, hb, hc, hk⟩
    by_cases hba : b = a
    · subst hba
      rw [hnew] at hc
      cases hc
      exact Or.inl ⟨hk.symm, rfl, hval, Or.inl ⟨w0, b, hb, hcw, hwk.trans hk⟩⟩
    · right
      rw [hother b hba] at hc
      refine ⟨?_, b, hb, hc, hk⟩
      rintro rfl
      exact hba (huniq b u (node.mem_items_of_mem_entries hb) hc hk)
  · rintro (⟨rfl, rfl, _, h | ⟨h, _⟩⟩ | ⟨hk', b, hb, hc, hk⟩)
    · obtain ⟨w1, b, hb, hc, hk⟩ := h
      have := huniq b w1 (node.mem_items_of_mem_entries hb) hc hk
      subst this
      exact ⟨b, hb, hnew, rfl⟩
    · obtain ⟨p0, hp0⟩ := Holds.exists_priority ⟨a, ha, hcw, hwk⟩
      exact absurd hp0 (h w0 p0)
    · refine ⟨b, hb, ?_, hk⟩
      rw [hother b ?_, hc]
      rintro rfl
      rw [hcw] at hc
      cases hc
      exact hk' (hk.symm.trans hwk)

theorem stepP_insert {cells : Cells} {root root' : node} {v : Value} {vv : Nat} {prio : Int}
    {l1 l2 : List (Item × Int)}
    (hv : cells[vv]? = some (some v)) (habs : ∀ w, ¬ Holds cells root v.key w)
    (hval : v.value ≠ []) (hent : root.entries = l1 ++ l2)
    (hent' : root'.entries = l1 ++ (Item.cell vv, prio) :: l2) :
    AppliedP v prio (HoldsP cells root) (HoldsP cells root') := by
  have hmem : ∀ e, e ∈ root'.entries ↔ e = (Item.cell vv, prio) ∨ e ∈ root.entries := by
    intro e
    rw [hent, hent']
    simp only [List.mem_append, List.mem_cons]
    tauto
  intro k u p
  constructor
  · rintro ⟨b, hb, hc, hk⟩
    rcases (hmem _).mp hb with hb | hb
    · cases hb
      rw [hv] at hc
      cases hc
      exact Or.inl ⟨hk.symm, rfl, hval, Or.inr ⟨fun w0 p0 h => habs w0 (hk ▸ h.to_holds), rfl⟩⟩
    · right
      refine ⟨?_, b, hb, hc, hk⟩
      rintro rfl
      exact habs u ⟨b, node.mem_items_of_mem_entries hb, hc, hk⟩
  · rintro (⟨rfl, rfl, _, ⟨w0, h⟩ | ⟨_, rfl⟩⟩ | ⟨_, b, hb, hc, hk⟩)
    · exact absurd h.to_holds (habs w0)
    · exact ⟨vv, (hmem _).mpr (Or.inl rfl), hv, rfl⟩
    · exact ⟨b, (hmem _).mpr (Or.inr hb), hc, hk⟩

/-- The four cases of one record applied to a tree whose scratch cell `vv`
holds the record `v`: a tombstone for an absent key, a tombstone for a present
key, a value for a present key, a value for an absent key. -/
theorem step_cases {Chunk : Type} {env : Env Chunk} {flags : LoadFlags}
    {cells : Cells} {t : TreapPtr} {v : Value} {vv : Nat} (prio : Int) (next : Nat)
    (hinv : IndexInv env flags cells t.root) (hv : cells[vv]? = some (some v))
    (hh : v.hash = hashOf env flags v.key) :
    (v.value = [] ∧ (∀ w, ¬ Holds cells t.root v.key w) ∧
      node.Get cells t.root (.cell vv) = some none ∧
      AppliedP v prio (HoldsP cells t.root) (HoldsP cells t.root)) ∨
    (v.value = [] ∧ (∃ w, Holds cells t.root v.key w) ∧ ∃ it root',
      node.Get cells t.root (.cell vv) = some (some it) ∧
      t.Delete cells (.cell vv) next = some (⟨next, root'⟩, next + 1) ∧
      IndexInv env flags cells root' ∧
      AppliedP v prio (HoldsP cells t.root) (HoldsP cells root') ∧
      (∀ x ∈ root'.items, x ∈ t.root.items)) ∨
    (v.value ≠ [] ∧ ∃ a w, node.Get cells t.root (.cell vv) = some (some (.cell a)) ∧
      Item.cell a ∈ t.root.items ∧ cells[a]? = some (some w) ∧ w.key = v.key ∧
      w.hash = v.hash ∧ w.value ≠ [] ∧
      IndexInv env flags (storeCell cells a v) t.root ∧
      AppliedP v prio (HoldsP cells t.root) (HoldsP (storeCell cells a v) t.root)) ∨
    (v.value ≠ [] ∧ (∀ w, ¬ Holds cells t.root v.key w) ∧ ∃ root',
      node.Get cells t.root (.cell vv) = some none ∧
      t.Upsert cells (.cell vv) prio next = some (⟨next, root'⟩, next + 1) ∧
      IndexInv env flags cells root' ∧
      AppliedP v prio (HoldsP cells t.root) (HoldsP cells root') ∧
      (∀ x, x ∈ root'.items ↔ x = Item.cell vv ∨ x ∈ t.root.items)) := by
  by_cases hval : v.value = []
  · rcases node.Get_isSome hinv hv with hget | ⟨it, hget⟩
    · have habs := absent_of_get hinv hv hh hget
      exact Or.inl ⟨hval, habs, hget, stepP_tombstone_absent prio habs hval⟩
    · obtain ⟨a, w, rfl, hmem, hcw, hwk, _, _⟩ := present_of_get hinv hv hh hget
      obtain ⟨root', hdel, hinv', _, hsub⟩ :=
        step_tombstone_present next hinv hv hh hval hget
      obtain ⟨t'', hdel2, hent⟩ := node.Delete_entries hinv.ordered (decodeItem_cell hv)
      simp only [TreapPtr.Delete, hget, hdel2, Option.some.injEq, Prod.mk.injEq,
        TreapPtr.mk.injEq, true_and, and_true] at hdel
      subst hdel
      refine Or.inr (Or.inl ⟨hval, ⟨w, a, hmem, hcw, hwk⟩, _, t'', hget, ?_, hinv',
        stepP_tombstone_present prio hinv hh hval hent, hsub⟩)
      simp [TreapPtr.Delete, hget, hdel2]
  · rcases node.Get_isSome hinv hv with hget | ⟨it, hget⟩
    · have habs := absent_of_get hinv hv hh hget
      obtain ⟨root', hup, hinv', _, hmem⟩ := step_insert prio next hinv hv hh hval hget
      have hne : ∀ x ∈ t.root.items, ∃ c, compareItem cells (.cell vv) x = some c ∧ c ≠ 0 := by
        intro x hx
        obtain ⟨a, w, rfl, hcw, hhw, _⟩ := hinv.stored x hx
        refine ⟨_, compareItem_of_decode (decodeItem_cell hv) (decodeItem_cell hcw), ?_⟩
        intro h0
        have := compareKey_eq_zero.mp h0
        simp only [Prod.mk.injEq] at this
        exact habs w ⟨a, hx, hcw, this.2.symm⟩
      cases hu : node.Upsert cells t.root (.cell vv) prio with
      | none => simp [TreapPtr.Upsert, hget, hu] at hup
      | some r =>
        simp only [TreapPtr.Upsert, hget, hu, Option.some.injEq, Prod.mk.injEq,
          TreapPtr.mk.injEq, true_and, and_true] at hup
        subst hup
        obtain ⟨l1, l2, hent, hent'⟩ := node.Upsert_entries hne hu
        refine Or.inr (Or.inr (Or.inr ⟨hval, habs, r, hget, ?_, hinv',
          stepP_insert hv habs hval hent hent', hmem⟩))
        simp [TreapPtr.Upsert, hget, hu]
    · obtain ⟨a, w, rfl, hmem, hcw, hwk, hwh, hwne⟩ := present_of_get hinv hv hh hget
      obtain ⟨a', ha', hinv', _, _⟩ := step_replace hinv hv hh hval hget
      cases ha'
      exact Or.inr (Or.inr (Or.inl ⟨hval, a, w, hget, hmem, hcw, hwk, hwh, hwne, hinv',
        stepP_replace prio hinv hmem hcw hwk hval⟩))

/-! ## `DB.indexRecord` run alone, in detail -/

theorem Rewritten.of_append (K : Bytes → Prop) (cells extra : Cells) :
    Rewritten K cells (cells ++ extra) :=
  fun _ _ h => Or.inl (getElem?_append_some h)

/-- One call of `DB.indexRecord` run alone on a `DB` that satisfies the
invariant, with at least one pass allowed: the call returns nil, keeps the
invariant, applies the record (a new node gets the priority computed from the
record and the seed), writes only to a new cell and to the cell of the key of
the record.  A tombstone for an absent key and a value for a present key end
their pass without a compare-and-swap, the root pointer being as before. -/
theorem DB.indexRecord_detail {Chunk : Type} {env : Env Chunk} {db : DB Chunk}
    (record : Bytes) (fuel : Nat) (hinv : DB.Inv env db) :
    ∃ db', DB.indexRecord env (fuel + 1) db record = some (db', none) ∧ DB.Inv env db' ∧
      AppliedP (setHash env db.flags (env.Set record)) (computePriority env record db.seed)
        (HoldsP db.cells db.tree.root) (HoldsP db'.cells db'.tree.root) ∧
      Rewritten (fun k => k = (env.Set record).key ∧ (env.Set record).value ≠ [])
        db.cells db'.cells ∧
      db'.flags = db.flags ∧ db'.Ch = db.Ch ∧ db'.seed = db.seed ∧
      ((setHash env db.flags (env.Set record)).value = [] →
        (∀ w, ¬ Holds db.cells db.tree.root (env.Set record).key w) →
        DB.indexAttempt env db.seed record (setHash env db.flags (env.Set record))
            db.cells.length (-1) db.tree
            (db.cells ++ [some (setHash env db.flags (env.Set record))]) db.nextTreap
          = some (.done (db.cells ++ [some (setHash env db.flags (env.Set record))])) ∧
        db' = { db with
          cells := db.cells ++ [some (setHash env db.flags (env.Set record))] }) ∧
      ((setHash env db.flags (env.Set record)).value ≠ [] →
        (∃ w, Holds db.cells db.tree.root (env.Set record).key w) →
        ∃ a, Item.cell a ∈ db.tree.root.items ∧
          DB.indexAttempt env db.seed record (setHash env db.flags (env.Set record))
              db.cells.length (-1) db.tree
              (db.cells ++ [some (setHash env db.flags (env.Set record))]) db.nextTreap
            = some (.done (storeCell
                (db.cells ++ [some (setHash env db.flags (env.Set record))]) a
                (setHash env db.flags (env.Set record)))) ∧
          db' = { db with
            cells := storeCell (db.cells ++ [some (setHash env db.flags (env.Set record))]) a
                       (setHash env db.flags (env.Set record)) }) := by
  have hvk : (setHash env db.flags (env.Set record)).key = (env.Set record).key := rfl
  rw [← hvk]
  set v := setHash env db.flags (env.Set record) with hvdef
  have hv : (db.cells ++ [some v])[db.cells.length]? = some (some v) := by simp
  have hold : ∀ a, Item.cell a ∈ db.tree.root.items →
      (db.cells ++ [some v])[a]? = db.cells[a]? :=
    fun a ha => cells_append_old (IndexInv.addr_lt hinv ha)
  have hinv0 : IndexInv env db.flags (db.cells ++ [some v]) db.tree.root :=
    IndexInv.frame_of_cells hinv hold
  have hh : v.hash = hashOf env db.flags v.key := rfl
  have hbefore : ∀ k w, Holds db.cells db.tree.root k w ↔
      Holds (db.cells ++ [some v]) db.tree.root k w :=
    fun k w => (Holds.iff_of_cells hold k w).symm
  have hbeforeP : ∀ k w p, HoldsP db.cells db.tree.root k w p ↔
      HoldsP (db.cells ++ [some v]) db.tree.root k w p :=
    fun k w p => (HoldsP.iff_of_cells_p hold k w p).symm
  have hunf : DB.indexRecord env (fuel + 1) db record =
      match DB.indexLoop env record v db.cells.length (fuel + 1) (-1)
          { db with cells := db.cells ++ [some v] } with
      | none => none
      | some db => some (db, none) := by
    rw [← alloc_store_eq]
    rfl
  rw [hunf]
  rcases step_cases (computePriority env record db.seed) db.nextTreap hinv0 hv hh with
    ⟨hval, habs, hget, happ⟩ | ⟨hval, hpres, it, root', hget, hdel, hinv', happ, _⟩ |
    ⟨hval, a, w, hget, hmem, hcw, hwk, hwh, hwne, hinv', happ⟩ |
    ⟨hval, habs, root', hget, hup, hinv', happ, _⟩
  · have hlen : v.GValue.length = 0 := by simp [Value.GValue, hval]
    have hatt : DB.indexAttempt env db.seed record v db.cells.length (-1) db.tree
        (db.cells ++ [some v]) db.nextTreap = some (.done (db.cells ++ [some v])) := by
      simp [DB.indexAttempt, hlen, TreapPtr.Get, hget]
    refine ⟨{ db with cells := db.cells ++ [some v] }, ?_, hinv0,
      happ.congr_p hbeforeP (fun _ _ _ => Iff.rfl), Rewritten.of_append _ _ _,
      rfl, rfl, rfl, fun _ _ => ⟨hatt, rfl⟩, fun hne _ => absurd hval hne⟩
    simp [DB.indexLoop, hatt]
  · have hlen : v.GValue.length = 0 := by simp [Value.GValue, hval]
    refine ⟨{ db with cells := db.cells ++ [some v], tree := ⟨db.nextTreap, root'⟩,
                      nextTreap := db.nextTreap + 1 }, ?_, hinv',
      happ.congr_p hbeforeP (fun _ _ _ => Iff.rfl), Rewritten.of_append _ _ _,
      rfl, rfl, rfl, ?_, fun hne _ => absurd hval hne⟩
    · simp [DB.indexLoop, DB.indexAttempt, hlen, TreapPtr.Get, hget, hdel]
    · intro _ habs
      obtain ⟨w, hw⟩ := hpres
      exact absurd ((hbefore _ _).mpr hw) (habs w)
  · have hlen : ¬ v.GValue.length = 0 := by simpa [Value.GValue] using hval
    have hatt : DB.indexAttempt env db.seed record v db.cells.length (-1) db.tree
        (db.cells ++ [some v]) db.nextTreap =
        some (.done (storeCell (db.cells ++ [some v]) a v)) := by
      simp [DB.indexAttempt, hlen, TreapPtr.Get, hget]
    have halt : a < db.cells.length := IndexInv.addr_lt hinv hmem
    refine ⟨{ db with cells := storeCell (db.cells ++ [some v]) a v }, ?_, hinv',
      happ.congr_p hbeforeP (fun _ _ _ => Iff.rfl), ?_,
      rfl, rfl, rfl, fun he _ => absurd he hval, fun _ _ => ⟨a, hmem, hatt, rfl⟩⟩
    · simp [DB.indexLoop, hatt]
    · intro b u hb
      by_cases hba : b = a
      · subst hba
        rw [hold b hmem, hb] at hcw
        cases hcw
        refine Or.inr ⟨⟨hwk, hval⟩, v, ?_, hwk.symm, hwh.symm, fun _ => hval⟩
        exact store_scratch_new v (by simp; omega)
      · left
        show (storeCell (db.cells ++ [some v]) a v)[b]? = some (some u)
        rw [store_scratch_old v hba]
        exact getElem?_append_some hb
  · have hlen : ¬ v.GValue.length = 0 := by simpa [Value.GValue] using hval
    refine ⟨{ db with cells := db.cells ++ [some v], tree := ⟨db.nextTreap, root'⟩,
                      nextTreap := db.nextTreap + 1 }, ?_, hinv',
      happ.congr_p hbeforeP (fun _ _ _ => Iff.rfl), Rewritten.of_append _ _ _,
      rfl, rfl, rfl, fun he _ => absurd he hval, ?_⟩
    · simp [DB.indexLoop, DB.indexAttempt, hlen, TreapPtr.Get, hget, hup]
    · rintro _ ⟨w, hw⟩
      exact absurd ((hbefore _ _).mp hw) (habs w)

/-! ## Updates that do not change the structure of the tree -/

/-- C14 (non-structural updates leave the root slot alone).  On every `DB`
that satisfies the invariant of the index, `DB.indexRecord` of a record with
an empty value whose key the tree does not hold, and `DB.indexRecord` of a
record with a non-empty value whose key the tree holds, return nil, and their
pass ends as `Attempt.done`, that is without reaching the compare-and-swap;
the root pointer (the address and the tree) and the allocator of `Treap`
objects are as before the call.  In the first case every cell that existed
before the call holds what it held. -/
theorem nonstructural_updates {Chunk : Type} (env : Env Chunk) (db : DB Chunk)
    (record : Bytes) (fuel : Nat) (hinv : DB.Inv env db) :
    ((setHash env db.flags (env.Set record)).value = [] →
      (∀ w, ¬ Holds db.cells db.tree.root (env.Set record).key w) →
      ∃ db', DB.indexRecord env (fuel + 1) db record = some (db', none) ∧
        DB.indexAttempt env db.seed record (setHash env db.flags (env.Set record))
            db.cells.length (-1) db.tree
            (db.cells ++ [some (setHash env db.flags (env.Set record))]) db.nextTreap
          = some (.done (db.cells ++ [some (setHash env db.flags (env.Set record))])) ∧
        db'.tree = db.tree ∧ db'.nextTreap = db.nextTreap ∧
        (∀ a, a < db.cells.length → db'.cells[a]? = db.cells[a]?)) ∧
    ((setHash env db.flags (env.Set record)).value ≠ [] →
      (∃ w, Holds db.cells db.tree.root (env.Set record).key w) →
      ∃ db' a, DB.indexRecord env (fuel + 1) db record = some (db', none) ∧
        Item.cell a ∈ db.tree.root.items ∧
        DB.indexAttempt env db.seed record (setHash env db.flags (env.Set record))
            db.cells.length (-1) db.tree
            (db.cells ++ [some (setHash env db.flags (env.Set record))]) db.nextTreap
          = some (.done (storeCell
              (db.cells ++ [some (setHash env db.flags (env.Set record))]) a
              (setHash env db.flags (env.Set record)))) ∧
        db'.tree = db.tree ∧ db'.nextTreap = db.nextTreap) := by
  obtain ⟨db', hidx, _, _, _, _, _, _, hA, hC⟩ := DB.indexRecord_detail record fuel hinv
  constructor
  · intro hval habs
    obtain ⟨hatt, hdb⟩ := hA hval habs
    refine ⟨db', hidx, hatt, by rw [hdb], by rw [hdb], ?_⟩
    intro a ha
    rw [hdb]
    exact cells_append_old ha
  · intro hval hpres
    obtain ⟨a, hmem, hatt, hdb⟩ := hC hval hpres
    exact ⟨db', a, hidx, hmem, hatt, by rw [hdb], by rw [hdb]⟩

/-- Witness of C14: on the `DB` that holds `[5] ↦ [9]`, the tombstone for the
key `[6]` and the record `[5] ↦ [10]` leave the root pointer as it was. -/
theorem nonstructural_updates_witness :
    (∃ db', DB.indexRecord demoEnv 1 demoDB1 (demoRecord [6] []) = some (db', none) ∧
      db'.tree = demoDB1.tree ∧ db'.nextTreap = demoDB1.nextTreap ∧
      db'.cells[0]? = demoDB1.cells[0]?) ∧
    (∃ db', DB.indexRecord demoEnv 1 demoDB1 (demoRecord [5] [10]) = some (db', none) ∧
      db'.tree = demoDB1.tree ∧ db'.nextTreap = demoDB1.nextTreap) := by
  have habs : ∀ w, ¬ Holds demoDB1.cells demoDB1.tree.root
      (demoEnv.Set (demoRecord [6] [])).key w := by
    rintro w ⟨a, ha, hc, hk⟩
    simp only [demoDB1, node.items, List.nil_append, List.mem_singleton, Item.cell.injEq] at ha
    subst ha
    simp only [demoDB1, List.getElem?_cons_zero, Option.some.injEq] at hc
    subst hc
    revert hk
    decide
  have hpres : ∃ w, Holds demoDB1.cells demoDB1.tree.root
      (demoEnv.Set (demoRecord [5] [10])).key w :=
    ⟨_, 0, by simp [demoDB1, node.items], rfl, rfl⟩
  constructor
  · obtain ⟨db', h, _, ht, hn, hc⟩ :=
      (nonstructural_updates demoEnv demoDB1 (demoRecord [6] []) 0 demoDB1_inv).1 rfl habs
    exact ⟨db', h, ht, hn, hc 0 (by decide)⟩
  · obtain ⟨db', a, h, _, _, ht, hn⟩ :=
      (nonstructural_updates demoEnv demoDB1 (demoRecord [5] [10]) 0 demoDB1_inv).2
        (by decide) hpres
    exact ⟨db', h, ht, hn⟩

/-! ## The search-tree invariant -/

theorem compareKey_neg_iff_keyLess {A B : Nat × Bytes} :
    compareKey A B = -1 ↔ keyLess A B := by
  unfold compareKey keyLess
  split_ifs with h1 h2
  · constructor
    · intro h
      exact absurd h (by decide)
    · rintro (h | ⟨h, _⟩) <;> omega
  · simp [h2]
  · rw [bytesCompare_neg_iff_lex]
    constructor
    · intro h
      exact Or.inr ⟨by omega, h⟩
    · rintro (h | ⟨_, h⟩)
      · omega
      · exact h

/-- The decoded keys of a sorted list of items are strictly increasing. -/
theorem sortedItems_keys {cells : Cells} {xs : List Item} (h : SortedItems cells xs) :
    ∃ ks : List (Nat × Bytes), xs.map (decodeItem cells) = ks.map some ∧
      ks.Pairwise keyLess := by
  induction xs with
  | nil => exact ⟨[], rfl, List.Pairwise.nil⟩
  | cons x xs ih =>
    obtain ⟨hdec, hpw⟩ := h
    rw [List.pairwise_cons] at hpw
    obtain ⟨A, hA⟩ := hdec x (List.mem_cons_self x xs)
    obtain ⟨ks, hks, hkpw⟩ := ih ⟨fun y hy => hdec y (List.mem_cons_of_mem x hy), hpw.2⟩
    refine ⟨A :: ks, by simp [hA, hks], List.pairwise_cons.mpr ⟨?_, hkpw⟩⟩
    intro B hB
    have hB' : some B ∈ xs.map (decodeItem cells) := by
      rw [hks]
      exact List.mem_map_of_mem some hB
    obtain ⟨y, hy, hyB⟩ := List.mem_map.mp hB'
    obtain ⟨A', B', hA', hB'', hlt⟩ := hpw.1 y hy
    rw [hA] at hA'
    rw [hyB] at hB''
    cases hA'
    cases hB''
    exact compareKey_neg_iff_keyLess.mp hlt

/-- Writes that keep the key leave the decoded key of every item of a tree
that satisfies the invariant, and the invariant. -/
theorem Rewritten.decode_eq {Chunk : Type} {env : Env Chunk} {flags : LoadFlags}
    {K : Bytes → Prop} {cells cells' : Cells} {root : node}
    (h : Rewritten K cells cells') (hinv : IndexInv env flags cells root) :
    ∀ x ∈ root.items, decodeItem cells' x = decodeItem cells x := by
  intro x hx
  obtain ⟨a, w, rfl, hc, _⟩ := hinv.stored x hx
  rcases h a w hc with h' | ⟨_, w', h', hk, hh, _⟩
  · rw [decodeItem_cell h', decodeItem_cell hc]
  · rw [decodeItem_cell h', decodeItem_cell hc, hk, hh]

theorem Rewritten.index_inv {Chunk : Type} {env : Env Chunk} {flags : LoadFlags}
    {K : Bytes → Prop} {cells cells' : Cells} {root : node}
    (h : Rewritten K cells cells') (hinv : IndexInv env flags cells root) :
    IndexInv env flags cells' root := by
  refine ⟨sortedItems_congr (h.decode_eq hinv) hinv.ordered, ?_⟩
  intro x hx
  obtain ⟨a, w, rfl, hc, hh, hne⟩ := hinv.stored x hx
  rcases h a w hc with h' | ⟨_, w', h', hk, hh', hne'⟩
  · exact ⟨a, w, rfl, h', hh, hne⟩
  · exact ⟨a, w', rfl, h', by rw [hh', hk, hh], hne' hne⟩

/-- A call of `DB.indexRecord` that returns, run alone on a `DB` that
satisfies the invariant, has the properties of `DB.indexRecord_detail`. -/
theorem DB.indexRecord_returned {Chunk : Type} {env : Env Chunk} {db db' : DB Chunk}
    {record : Bytes} {fuel : Nat} {err : Option Error} (hinv : DB.Inv env db)
    (h : DB.indexRecord env fuel db record = some (db', err)) :
    err = none ∧ DB.Inv env db' ∧
      AppliedP (setHash env db.flags (env.Set record)) (computePriority env record db.seed)
        (HoldsP db.cells db.tree.root) (HoldsP db'.cells db'.tree.root) ∧
      Rewritten (fun k => k = (env.Set record).key ∧ (env.Set record).value ≠ [])
        db.cells db'.cells ∧
      db'.flags = db.flags ∧ db'.Ch = db.Ch ∧ db'.seed = db.seed := by
  cases fuel with
  | zero => simp [DB.indexRecord, DB.indexLoop] at h
  | succ fuel =>
    obtain ⟨db'', h', hi, happ, hrw, hf, hc, hs, _⟩ := DB.indexRecord_detail record fuel hinv
    rw [h'] at h
    simp only [Option.some.injEq, Prod.mk.injEq] at h
    obtain ⟨rfl, rfl⟩ := h
    exact ⟨rfl, hi, happ, hrw, hf, hc, hs⟩

/-- Every tree built from the empty tree by `DB.load` and sequential calls of
`DB.indexRecord` satisfies the invariant of the index. -/
theorem DB.Built.inv_built {Chunk : Type} {env : Env Chunk} {db : DB Chunk}
    (h : DB.Built env db) : DB.Inv env db := by
  induction h with
  | empty db hnil =>
    unfold DB.Inv
    rw [hnil]
    exact IndexInv.nil env db.flags db.cells
  | load fuel db db' _ hload ih => exact (DB.load_spec fuel ih hload).1
  | index fuel db db' record err _ hidx ih => exact (DB.indexRecord_returned ih hidx).2.1

/-- C11 (search-tree invariant).  Every tree built from the empty tree by
`DB.load` and by sequential calls of `DB.indexRecord` (that is by upserts,
deletes and in-place replacements of the payload) has an in-order traversal
whose items all decode, to keys that are strictly increasing in the (hash,
raw) key order.  A further call of `DB.indexRecord` leaves the decoded key of
every item of the tree as it was: the record that replaces a payload in place
has the hash and the raw key of the record it replaces. -/
theorem search_tree_invariant {Chunk : Type} (env : Env Chunk) (db : DB Chunk)
    (h : DB.Built env db) :
    (∃ ks : List (Nat × Bytes), db.tree.root.items.map (decodeItem db.cells) = ks.map some ∧
      ks.Pairwise keyLess) ∧
    (∀ fuel record db' err, DB.indexRecord env fuel db record = some (db', err) →
      ∀ x ∈ db.tree.root.items, decodeItem db'.cells x = decodeItem db.cells x) := by
  have hinv := h.inv_built
  refine ⟨sortedItems_keys hinv.ordered, ?_⟩
  intro fuel record db' err hidx
  exact (DB.indexRecord_returned hinv hidx).2.2.2.1.decode_eq hinv

/-- Witness of C11: the tree built by indexing the records of the keys `[6]`
and `[5]` and then a second record of the key `[6]`, in this order, on the
empty tree, has the keys `(0, [5])` and `(0, [6])` in this order. -/
theorem search_tree_invariant_witness :
    ∃ db1 db2 db3,
      DB.indexRecord demoEnv 1 (demoDB demoLogABA 0) (demoRecord [6] [1]) = some (db1, none) ∧
      DB.indexRecord demoEnv 1 db1 (demoRecord [5] [2]) = some (db2, none) ∧
      DB.indexRecord demoEnv 1 db2 (demoRecord [6] [3]) = some (db3, none) ∧
      db3.tree.root.items.map (decodeItem db3.cells) = [some (0, [5]), some (0, [6])] ∧
      ∃ ks : List (Nat × Bytes), db3.tree.root.items.map (decodeItem db3.cells) = ks.map some ∧
        ks.Pairwise keyLess := by
  have h : ∃ db1 db2 db3,
      DB.indexRecord demoEnv 1 (demoDB demoLogABA 0) (demoRecord [6] [1]) = some (db1, none) ∧
      DB.indexRecord demoEnv 1 db1 (demoRecord [5] [2]) = some (db2, none) ∧
      DB.indexRecord demoEnv 1 db2 (demoRecord [6] [3]) = some (db3, none) ∧
      db3.tree.root.items.map (decodeItem db3.cells) = [some (0, [5]), some (0, [6])] :=
    ⟨_, _, _, rfl, rfl, rfl, rfl⟩
  obtain ⟨db1, db2, db3, h1, h2, h3, h4⟩ := h
  have hb0 : DB.Built demoEnv (demoDB demoLogABA 0) := DB.Built.empty _ rfl
  have hb1 := DB.Built.index 1 _ db1 _ _ hb0 h1
  have hb2 := DB.Built.index 1 _ db2 _ _ hb1 h2
  have hb3 := DB.Built.index 1 _ db3 _ _ hb2 h3
  exact ⟨db1, db2, db3, h1, h2, h3, h4, (search_tree_invariant demoEnv db3 hb3).1⟩

/-! ## Readers that hold an older root -/

theorem Rewritten.refl_rw (K : Bytes → Prop) (cells : Cells) : Rewritten K cells cells :=
  fun _ _ h => Or.inl h

theorem Rewritten.trans_rw {K1 K2 K : Bytes → Prop} {c c' c'' : Cells}
    (h1 : Rewritten K1 c c') (h2 : Rewritten K2 c' c'')
    (hk1 : ∀ k, K1 k → K k) (hk2 : ∀ k, K2 k → K k) : Rewritten K c c'' := by
  intro a w hc
  rcases h1 a w hc with hc' | ⟨hK, w', hc', hk, hh, hne⟩
  · rcases h2 a w hc' with hc'' | ⟨hK', w'', hc'', hk', hh', hne'⟩
    · exact Or.inl hc''
    · exact Or.inr ⟨hk2 _ hK', w'', hc'', hk', hh', hne'⟩
  · rcases h2 a w' hc' with hc'' | ⟨hK', w'', hc'', hk', hh', hne'⟩
    · exact Or.inr ⟨hk1 _ hK, w', hc'', hk, hh, hne⟩
    · exact Or.inr ⟨hk1 _ hK, w'', hc'', hk'.trans hk, hh'.trans hh, fun h => hne' (hne h)⟩

/-- Writes that keep the key leave the presence of every key in a tree that
satisfies the invariant. -/
theorem Rewritten.holds_some_iff {Chunk : Type} {env : Env Chunk} {flags : LoadFlags}
    {K : Bytes → Prop} {cells cells' : Cells} {root : node}
    (h : Rewritten K cells cells') (hinv : IndexInv env flags cells root) (k : Bytes) :
    (∃ w, Holds cells' root k w) ↔ ∃ w, Holds cells root k w := by
  constructor
  · rintro ⟨w, a, ha, hc', hk⟩
    obtain ⟨b, w0, hb, hc, _⟩ := hinv.stored _ ha
    cases hb
    rcases h a w0 hc with h' | ⟨_, w', h', hk', _⟩
    · rw [hc'] at h'
      cases h'
      exact ⟨w, a, ha, hc, hk⟩
    · rw [hc'] at h'
      cases h'
      exact ⟨w0, a, ha, hc, hk'.symm.trans hk⟩
  · rintro ⟨w, a, ha, hc, hk⟩
    rcases h a w hc with h' | ⟨_, w', h', hk', _⟩
    · exact ⟨w, a, ha, h', hk⟩
    · exact ⟨w', a, ha, h', hk'.trans hk⟩

/-- Writes that keep the key leave the record of every key that is not
written. -/
theorem Rewritten.holds_iff {Chunk : Type} {env : Env Chunk} {flags : LoadFlags}
    {K : Bytes → Prop} {cells cells' : Cells} {root : node}
    (h : Rewritten K cells cells') (hinv : IndexInv env flags cells root) {k : Bytes}
    (hk : ¬ K k) (w : Value) : Holds cells' root k w ↔ Holds cells root k w := by
  constructor
  · rintro ⟨a, ha, hc', hkw⟩
    obtain ⟨b, w0, hb, hc, _⟩ := hinv.stored _ ha
    cases hb
    rcases h a w0 hc with h' | ⟨hK, w', h', hk', _⟩
    · rw [hc'] at h'
      cases h'
      exact ⟨a, ha, hc, hkw⟩
    · rw [hc'] at h'
      cases h'
      rw [← hk', hkw] at hK
      exact absurd hK hk
  · rintro ⟨a, ha, hc, hkw⟩
    rcases h a w hc with h' | ⟨hK, _⟩
    · exact ⟨a, ha, h', hkw⟩
    · rw [hkw] at hK
      exact absurd hK hk

theorem DB.GetRecord_cases {Chunk : Type} {env : Env Chunk} {db : DB Chunk}
    (hinv : DB.Inv env db) (k : Bytes) (synced : Bool) :
    (∃ w, Holds db.cells db.tree.root k w ∧
      DB.GetRecord env db k synced = some (some w, true)) ∨
    ((∀ w, ¬ Holds db.cells db.tree.root k w) ∧
      DB.GetRecord env db k synced = some (none, false)) := by
  by_cases h : ∃ w, Holds db.cells db.tree.root k w
  · obtain ⟨w, hw⟩ := h
    exact Or.inl ⟨w, hw, DB.GetRecord_found synced hinv hw⟩
  · have h' : ∀ w, ¬ Holds db.cells db.tree.root k w := fun w hw => h ⟨w, hw⟩
    exact Or.inr ⟨h', DB.GetRecord_absent synced hinv h'⟩

/-- What a call of `DB.Put` that returns writes to the cells. -/
theorem DB.Put_rewritten {Chunk : Type} {env : Env Chunk} {db db' : DB Chunk} {k v : Bytes}
    {fuel : Nat} {err : Option Error} (hinv : DB.Inv env db)
    (h : DB.Put env fuel db k v = some (db', err)) :
    Rewritten (fun x => err = none ∧ x = (DB.putRecord env db k v).key ∧
      (DB.putRecord env db k v).value ≠ []) db.cells db'.cells := by
  unfold DB.Put at h
  simp only at h
  split_ifs at h with h1 h2
  · simp only [Option.some.injEq, Prod.mk.injEq] at h
    rw [← h.1]
    exact Rewritten.refl_rw _ _
  · simp only [Option.some.injEq, Prod.mk.injEq] at h
    rw [← h.1]
    exact Rewritten.refl_rw _ _
  · have hinv' : DB.Inv env
        { db with Ch := (env.Skip db.Ch (env.recordLength k.length v.length).1).2 } := hinv
    obtain ⟨herr, _, _, hrw, _⟩ := DB.indexRecord_returned hinv' h
    exact hrw.trans_rw (Rewritten.refl_rw (fun _ => False) _)
      (fun x hx => ⟨herr, hx⟩) (fun _ hx => hx.elim)

/-- What a call of `DB.PutRAW` that returns writes to the cells. -/
theorem DB.PutRAW_rewritten {Chunk : Type} {env : Env Chunk} {db db' : DB Chunk}
    {record : Bytes} {fuel : Nat} {err : Option Error} (hinv : DB.Inv env db)
    (h : DB.PutRAW env fuel db record = some (db', err)) :
    Rewritten (fun x => err = none ∧ x = (DB.putRAWRecord env db record).key ∧
      (DB.putRAWRecord env db record).value ≠ []) db.cells db'.cells := by
  unfold DB.PutRAW at h
  simp only at h
  split_ifs at h with h1
  · simp only [Option.some.injEq, Prod.mk.injEq] at h
    rw [← h.1]
    exact Rewritten.refl_rw _ _
  · have hinv' : DB.Inv env { db with Ch := (env.Append db.Ch record).2 } := hinv
    obtain ⟨herr, _, _, hrw, _⟩ := DB.indexRecord_returned hinv' h
    exact hrw.trans_rw (Rewritten.refl_rw (fun _ => False) _)
      (fun x hx => ⟨herr, hx⟩) (fun _ hx => hx.elim)

theorem Overwritten.append_left {ws : List Value} (extra : List Value) {k : Bytes}
    (h : Overwritten ws k) : Overwritten (ws ++ extra) k := by
  obtain ⟨v, hv, hk, hne⟩ := h
  exact ⟨v, List.mem_append_left _ hv, hk, hne⟩

/-- The cells after later calls: only cells of keys that a later call wrote
with a value that is not empty are written, and keep their key. -/
theorem DB.Later.rewritten {Chunk : Type} {env : Env Chunk} {db db' : DB Chunk}
    {ws : List Value} (h : DB.Later env db ws db') (hinv : DB.Inv env db) :
    DB.Inv env db' ∧ Rewritten (Overwritten ws) db.cells db'.cells := by
  induction h with
  | refl => exact ⟨hinv, Rewritten.refl_rw _ _⟩
  | put fuel db0 db1 db2 ws key value _ hput ih =>
    obtain ⟨hi, hrw⟩ := ih hinv
    refine ⟨DB.Put_inv hi hput, hrw.trans_rw (DB.Put_rewritten hi hput)
      (fun k hk => hk.append_left _) ?_⟩
    rintro k ⟨_, hk, hne⟩
    exact ⟨_, List.mem_append_right _ (List.mem_singleton_self _), hk.symm, hne⟩
  | putFailed fuel db0 db1 db2 ws key value e _ hput ih =>
    obtain ⟨hi, hrw⟩ := ih hinv
    refine ⟨DB.Put_inv hi hput, hrw.trans_rw (DB.Put_rewritten hi hput) (fun k hk => hk) ?_⟩
    rintro k ⟨herr, _⟩
    cases herr
  | putRAW fuel db0 db1 db2 ws record _ hput ih =>
    obtain ⟨hi, hrw⟩ := ih hinv
    refine ⟨DB.PutRAW_inv hi hput, hrw.trans_rw (DB.PutRAW_rewritten hi hput)
      (fun k hk => hk.append_left _) ?_⟩
    rintro k ⟨_, hk, hne⟩
    exact ⟨_, List.mem_append_right _ (List.mem_singleton_self _), hk.symm, hne⟩
  | putRAWFailed fuel db0 db1 db2 ws record e _ hput ih =>
    obtain ⟨hi, hrw⟩ := ih hinv
    refine ⟨DB.PutRAW_inv hi hput, hrw.trans_rw (DB.PutRAW_rewritten hi hput)
      (fun k hk => hk) ?_⟩
    rintro k ⟨herr, _⟩
    cases herr

/-- What one call of `DB.indexRecord`, run alone on a `DB` that satisfies
the invariant, does to each cell that holds a record: the cell of the node of
the key of the record is written if the value is not empty, and leaves the
tree if it is empty; every other cell holds what it held, and is in the tree
if and only if it was. -/
theorem DB.indexRecord_at {Chunk : Type} {env : Env Chunk} {db : DB Chunk}
    (record : Bytes) (fuel : Nat) (hinv : DB.Inv env db) :
    ∃ db', DB.indexRecord env (fuel + 1) db record = some (db', none) ∧
      ∀ (a : Nat) (w : Value), db.cells[a]? = some (some w) →
        (Item.cell a ∈ db.tree.root.items ∧ w.key = (env.Set record).key →
          ((env.Set record).value = [] →
            db'.cells[a]? = some (some w) ∧ Item.cell a ∉ db'.tree.root.items) ∧
          ((env.Set record).value ≠ [] →
            db'.cells[a]? = some (some (setHash env db.flags (env.Set record))) ∧
            Item.cell a ∈ db'.tree.root.items)) ∧
        (¬ (Item.cell a ∈ db.tree.root.items ∧ w.key = (env.Set record).key) →
          db'.cells[a]? = some (some w) ∧
          (Item.cell a ∈ db'.tree.root.items ↔ Item.cell a ∈ db.tree.root.items)) := by
  have hvk : (setHash env db.flags (env.Set record)).key = (env.Set record).key := rfl
  have hvv : (setHash env db.flags (env.Set record)).value = (env.Set record).value := rfl
  rw [← hvk, ← hvv]
  set v := setHash env db.flags (env.Set record) with hvdef
  have hv : (db.cells ++ [some v])[db.cells.length]? = some (some v) := by simp
  have hold : ∀ a, Item.cell a ∈ db.tree.root.items →
      (db.cells ++ [some v])[a]? = db.cells[a]? :=
    fun a ha => cells_append_old (IndexInv.addr_lt hinv ha)
  have hinv0 : IndexInv env db.flags (db.cells ++ [some v]) db.tree.root :=
    IndexInv.frame_of_cells hinv hold
  have hh : v.hash = hashOf env db.flags v.key := rfl
  have hunf : DB.indexRecord env (fuel + 1) db record =
      match DB.indexLoop env record v db.cells.length (fuel + 1) (-1)
          { db with cells := db.cells ++ [some v] } with
      | none => none
      | some db => some (db, none) := by
    rw [← alloc_store_eq]
    rfl
  rw [hunf]
  have hlt : ∀ (a : Nat) (w : Value), db.cells[a]? = some (some w) → a < db.cells.length := by
    intro a w hc
    by_contra hcon
    rw [List.getElem?_eq_none (by omega)] at hc
    cases hc
  rcases step_cases (computePriority env record db.seed) db.nextTreap hinv0 hv hh with
    ⟨hval, habs, hget, _⟩ | ⟨hval, _, it, root', hget, hdel, _, _, hsub⟩ |
    ⟨hval, a0, w0, hget, hmem0, hcw0, hwk0, _, _, _, _⟩ |
    ⟨hval, habs, root', hget, hup, _, _, hmem'⟩
  · have hlen : v.GValue.length = 0 := by simp [Value.GValue, hval]
    refine ⟨{ db with cells := db.cells ++ [some v] }, ?_, ?_⟩
    · simp [DB.indexLoop, DB.indexAttempt, hlen, TreapPtr.Get, hget]
    · intro a w hc
      have hc0 : (db.cells ++ [some v])[a]? = some (some w) := getElem?_append_some hc
      refine ⟨?_, fun _ => ⟨hc0, Iff.rfl⟩⟩
      rintro ⟨hm, hk⟩
      exact absurd ⟨a, hm, hc0, hk⟩ (habs w)
  · have hlen : v.GValue.length = 0 := by simp [Value.GValue, hval]
    obtain ⟨t', hdel2, hitems⟩ := node.Delete_spec hinv0.ordered (decodeItem_cell hv)
    simp only [TreapPtr.Delete, hget, hdel2, Option.some.injEq, Prod.mk.injEq,
      TreapPtr.mk.injEq, true_and, and_true] at hdel
    subst hdel
    refine ⟨{ db with cells := db.cells ++ [some v], tree := ⟨db.nextTreap, t'⟩,
                      nextTreap := db.nextTreap + 1 }, ?_, ?_⟩
    · simp [DB.indexLoop, DB.indexAttempt, hlen, TreapPtr.Get, hget, TreapPtr.Delete, hdel2]
    · intro a w hc
      have hc0 : (db.cells ++ [some v])[a]? = some (some w) := getElem?_append_some hc
      constructor
      · rintro ⟨hm, hk⟩
        refine ⟨fun _ => ⟨hc0, ?_⟩, fun hne => absurd hval hne⟩
        intro hin
        have hin' : Item.cell a ∈ t'.items := hin
        rw [hitems, List.mem_filter] at hin'
        have := hin'.2
        rw [(hinv0.stored_key hm hc0).1, hk, hh] at this
        simp at this
      · intro hnot
        refine ⟨hc0, ?_⟩
        show Item.cell a ∈ t'.items ↔ _
        rw [hitems, List.mem_filter]
        constructor
        · exact fun h => h.1
        · intro hm
          refine ⟨hm, ?_⟩
          rw [(hinv0.stored_key hm hc0).1]
          simp only [ne_eq, Option.some.injEq, Prod.mk.injEq, not_and, decide_eq_true_eq]
          intro _ hk
          exact hnot ⟨hm, hk⟩
  · have hlen : ¬ v.GValue.length = 0 := by simpa [Value.GValue] using hval
    have halt0 : a0 < (db.cells ++ [some v]).length := IndexInv.addr_lt hinv0 hmem0
    refine ⟨{ db with cells := storeCell (db.cells ++ [some v]) a0 v }, ?_, ?_⟩
    · simp [DB.indexLoop, DB.indexAttempt, hlen, TreapPtr.Get, hget]
    · intro a w hc
      have hc0 : (db.cells ++ [some v])[a]? = some (some w) := getElem?_append_some hc
      constructor
      · rintro ⟨hm, hk⟩
        have ha : a = a0 := by
          have hda := (hinv0.stored_key hm hc0).1
          have hd0 := (hinv0.stored_key hmem0 hcw0).1
          have := sortedItems_unique hinv0.ordered hm hmem0 (by rw [hda, hd0, hk, hwk0])
          cases this
          rfl
        subst ha
        exact ⟨fun he => absurd he hval, fun _ => ⟨store_scratch_new v halt0, hm⟩⟩
      · intro hnot
        have hne : a ≠ a0 := by
          rintro rfl
          rw [hcw0] at hc0
          cases hc0
          exact hnot ⟨hmem0, hwk0⟩
        refine ⟨?_, Iff.rfl⟩
        show (storeCell (db.cells ++ [some v]) a0 v)[a]? = some (some w)
        rw [store_scratch_old v hne]
        exact hc0
  · have hlen : ¬ v.GValue.length = 0 := by simpa [Value.GValue] using hval
    refine ⟨{ db with cells := db.cells ++ [some v], tree := ⟨db.nextTreap, root'⟩,
                      nextTreap := db.nextTreap + 1 }, ?_, ?_⟩
    · simp [DB.indexLoop, DB.indexAttempt, hlen, TreapPtr.Get, hget, hup]
    · intro a w hc
      have hc0 : (db.cells ++ [some v])[a]? = some (some w) := getElem?_append_some hc
      constructor
      · rintro ⟨hm, hk⟩
        exact absurd ⟨a, hm, hc0, hk⟩ (habs w)
      · intro _
        refine ⟨hc0, ?_⟩
        show Item.cell a ∈ root'.items ↔ _
        rw [hmem']
        constructor
        · rintro (h | h)
          · have := hlt a w hc
            cases h
            omega
          · exact h
        · exact fun h => Or.inr h

/-- Counterexample to C12 as stated.  The reader holds the root of the `DB`
that holds `[5] ↦ [9]`, on which `Get([5])` is `([5], [9], true)`.  After
`Put([5], [10])`, which writes the record into the payload cell of the node
and leaves the root pointer as it was, the lookup of `[5]` on the root the
reader holds is `([5], [10], true)`. -/
theorem snapshot_isolation_counterexample :
    ∃ db', DB.Put demoEnv 1 demoDB1 [5] [10] = some (db', none) ∧
      db'.tree = demoDB1.tree ∧
      DB.Get demoEnv demoDB1 [5] true = some ([5], [9], true) ∧
      DB.Get demoEnv { demoDB1 with cells := db'.cells } [5] true = some ([5], [10], true) ∧
      DB.Get demoEnv { demoDB1 with cells := db'.cells } [5] true ≠
        DB.Get demoEnv demoDB1 [5] true :=
  ⟨_, rfl, rfl, rfl, rfl, by decide⟩

theorem observed_append (k : Bytes) (w : Value) (ws : List Value) (r : Value) :
    observed k w (ws ++ [r]) = observe k (observed k w ws) r := by
  simp [observed, List.foldl_append]

theorem foldl_observe_key (k : Bytes) (ws : List Value) (s : Value × Bool)
    (h : s.1.key = k) : (ws.foldl (observe k) s).1.key = k := by
  induction ws generalizing s with
  | nil => exact h
  | cons r rs ih =>
    apply ih
    unfold observe
    split_ifs with h1 h2
    · exact h
    · exact h1.2
    · exact h

theorem observed_key (w : Value) (ws : List Value) : (observed w.key w ws).1.key = w.key :=
  foldl_observe_key w.key ws (w, true) rfl

theorem foldl_observe_unchanged (k : Bytes) (ws : List Value) (s : Value × Bool)
    (h : ∀ r ∈ ws, r.key = k → r.value = []) : (ws.foldl (observe k) s).1 = s.1 := by
  induction ws generalizing s with
  | nil => rfl
  | cons r rs ih =>
    simp only [List.foldl_cons]
    rw [ih _ (fun r' hr' => h r' (List.mem_cons_of_mem r hr'))]
    unfold observe
    split_ifs with h1 h2
    · rfl
    · exact absurd (h r (List.mem_cons_self r rs) h1.2) h2
    · rfl

/-- A call of `DB.indexRecord` that returns has the effect on the cells that
`DB.indexRecord_at` states, and keeps the flags. -/
theorem DB.indexRecord_at_returned {Chunk : Type} {env : Env Chunk} {db db' : DB Chunk}
    {record : Bytes} {fuel : Nat} {err : Option Error} (hinv : DB.Inv env db)
    (h : DB.indexRecord env fuel db record = some (db', err)) :
    ∀ (a : Nat) (w : Value), db.cells[a]? = some (some w) →
      (Item.cell a ∈ db.tree.root.items ∧ w.key = (env.Set record).key →
        ((env.Set record).value = [] →
          db'.cells[a]? = some (some w) ∧ Item.cell a ∉ db'.tree.root.items) ∧
        ((env.Set record).value ≠ [] →
          db'.cells[a]? = some (some (setHash env db.flags (env.Set record))) ∧
          Item.cell a ∈ db'.tree.root.items)) ∧
      (¬ (Item.cell a ∈ db.tree.root.items ∧ w.key = (env.Set record).key) →
        db'.cells[a]? = some (some w) ∧
        (Item.cell a ∈ db'.tree.root.items ↔ Item.cell a ∈ db.tree.root.items)) := by
  cases fuel with
  | zero => simp [DB.indexRecord, DB.indexLoop] at h
  | succ fuel =>
    obtain ⟨db'', h', hat⟩ := DB.indexRecord_at record fuel hinv
    rw [h'] at h
    simp only [Option.some.injEq, Prod.mk.injEq] at h
    obtain ⟨rfl, _⟩ := h
    exact hat

/-- The state that the cell of a node of an older root is in, after one more
record `r` has been indexed, follows `observe`. -/
theorem observe_step {Chunk : Type} {env : Env Chunk} {db1 db2 : DB Chunk} {r : Value}
    {flags : LoadFlags} {a : Nat} {k : Bytes} {s : Value × Bool}
    (hflags : db1.flags = flags) (hkey : s.1.key = k)
    (hatt : Item.cell a ∈ db1.tree.root.items ↔ s.2 = true)
    (hat : (Item.cell a ∈ db1.tree.root.items ∧ s.1.key = r.key →
        (r.value = [] →
          db2.cells[a]? = some (some s.1) ∧ Item.cell a ∉ db2.tree.root.items) ∧
        (r.value ≠ [] →
          db2.cells[a]? = some (some (setHash env db1.flags r)) ∧
          Item.cell a ∈ db2.tree.root.items)) ∧
      (¬ (Item.cell a ∈ db1.tree.root.items ∧ s.1.key = r.key) →
        db2.cells[a]? = some (some s.1) ∧
        (Item.cell a ∈ db2.tree.root.items ↔ Item.cell a ∈ db1.tree.root.items))) :
    db2.cells[a]? = some (some (observe k s (setHash env flags r)).1) ∧
    (Item.cell a ∈ db2.tree.root.items ↔ (observe k s (setHash env flags r)).2 = true) := by
  have hrk : (setHash env flags r).key = r.key := rfl
  have hrv : (setHash env flags r).value = r.value := rfl
  unfold observe
  rw [hrk, hrv]
  by_cases hcond : Item.cell a ∈ db1.tree.root.items ∧ s.1.key = r.key
  · have hc' : s.2 = true ∧ r.key = k := ⟨hatt.mp hcond.1, hcond.2.symm.trans hkey⟩
    rw [if_pos hc']
    by_cases hval : r.value = []
    · rw [if_pos hval]
      obtain ⟨h1, h2⟩ := (hat.1 hcond).1 hval
      exact ⟨h1, by simp [h2]⟩
    · rw [if_neg hval]
      obtain ⟨h1, h2⟩ := (hat.1 hcond).2 hval
      rw [hflags] at h1
      exact ⟨h1, by simp [h2]⟩
  · have hc' : ¬ (s.2 = true ∧ r.key = k) := by
      rintro ⟨h1, h2⟩
      exact hcond ⟨hatt.mpr h1, hkey.trans h2.symm⟩
    rw [if_neg hc']
    obtain ⟨h1, h2⟩ := hat.2 hcond
    exact ⟨h1, h2.trans hatt⟩

/-- A call of `DB.Put` that returns an error leaves the flags, the cells and
the tree. -/
theorem DB.Put_failed {Chunk : Type} {env : Env Chunk} {db db' : DB Chunk} {k v : Bytes}
    {fuel : Nat} {e : Error} (hinv : DB.Inv env db)
    (h : DB.Put env fuel db k v = some (db', some e)) :
    db'.flags = db.flags ∧ db'.cells = db.cells ∧ db'.tree = db.tree := by
  unfold DB.Put at h
  simp only at h
  split_ifs at h with h1 h2
  · simp only [Option.some.injEq, Prod.mk.injEq] at h
    rw [← h.1]
    exact ⟨rfl, rfl, rfl⟩
  · simp only [Option.some.injEq, Prod.mk.injEq] at h
    rw [← h.1]
    exact ⟨rfl, rfl, rfl⟩
  · have hinv' : DB.Inv env
        { db with Ch := (env.Skip db.Ch (env.recordLength k.length v.length).1).2 } := hinv
    have := (DB.indexRecord_returned hinv' h).1
    cases this

/-- A call of `DB.PutRAW` that returns an error leaves the flags, the cells
and the tree. -/
theorem DB.PutRAW_failed {Chunk : Type} {env : Env Chunk} {db db' : DB Chunk}
    {record : Bytes} {fuel : Nat} {e : Error} (hinv : DB.Inv env db)
    (h : DB.PutRAW env fuel db record = some (db', some e)) :
    db'.flags = db.flags ∧ db'.cells = db.cells ∧ db'.tree = db.tree := by
  unfold DB.PutRAW at h
  simp only at h
  split_ifs at h with h1
  · simp only [Option.some.injEq, Prod.mk.injEq] at h
    rw [← h.1]
    exact ⟨rfl, rfl, rfl⟩
  · have hinv' : DB.Inv env { db with Ch := (env.Append db.Ch record).2 } := hinv
    have := (DB.indexRecord_returned hinv' h).1
    cases this

/-- The cells of the nodes of an older root after later calls: each holds the
record that `observed` computes from the record it held and the records of
the later calls, and is in the current tree if and only if `observed` says
so. -/
theorem DB.Later.observed_inv {Chunk : Type} {env : Env Chunk} {db db' : DB Chunk}
    {ws : List Value} (h : DB.Later env db ws db') (hinv : DB.Inv env db) :
    db'.flags = db.flags ∧ DB.Inv env db' ∧
    ∀ (a : Nat) (w : Value), Item.cell a ∈ db.tree.root.items →
      db.cells[a]? = some (some w) →
      db'.cells[a]? = some (some (observed w.key w (ws.map (setHash env db.flags))).1) ∧
      (Item.cell a ∈ db'.tree.root.items ↔
        (observed w.key w (ws.map (setHash env db.flags))).2 = true) := by
  induction h with
  | refl => exact ⟨rfl, hinv, fun a w hm hc => ⟨hc, by simp [observed, hm]⟩⟩
  | put fuel db0 db1 db2 ws key value _ hput ih =>
    obtain ⟨hf, hi, hobs⟩ := ih hinv
    have hput' := hput
    unfold DB.Put at hput'
    simp only at hput'
    split_ifs at hput' with h1 h2
    · simp only [Option.some.injEq, Prod.mk.injEq] at hput'
      exact absurd hput'.2 h1
    · simp only [Option.some.injEq, Prod.mk.injEq] at hput'
      exact absurd hput'.2 h2
    · have hinv' : DB.Inv env
          { db1 with Ch := (env.Skip db1.Ch (env.recordLength key.length value.length).1).2 } :=
        hi
      have hat := DB.indexRecord_at_returned hinv' hput'
      have hf2 := (DB.indexRecord_returned hinv' hput').2.2.2.2.1
      refine ⟨hf2.trans hf, DB.Put_inv hi hput, ?_⟩
      intro a w hm hc
      obtain ⟨hcell, hatt⟩ := hobs a w hm hc
      rw [List.map_append, List.map_singleton, observed_append]
      exact observe_step hf (observed_key w _) hatt (hat a _ hcell)
  | putFailed fuel db0 db1 db2 ws key value e _ hput ih =>
    obtain ⟨hf, hi, hobs⟩ := ih hinv
    obtain ⟨hf2, hc2, ht2⟩ := DB.Put_failed hi hput
    refine ⟨hf2.trans hf, DB.Put_inv hi hput, ?_⟩
    intro a w hm hc
    rw [hc2, ht2]
    exact hobs a w hm hc
  | putRAW fuel db0 db1 db2 ws record _ hput ih =>
    obtain ⟨hf, hi, hobs⟩ := ih hinv
    have hput' := hput
    unfold DB.PutRAW at hput'
    simp only at hput'
    split_ifs at hput' with h1
    · simp only [Option.some.injEq, Prod.mk.injEq] at hput'
      exact absurd hput'.2 h1
    · have hinv' : DB.Inv env { db1 with Ch := (env.Append db1.Ch record).2 } := hi
      have hat := DB.indexRecord_at_returned hinv' hput'
      have hf2 := (DB.indexRecord_returned hinv' hput').2.2.2.2.1
      refine ⟨hf2.trans hf, DB.PutRAW_inv hi hput, ?_⟩
      intro a w hm hc
      obtain ⟨hcell, hatt⟩ := hobs a w hm hc
      rw [List.map_append, List.map_singleton, observed_append]
      exact observe_step hf (observed_key w _) hatt (hat a _ hcell)
  | putRAWFailed fuel db0 db1 db2 ws record e _ hput ih =>
    obtain ⟨hf, hi, hobs⟩ := ih hinv
    obtain ⟨hf2, hc2, ht2⟩ := DB.PutRAW_failed hi hput
    refine ⟨hf2.trans hf, DB.PutRAW_inv hi hput, ?_⟩
    intro a w hm hc
    rw [hc2, ht2]
    exact hobs a w hm hc

/-- C12 as amended (readers that hold an older root).  Let a reader hold the
root of a `DB` that satisfies the invariant, and let calls of `Put`, `Delete`
and `PutRAW` complete afterwards, `ws` being the records of those that
returned nil, in order.  The lookups of the reader go to the root it holds
and to the payload cells as they are now.  A key that the lookup did not find
when the root was read is not found.  A key that it found, with the record
`w`, is found, and its record is `(observed k w ws).1`: the record of the last
call for the key with a non-empty value that completed before the first later
call for the key with an empty value (a delete), and `w` if there is no such
call.  So later inserts and deletes are not observed, a record written in
place is, and a key for which no later record has a non-empty value has the
record it had. -/
theorem snapshot_reads {Chunk : Type} (env : Env Chunk) (db db' : DB Chunk)
    (ws : List Value) (hinv : DB.Inv env db) (hlater : DB.Later env db ws db') :
    (∀ k synced, (∃ w, DB.GetRecord env db k synced = some (some w, true)) ∨
      DB.GetRecord env db k synced = some (none, false)) ∧
    (∀ k synced w, DB.GetRecord env db k synced = some (some w, true) →
      DB.GetRecord env { db with cells := db'.cells } k synced =
        some (some (observed k w (ws.map (setHash env db.flags))).1, true) ∧
      DB.Get env { db with cells := db'.cells } k synced =
        some (k, (observed k w (ws.map (setHash env db.flags))).1.value, true)) ∧
    (∀ k synced, DB.GetRecord env db k synced = some (none, false) →
      DB.GetRecord env { db with cells := db'.cells } k synced = some (none, false) ∧
      DB.Get env { db with cells := db'.cells } k synced = some ([], [], false)) ∧
    (∀ k synced, ¬ Overwritten ws k →
      DB.GetRecord env { db with cells := db'.cells } k synced =
        DB.GetRecord env db k synced ∧
      DB.Get env { db with cells := db'.cells } k synced = DB.Get env db k synced) := by
  obtain ⟨_, hrw⟩ := hlater.rewritten hinv
  obtain ⟨_, _, hobs⟩ := hlater.observed_inv hinv
  have hsnap : DB.Inv env { db with cells := db'.cells } := hrw.index_inv hinv
  have hsome : ∀ k, (∃ w, Holds db'.cells db.tree.root k w) ↔
      ∃ w, Holds db.cells db.tree.root k w := hrw.holds_some_iff hinv
  have hfound : ∀ k synced w, DB.GetRecord env db k synced = some (some w, true) →
      Holds db.cells db.tree.root k w := by
    intro k synced w hg
    rcases DB.GetRecord_cases hinv k synced with ⟨w', hw', hg'⟩ | ⟨_, hg'⟩
    · rw [hg] at hg'
      cases hg'
      exact hw'
    · rw [hg] at hg'
      cases hg'
  have habsent : ∀ k synced, DB.GetRecord env db k synced = some (none, false) →
      ∀ w, ¬ Holds db.cells db.tree.root k w := by
    intro k synced hg
    rcases DB.GetRecord_cases hinv k synced with ⟨w', _, hg'⟩ | ⟨hno, _⟩
    · rw [hg] at hg'
      cases hg'
    · exact hno
  refine ⟨?_, ?_, ?_, ?_⟩
  · intro k synced
    rcases DB.GetRecord_cases hinv k synced with ⟨w, _, hg⟩ | ⟨_, hg⟩
    · exact Or.inl ⟨w, hg⟩
    · exact Or.inr hg
  · intro k synced w hg
    obtain ⟨a, hm, hc, hk⟩ := hfound k synced w hg
    subst hk
    have hholds : Holds db'.cells db.tree.root w.key
        (observed w.key w (ws.map (setHash env db.flags))).1 :=
      ⟨a, hm, (hobs a w hm hc).1, observed_key w _⟩
    exact ⟨DB.GetRecord_found synced hsnap hholds, DB.Get_found synced hsnap hholds⟩
  · intro k synced hg
    have hno : ∀ w, ¬ Holds db'.cells db.tree.root k w :=
      fun w hw => (hsome k).mp ⟨w, hw⟩ |>.elim (habsent k synced hg)
    exact ⟨DB.GetRecord_absent synced hsnap hno, DB.Get_absent synced hsnap hno⟩
  · intro k synced hk
    constructor
    · rcases DB.GetRecord_cases hinv k synced with ⟨w, hw, hg⟩ | ⟨hno, hg⟩
      · rw [hg, DB.GetRecord_found synced hsnap ((hrw.holds_iff hinv hk w).mpr hw)]
      · rw [hg, DB.GetRecord_absent synced hsnap
          (fun w hw => hno w ((hrw.holds_iff hinv hk w).mp hw))]
    · exact DB.Get_congr_holds hinv hsnap (fun w => hrw.holds_iff hinv hk w) synced

/-- Witness of the amended C12: the reader holds the root of the `DB` that
holds `[5] ↦ [9]`.  After `Delete([5])` followed by `Put([5], [11])`, which
both return nil, its lookup of `[5]` on that root is still `([5], [9], true)`,
while the current root serves `[11]`. -/
theorem snapshot_reads_witness :
    ∃ db2 db3, DB.Delete demoEnv 1 demoDB1 [5] = some (db2, none) ∧
      DB.Put demoEnv 1 db2 [5] [11] = some (db3, none) ∧
      DB.Get demoEnv demoDB1 [5] true = some ([5], [9], true) ∧
      DB.Get demoEnv { demoDB1 with cells := db3.cells } [5] true = some ([5], [9], true) ∧
      DB.Get demoEnv db3 [5] true = some ([5], [11], true) := by
  obtain ⟨db2, h2, hc2⟩ := DB.Put_succeeds [5] [] 0 demoDB1_inv rfl rfl
  have hi2 : DB.Inv demoEnv db2 := DB.Put_inv demoDB1_inv h2
  obtain ⟨db3, h3, _⟩ := DB.Put_succeeds [5] [11] 0 hi2 rfl (by rw [hc2]; rfl)
  have hlater : DB.Later demoEnv demoDB1
      ([] ++ [DB.putRecord demoEnv demoDB1 [5] []] ++ [DB.putRecord demoEnv db2 [5] [11]])
      db3 :=
    DB.Later.put 1 demoDB1 db2 db3 _ [5] [11]
      (DB.Later.put 1 demoDB1 demoDB1 db2 [] [5] [] (DB.Later.refl demoDB1) h2) h3
  have hget : DB.GetRecord demoEnv demoDB1 [5] true =
      some (some { Record := [1, 1, 1, 5, 9], key := [5], value := [9], hash := 0 }, true) :=
    rfl
  have hold := ((snapshot_reads demoEnv demoDB1 db3 _ demoDB1_inv hlater).2.1
    [5] true _ hget).2
  have happ := (DB.Put_ok hi2 h3).2.2
  exact ⟨db2, db3, h2, h3, rfl, hold,
    DB.Get_found true (DB.Put_inv hi2 h3) ((happ [5] _).mpr (Or.inl ⟨rfl, rfl, List.cons_ne_nil 11 []⟩))⟩

/-! ## The loader and sequential indexing -/

theorem applyAllP_congr {C C' : Bytes → Value → Int → Prop} (es : List (Value × Int))
    (h : ∀ k w p, C k w p ↔ C' k w p) (k : Bytes) (w : Value) (p : Int) :
    applyAllP es C k w p ↔ applyAllP es C' k w p := by
  have : C = C' := by
    funext k w p
    exact propext (h k w p)
  rw [this]

/-- One valid record in the loop of `DB.load`, with priorities: the body
returns, keeps the loop invariant and applies the record, a new node getting
the priority computed from the record and the seed. -/
theorem DB.loadRecord_detail {Chunk : Type} {env : Env Chunk} {flags : LoadFlags} (seed : Nat)
    {st : LoadState} (v : Value) (hinv : LoadInv env flags st) :
    ∃ st', DB.loadRecord env flags seed st v = some st' ∧ LoadInv env flags st' ∧
      AppliedP (setHash env flags v) (computePriority env v.Record seed)
        (HoldsP st.cells st.t.root) (HoldsP st'.cells st'.t.root) ∧
      st'.mem = st.mem := by
  set w := setHash env flags v with hw
  set cells0 := storeCell st.cells st.vv w with hc0
  have hv : cells0[st.vv]? = some (some w) := store_scratch_new w hinv.scratch
  have hold : ∀ a, Item.cell a ∈ st.t.root.items → cells0[a]? = st.cells[a]? := by
    intro a ha
    apply store_scratch_old
    rintro rfl
    exact hinv.fresh ha
  have hinv0 : IndexInv env flags cells0 st.t.root := IndexInv.frame_of_cells hinv.index hold
  have hh : w.hash = hashOf env flags w.key := rfl
  have hbefore : ∀ k u p, HoldsP st.cells st.t.root k u p ↔ HoldsP cells0 st.t.root k u p :=
    fun k u p => (HoldsP.iff_of_cells_p hold k u p).symm
  have hlen0 : cells0.length = st.cells.length := by simp [hc0, storeCell]
  have hrec : w.Record = v.Record := rfl
  have hunf : DB.loadRecord env flags seed st v =
      if w.GValue.length = 0 then
        match st.t.Get cells0 (.cell st.vv) with
        | none => none
        | some none => some { st with cells := cells0, usedPos := st.pos }
        | some (some _) =>
          match st.t.Delete cells0 (.cell st.vv) st.nextTreap with
          | none => none
          | some (t, next) =>
            some { st with cells := cells0, t := t, nextTreap := next, usedPos := st.pos }
      else
        match st.t.Get cells0 (.cell st.vv) with
        | none => none
        | some (some oo) =>
          match oo with
          | .cell a => some { st with cells := storeCell cells0 a w, usedPos := st.pos }
          | _ => none
        | some none =>
          match st.t.Upsert cells0 (.cell st.vv) (computePriority env w.Record seed)
              st.nextTreap with
          | none => none
          | some (t, next) =>
            some { st with cells := (newCell cells0).2, t := t, nextTreap := next,
                           vv := (newCell cells0).1, usedPos := st.pos } := rfl
  rw [hunf, hrec]
  rcases step_cases (computePriority env v.Record seed) st.nextTreap hinv0 hv hh with
    ⟨hval, _, hget, happ⟩ | ⟨hval, _, it, root', hget, hdel, hinv', happ, hsub⟩ |
    ⟨hval, a, u, hget, _, _, _, _, _, hinv', happ⟩ |
    ⟨hval, _, root', hget, hup, hinv', happ, _⟩
  · have hlen : w.GValue.length = 0 := by simp [Value.GValue, hval]
    refine ⟨{ st with cells := cells0, usedPos := st.pos }, ?_,
      ⟨hinv0, by simpa [hlen0] using hinv.scratch, hinv.fresh⟩,
      happ.congr_p hbefore (fun _ _ _ => Iff.rfl), rfl⟩
    simp [hlen, TreapPtr.Get, hget]
  · have hlen : w.GValue.length = 0 := by simp [Value.GValue, hval]
    refine ⟨{ st with cells := cells0, t := ⟨st.nextTreap, root'⟩,
                      nextTreap := st.nextTreap + 1, usedPos := st.pos }, ?_,
      ⟨hinv', by simpa [hlen0] using hinv.scratch, fun h => hinv.fresh (hsub _ h)⟩,
      happ.congr_p hbefore (fun _ _ _ => Iff.rfl), rfl⟩
    simp [hlen, TreapPtr.Get, hget, hdel]
  · have hlen : ¬ w.GValue.length = 0 := by simpa [Value.GValue] using hval
    refine ⟨{ st with cells := storeCell cells0 a w, usedPos := st.pos }, ?_,
      ⟨hinv', by simpa [storeCell, hlen0] using hinv.scratch, hinv.fresh⟩,
      happ.congr_p hbefore (fun _ _ _ => Iff.rfl), rfl⟩
    simp [hlen, TreapPtr.Get, hget]
  · have hlen : ¬ w.GValue.length = 0 := by simpa [Value.GValue] using hval
    have hold' : ∀ a, Item.cell a ∈ root'.items → (newCell cells0).2[a]? = cells0[a]? :=
      fun a ha => newCell_old (IndexInv.addr_lt hinv' ha)
    refine ⟨{ st with cells := (newCell cells0).2, t := ⟨st.nextTreap, root'⟩,
                      nextTreap := st.nextTreap + 1, vv := (newCell cells0).1,
                      usedPos := st.pos }, ?_,
      ⟨IndexInv.frame_of_cells hinv' hold', by simp [newCell], ?_⟩,
      happ.congr_p hbefore (fun k u p => HoldsP.iff_of_cells_p hold' k u p), rfl⟩
    · simp [hlen, TreapPtr.Get, hget, hup]
    · intro h
      have := IndexInv.addr_lt hinv' h
      simp [newCell] at this

/-- The loop of `DB.load`, with priorities: when it halts the tree holds the
content it started from with the valid records scanned applied in order. -/
theorem DB.loadLoop_priorities {Chunk : Type} {env : Env Chunk} {flags : LoadFlags}
    {seed : Nat} (fuel : Nat) (st st' : LoadState) (hinv : LoadInv env flags st)
    (h : DB.loadLoop env flags seed fuel st = some st') :
    ∀ k w p, HoldsP st'.cells st'.t.root k w p ↔
      applyAllP ((validRecords (scanned env flags fuel st.mem)).map
          (fun v => (setHash env flags v, computePriority env v.Record seed)))
        (HoldsP st.cells st.t.root) k w p := by
  induction fuel generalizing st with
  | zero => simp [DB.loadLoop] at h
  | succ fuel ih =>
    simp only [DB.loadLoop] at h
    split_ifs at h with h1 h2 h3
    · cases h
      rw [scanned_halt fuel (Or.inl h1)]
      exact fun k w p => Iff.rfl
    · cases h
      rw [scanned_halt fuel (Or.inr h2)]
      exact fun k w p => Iff.rfl
    · have hc := ih _
          (⟨hinv.index, hinv.scratch, hinv.fresh⟩ :
            LoadInv env flags { st with
              mem := st.mem.drop (env.Decode st.mem).1.Record.length,
              pos := wrapInt64 (st.pos + ((env.Decode st.mem).1.Record.length : Int)) }) h
      rw [scanned_step fuel h1 h2]
      have hvr : validRecords (env.Decode st.mem ::
          scanned env flags fuel (st.mem.drop (env.Decode st.mem).1.Record.length))
          = validRecords (scanned env flags fuel
              (st.mem.drop (env.Decode st.mem).1.Record.length)) := by
        simp [validRecords, h3]
      rw [hvr]
      exact hc
    · have h3' : (env.Decode st.mem).2 = none := by
        by_contra hcon
        exact h3 hcon
      obtain ⟨st2, hrec, hinv2, happ, hmem⟩ :=
        DB.loadRecord_detail seed (env.Decode st.mem).1
          (⟨hinv.index, hinv.scratch, hinv.fresh⟩ :
            LoadInv env flags { st with
              mem := st.mem.drop (env.Decode st.mem).1.Record.length,
              pos := wrapInt64 (st.pos + ((env.Decode st.mem).1.Record.length : Int)) })
      rw [hrec] at h
      have hc := ih _ hinv2 h
      rw [scanned_step fuel h1 h2]
      rw [hmem] at hc
      intro k w p
      rw [hc k w p]
      simp only [validRecords, h3', ↓reduceIte, List.map_cons, applyAllP]
      apply applyAllP_congr
      intro k w p
      exact happ k w p

/-- The tree after `DB.load`, with priorities. -/
theorem DB.load_priorities {Chunk : Type} {env : Env Chunk} {db db' : DB Chunk} (fuel : Nat)
    (hinv : DB.Inv env db) (h : DB.load env fuel db = some db') :
    ∀ k w p, HoldsP db'.cells db'.tree.root k w p ↔
      applyAllP ((validRecords (scanned env db.flags fuel (env.GetCommitted db.Ch).1)).map
          (fun v => (setHash env db.flags v, computePriority env v.Record db.seed)))
        (HoldsP db.cells db.tree.root) k w p := by
  unfold DB.load at h
  cases hloop : DB.loadLoop env db.flags db.seed fuel (DB.loadInit env db) with
  | none => simp [hloop] at h
  | some st =>
    have hc := DB.loadLoop_priorities fuel _ st (DB.loadInit_inv hinv) hloop
    have hinit : ∀ k w p, HoldsP (DB.loadInit env db).cells (DB.loadInit env db).t.root k w p ↔
        HoldsP db.cells db.tree.root k w p :=
      HoldsP.iff_of_cells_p (fun _ ha => newCell_old (IndexInv.addr_lt hinv ha))
    have hc' : ∀ k w p, HoldsP st.cells st.t.root k w p ↔
        applyAllP ((validRecords (scanned env db.flags fuel (env.GetCommitted db.Ch).1)).map
            (fun v => (setHash env db.flags v, computePriority env v.Record db.seed)))
          (HoldsP db.cells db.tree.root) k w p := by
      intro k w p
      rw [hc k w p]
      exact applyAllP_congr _ hinit k w p
    simp only [hloop] at h
    split_ifs at h with hflag
    · cases h
      exact hc'
    · cases h
      exact hc'

/-- Sequential calls of `DB.indexRecord` on a list of records, each allowed
one pass, on a `DB` that satisfies the invariant: they all return, and the
tree holds the former content with the records applied in order. -/
theorem DB.indexAll_spec {Chunk : Type} {env : Env Chunk} (records : List Bytes)
    {db : DB Chunk} (hinv : DB.Inv env db) :
    ∃ db', DB.indexAll env 1 db records = some db' ∧ DB.Inv env db' ∧
      ∀ k w p, HoldsP db'.cells db'.tree.root k w p ↔
        applyAllP (records.map
            (fun r => (setHash env db.flags (env.Set r), computePriority env r db.seed)))
          (HoldsP db.cells db.tree.root) k w p := by
  induction records generalizing db with
  | nil => exact ⟨db, rfl, hinv, fun k w p => Iff.rfl⟩
  | cons r rs ih =>
    obtain ⟨db1, h1, hi1, happ, _, hf, _, hs, _⟩ := DB.indexRecord_detail r 0 hinv
    obtain ⟨db', h', hi', hc⟩ := ih hi1
    refine ⟨db', ?_, hi', ?_⟩
    · simp only [DB.indexAll]
      rw [show (0 : Nat) + 1 = 1 from rfl] at h1
      rw [h1]
      exact h'
    · intro k w p
      rw [hc k w p, hf, hs]
      simp only [List.map_cons, applyAllP]
      apply applyAllP_congr
      intro k w p
      exact happ k w p

theorem Holds_iff_exists_priority {cells : Cells} {root : node} (k : Bytes) (w : Value) :
    Holds cells root k w ↔ ∃ p, HoldsP cells root k w p :=
  ⟨fun h => h.exists_priority, fun ⟨_, h⟩ => h.to_holds⟩

/-- C17 (the loader and live indexing agree).  Let `DB.load` run on a `DB`
that satisfies the invariant of the index (the empty tree does) and return
`db1`, and let the codec be coherent on the valid records scanned:
`Value.Set` on the bytes of a decoded record yields the record, the key and
the value that `Decode` yielded.  Then the sequential calls of
`DB.indexRecord` on the bytes of the valid records scanned, in the order of
the log, from the same `DB` (the same tree, seed and flags), all return, and
their final tree holds for every key the same record in a node of the same
priority as the tree of `db1`; `Get` returns the same on both. -/
theorem loader_agrees_with_indexing {Chunk : Type} (env : Env Chunk) (db db1 : DB Chunk)
    (fuel : Nat) (hinv : DB.Inv env db) (hload : DB.load env fuel db = some db1)
    (hcodec : ∀ v ∈ validRecords (scanned env db.flags fuel (env.GetCommitted db.Ch).1),
      (env.Set v.Record).Record = v.Record ∧ (env.Set v.Record).key = v.key ∧
      (env.Set v.Record).value = v.value) :
    ∃ db2, DB.indexAll env 1 db
        ((validRecords (scanned env db.flags fuel (env.GetCommitted db.Ch).1)).map
          Value.Record) = some db2 ∧
      (∀ k w p, HoldsP db1.cells db1.tree.root k w p ↔ HoldsP db2.cells db2.tree.root k w p) ∧
      (∀ k synced, DB.Get env db1 k synced = DB.Get env db2 k synced) := by
  obtain ⟨db2, h2, hi2, hc2⟩ := DB.indexAll_spec
    ((validRecords (scanned env db.flags fuel (env.GetCommitted db.Ch).1)).map Value.Record)
    hinv
  have hc1 := DB.load_priorities fuel hinv hload
  have hi1 := (DB.load_spec fuel hinv hload).1
  have hlist : ((validRecords (scanned env db.flags fuel (env.GetCommitted db.Ch).1)).map
        Value.Record).map
        (fun r => (setHash env db.flags (env.Set r), computePriority env r db.seed)) =
      (validRecords (scanned env db.flags fuel (env.GetCommitted db.Ch).1)).map
        (fun v => (setHash env db.flags v, computePriority env v.Record db.seed)) := by
    rw [List.map_map]
    apply List.map_congr_left
    intro v hv
    obtain ⟨hr, hk, hval⟩ := hcodec v hv
    have hset : setHash env db.flags (env.Set v.Record) = setHash env db.flags v := by
      cases hv' : env.Set v.Record with
      | mk R key value hash =>
        rw [hv'] at hr hk hval
        simp only at hr hk hval
        cases v with
        | mk R' key' value' hash' =>
          simp only at hr hk hval
          subst hr hk hval
          rfl
    simp only [Function.comp, hset]
  have hP : ∀ k w p, HoldsP db1.cells db1.tree.root k w p ↔
      HoldsP db2.cells db2.tree.root k w p := by
    intro k w p
    rw [hc1 k w p, hc2 k w p, hlist]
  refine ⟨db2, h2, hP, ?_⟩
  intro k synced
  apply DB.Get_congr_holds hi2 hi1
  intro w
  rw [Holds_iff_exists_priority, Holds_iff_exists_priority]
  exact exists_congr (fun p => hP k w p)

/-- Witness of C17: the log `[put(a,1), put(b,2), delete(a)]` of the concrete
instance, loaded into the empty tree and indexed record by record. -/
theorem loader_agrees_with_indexing_witness :
    ∃ db1, DB.load demoEnv 15 (demoDB demoLogABA 0) = some db1 ∧
      ∃ db2, DB.indexAll demoEnv 1 (demoDB demoLogABA 0)
          [demoRecord [97] [1], demoRecord [98] [2], demoRecord [97] []] = some db2 ∧
        (∀ k w p, HoldsP db1.cells db1.tree.root k w p ↔
          HoldsP db2.cells db2.tree.root k w p) ∧
        (∀ k synced, DB.Get demoEnv db1 k synced = DB.Get demoEnv db2 k synced) := by
  have h : ∃ db1, DB.load demoEnv 15 (demoDB demoLogABA 0) = some db1 := ⟨_, rfl⟩
  obtain ⟨db1, h1⟩ := h
  exact ⟨db1, h1, loader_agrees_with_indexing demoEnv (demoDB demoLogABA 0) db1 15
    (demoDB_inv demoLogABA 0) h1 (by decide)⟩

end Mmdb2
